import Mathlib

/-!
# clang-tags: the persistent cross-reference store (`storage.hxx`) and the indexer (`index.cxx`)

The SQLite database behind `Storage` is embedded as a record of five tables, each a list of
rows in rowid order.  `INSERT` appends a row, `DELETE ... WHERE` filters, `UPDATE ... WHERE`
maps, `SELECT ... WHERE` filters and, where the C++ code steps the statement once, takes the
first row.  C `int` values (ids, timestamps, offsets) are embedded as `Int`: the code does no
arithmetic on them besides comparison, and SQLite computes `offset2 - offset1` on 64-bit
integers holding 32-bit values.

The filesystem is a function from a path to the answer of `stat()`: `none` when `stat()`
fails, `some m` when it succeeds with `st_mtime` read into `int modified` as `m`.

The JSON library (`json/json.h`) is not among the sources: its writer and its reader are
modelled for the values `serialize_` builds, the null value and arrays of strings, with a
`std::string` taken as a sequence of characters.
-/

set_option autoImplicit false

namespace ClangTags

/-! ## Schema (`Storage::Storage`) -/

/-- Row of `files (id INTEGER PRIMARY KEY, name TEXT, indexed INTEGER)`. -/
structure FileRow where
  id : Int
  name : String
  indexed : Int
deriving DecidableEq, Repr

/-- Row of `commands (fileId, directory, args)`. -/
structure CommandRow where
  fileId : Int
  directory : String
  args : String
deriving DecidableEq, Repr

/-- Row of `includes (sourceId, includedId)`. -/
structure IncludeRow where
  sourceId : Int
  includedId : Int
deriving DecidableEq, Repr

/-- Row of `tags`, columns in the order of the `CREATE TABLE` statement. -/
structure TagRow where
  fileId : Int
  usr : String
  kind : String
  spelling : String
  line1 : Int
  col1 : Int
  offset1 : Int
  line2 : Int
  col2 : Int
  offset2 : Int
  isDecl : Bool
  isDefn : Bool
deriving DecidableEq, Repr

/-- Row of `options (name, value)`. -/
structure OptionRow where
  name : String
  value : String
deriving DecidableEq, Repr

/-- The database held by a `Storage` object: its five tables. -/
structure Storage where
  files : List FileRow
  commands : List CommandRow
  includes : List IncludeRow
  tags : List TagRow
  options : List OptionRow
deriving DecidableEq, Repr

/-- The answer of `stat()` for each path: `none` if it fails, else the modification time. -/
abbrev FileSystem := String → Option Int

/-! ## The JSON library (`json/json.h`) -/

namespace Json

/-- Modelled from the spec: the JSON library (`json/json.h`) is not among the sources.  The
`Json::Value`s that `serialize_` builds and `deserialize_` reads: the null value of a fresh
`Json::Value`, and an array of strings. -/
inductive Value where
  | null
  | array (items : List String)
deriving DecidableEq, Repr

namespace Value

/-- Modelled from the spec: `Value::append` puts a string at the end of an array; a null
value becomes an array first. -/
def append : Value → String → Value
  | .null, x => .array [x]
  | .array xs, x => .array (xs ++ [x])

/-- Modelled from the spec: the strings `json[i].asString ()` for `i < json.size ()`, in the
order of `i`; the size of the null value is `0`. -/
def items : Value → List String
  | .null => []
  | .array xs => xs

end Value

/-- Modelled from the spec: the quotation mark that delimits a JSON string. -/
def dquote : Char := Char.ofNat 34

/-- Modelled from the spec: the reverse solidus that starts an escape in a JSON string. -/
def rsolidus : Char := Char.ofNat 92

/-- Modelled from the spec: the upper-case hexadecimal digit of a number below 16. -/
def hexDigit (n : Nat) : Char :=
  if n < 10 then Char.ofNat (48 + n) else Char.ofNat (55 + n)

/-- Modelled from the spec: the value of a hexadecimal digit, in either case. -/
def hexVal (c : Char) : Option Nat :=
  if 48 ≤ c.toNat ∧ c.toNat ≤ 57 then some (c.toNat - 48)
  else if 65 ≤ c.toNat ∧ c.toNat ≤ 70 then some (c.toNat - 55)
  else if 97 ≤ c.toNat ∧ c.toNat ≤ 102 then some (c.toNat - 87)
  else none

/-- Modelled from the spec: how the writer puts one character of a string: the quotation
mark, the reverse solidus and the control characters are escaped, the latter by their short
form or as `\u00XX`. -/
def escapeChar (c : Char) : List Char :=
  if c = dquote then [rsolidus, dquote]
  else if c = rsolidus then [rsolidus, rsolidus]
  else if c = Char.ofNat 8 then [rsolidus, 'b']
  else if c = Char.ofNat 12 then [rsolidus, 'f']
  else if c = Char.ofNat 10 then [rsolidus, 'n']
  else if c = Char.ofNat 13 then [rsolidus, 'r']
  else if c = Char.ofNat 9 then [rsolidus, 't']
  else if c.toNat < 32 then
    [rsolidus, 'u', '0', '0', hexDigit (c.toNat / 16), hexDigit (c.toNat % 16)]
  else [c]

/-- Modelled from the spec: a string between quotation marks, its characters escaped. -/
def quoted (x : String) : List Char :=
  dquote :: (x.data.flatMap escapeChar ++ [dquote])

/-- Modelled from the spec: the elements of an array, separated by commas, with no white
space (no pretty-printing). -/
def writeItems : List String → List Char
  | [] => []
  | x :: rest =>
    match rest with
    | [] => quoted x
    | _ :: _ => quoted x ++ ',' :: writeItems rest

/-- Modelled from the spec: `FastWriter::write`, the document on one line, ended by a line
feed. -/
def write : Value → String
  | .null => "null\n"
  | .array xs => String.mk ('[' :: (writeItems xs ++ [']', Char.ofNat 10]))

/-- Modelled from the spec: where the reader is in the document. -/
inductive ReaderState where
  /-- Before the value. -/
  | start
  /-- Inside the literal `null`; the characters still to come. -/
  | literal (expected : List Char)
  /-- After `[` (`first`) or after a comma: an element is to come. -/
  | element (items : List String) (first : Bool)
  /-- Inside a string. -/
  | chars (items : List String) (cur : List Char)
  /-- After a reverse solidus inside a string. -/
  | escape (items : List String) (cur : List Char)
  /-- Inside `\uXXXX`, after `count` digits of value `acc`. -/
  | unicode (items : List String) (cur : List Char) (acc count : Nat)
  /-- After the closing quotation mark of an element. -/
  | afterElement (items : List String)
  /-- After the value. -/
  | done (v : Value)
deriving DecidableEq, Repr

/-- Modelled from the spec: white space between the tokens of a document. -/
def isSpace (c : Char) : Bool :=
  c = ' ' ∨ c = Char.ofNat 9 ∨ c = Char.ofNat 10 ∨ c = Char.ofNat 13

/-- Modelled from the spec: the character an escape letter stands for. -/
def unescape (c : Char) : Option Char :=
  if c = dquote then some dquote
  else if c = rsolidus then some rsolidus
  else if c = '/' then some '/'
  else if c = 'b' then some (Char.ofNat 8)
  else if c = 'f' then some (Char.ofNat 12)
  else if c = 'n' then some (Char.ofNat 10)
  else if c = 'r' then some (Char.ofNat 13)
  else if c = 't' then some (Char.ofNat 9)
  else none

/-- Modelled from the spec: the reader on one character; `none` where the document is
malformed.  A document is `null` or an array of strings; other JSON values, which
`serialize_` never writes, are refused with the malformed ones. -/
def step : ReaderState → Char → Option ReaderState
  | .start, c =>
    if isSpace c then some .start
    else if c = 'n' then some (.literal ['u', 'l', 'l'])
    else if c = '[' then some (.element [] true)
    else none
  | .literal [], _ => none
  | .literal (e :: rest), c =>
    if c = e then (if rest.isEmpty then some (.done .null) else some (.literal rest))
    else none
  | .element items first, c =>
    if isSpace c then some (.element items first)
    else if c = dquote then some (.chars items [])
    else if c = ']' ∧ first = true then some (.done (.array items))
    else none
  | .chars items cur, c =>
    if c = dquote then some (.afterElement (items ++ [String.mk cur]))
    else if c = rsolidus then some (.escape items cur)
    else some (.chars items (cur ++ [c]))
  | .escape items cur, c =>
    if c = 'u' then some (.unicode items cur 0 0)
    else (unescape c).map (fun ch => .chars items (cur ++ [ch]))
  | .unicode items cur acc count, c =>
    (hexVal c).map (fun d =>
      if count = 3 then .chars items (cur ++ [Char.ofNat (acc * 16 + d)])
      else .unicode items cur (acc * 16 + d) (count + 1))
  | .afterElement items, c =>
    if isSpace c then some (.afterElement items)
    else if c = ',' then some (.element items false)
    else if c = ']' then some (.done (.array items))
    else none
  | .done v, c => if isSpace c then some (.done v) else none

/-- Modelled from the spec: the reader over the characters of a document, from a state. -/
def run : ReaderState → List Char → Option ReaderState
  | st, [] => some st
  | st, c :: rest =>
    match step st c with
    | none => none
    | some st1 => run st1 rest

/-- Modelled from the spec: `Reader::parse`: the value of a well-formed document, `none`
(the answer `false`) for a malformed one. -/
def parse (document : String) : Option Value :=
  match run .start document.data with
  | some (.done v) => some v
  | _ => none

end Json

namespace Storage

/-- The database right after the `CREATE TABLE IF NOT EXISTS` statements on a fresh file. -/
def empty : Storage := ⟨[], [], [], [], []⟩

/-! ## Private helpers -/

/-- `fileId_`: `SELECT id FROM files WHERE name=?`, first row, `-1` when there is none. -/
def fileId_ (s : Storage) (fileName : String) : Int :=
  match s.files.find? (fun f => f.name = fileName) with
  | some f => f.id
  | none => -1

/-- The rowid SQLite gives to a row inserted with a `NULL` integer primary key:
one more than the largest id in the table, `1` in an empty table. -/
def newRowId (files : List FileRow) : Int :=
  match (files.map FileRow.id).max? with
  | some m => m + 1
  | none => 1

/-- `addFile_`: look the name up, and insert `(NULL, name, 0)` when `fileId_` gave `-1`;
returns the id and the new database. -/
def addFile_ (s : Storage) (fileName : String) : Int × Storage :=
  let id := s.fileId_ fileName
  if id = -1 then
    let id' := newRowId s.files
    (id', { s with files := s.files ++ [⟨id', fileName, 0⟩] })
  else
    (id, s)

/-! ## Public operations -/

/-- `addInclude (int includedId, int sourceId)`: insert `(sourceId, includedId)` unless a row
with both values is already there. -/
def addInclude (s : Storage) (includedId sourceId : Int) : Storage :=
  if s.includes.any (fun e => e.sourceId = sourceId ∧ e.includedId = includedId) then s
  else { s with includes := s.includes ++ [⟨sourceId, includedId⟩] }

/-- `addInclude (string includedFile, string sourceFile)`: resolves both names and throws
(`none`) when either is unknown. -/
def addIncludeNamed (s : Storage) (includedFile sourceFile : String) : Option Storage :=
  let includedId := s.fileId_ includedFile
  let sourceId := s.fileId_ sourceFile
  if includedId = -1 ∨ sourceId = -1 then none
  else some (s.addInclude includedId sourceId)

/-- `setCompileCommand`; `serializedArgs` is the value of `serialize_ (args)`. -/
def setCompileCommand (s : Storage) (fileName directory serializedArgs : String) :
    Int × Storage :=
  let (fileId, s1) := s.addFile_ fileName
  let s2 := s1.addInclude fileId fileId
  let s3 := { s2 with commands := s2.commands.filter (fun c => ¬ c.fileId = fileId) }
  (fileId, { s3 with commands := s3.commands ++ [⟨fileId, directory, serializedArgs⟩] })

/-- `cleanIndex`: `DELETE FROM tags; UPDATE files SET indexed = 0`. -/
def cleanIndex (s : Storage) : Storage :=
  { s with tags := [], files := s.files.map (fun f => { f with indexed := 0 }) }

/-- The value read by `SELECT indexed FROM files WHERE id = ?` in `beginFile`.  The row
exists, `addFile_` has just returned its id; `0` stands for the unread variable otherwise. -/
def indexedOf (s : Storage) (fileId : Int) : Int :=
  match s.files.find? (fun f => f.id = fileId) with
  | some f => f.indexed
  | none => 0

/-- `beginFile`.  The return value of `stat()` is not looked at: when it fails, `modified`
is whatever the uninitialised `fileStat` holds, here `uninit`. -/
def beginFile (fs : FileSystem) (uninit : Int) (s : Storage) (fileName : String) :
    Bool × Storage :=
  let (fileId, s1) := s.addFile_ fileName
  let indexed := s1.indexedOf fileId
  let modified := (fs fileName).getD uninit
  if modified > indexed then
    (true,
      { s1 with
        tags := s1.tags.filter (fun t => ¬ t.fileId = fileId)
        includes := s1.includes.filter (fun e => ¬ e.sourceId = fileId)
        files := s1.files.map
          (fun f => if f.id = fileId then { f with indexed := modified } else f) })
  else
    (false, s1)

/-- `removeFile`: five `DELETE` statements keyed on `fileId_ (fileName)`. -/
def removeFile (s : Storage) (fileName : String) : Storage :=
  let fileId := s.fileId_ fileName
  { s with
    commands := s.commands.filter (fun c => ¬ c.fileId = fileId)
    includes := (s.includes.filter (fun e => ¬ e.sourceId = fileId)).filter
      (fun e => ¬ e.includedId = fileId)
    tags := s.tags.filter (fun t => ¬ t.fileId = fileId)
    files := s.files.filter (fun f => ¬ f.id = fileId) }

/-- `addTag`: nothing for an unknown file; otherwise insert unless a row with the same
`(fileId, usr, offset1, offset2)` is there. -/
def addTag (s : Storage) (usr kind spelling fileName : String)
    (line1 col1 offset1 line2 col2 offset2 : Int) (isDeclaration isDefinition : Bool) :
    Storage :=
  let fileId := s.fileId_ fileName
  if fileId = -1 then s
  else if s.tags.any (fun t =>
      t.fileId = fileId ∧ t.usr = usr ∧ t.offset1 = offset1 ∧ t.offset2 = offset2) then s
  else
    { s with tags := s.tags ++
        [⟨fileId, usr, kind, spelling, line1, col1, offset1, line2, col2, offset2,
          isDeclaration, isDefinition⟩] }

/-- `setOption (name, string value)`: delete the rows named `name`, insert one. -/
def setOption (s : Storage) (name value : String) : Storage :=
  { s with options := s.options.filter (fun o => ¬ o.name = name) ++ [⟨name, value⟩] }

/-- `getOption (name)`: the value of the first row named `name`, else the empty string. -/
def getOption (s : Storage) (name : String) : String :=
  match s.options.find? (fun o => o.name = name) with
  | some o => o.value
  | none => ""

/-! ## Vectors of strings: `serialize_`, `deserialize_` and their callers -/

/-- `serialize_`: `append` every string to a fresh `Json::Value`, then `FastWriter::write`. -/
def serialize_ (v : List String) : String :=
  Json.write (v.foldl Json.Value.append .null)

/-- `deserialize_ (s, v)`: the vector `v` afterwards.  Nothing is pushed when `parse` answers
false; else `json[i].asString ()` is pushed for each `i < json.size ()`. -/
def deserialize_ (s : String) (v : List String) : List String :=
  match Json.parse s with
  | none => v
  | some json => v ++ json.items

/-- `setOption (name, vector value)`. -/
def setOptionVector (s : Storage) (name : String) (value : List String) : Storage :=
  s.setOption name (serialize_ value)

/-- `getOption (name, Vector)`: `deserialize_` into an empty vector. -/
def getOptionVector (s : Storage) (name : String) : List String :=
  deserialize_ (s.getOption name) []

/-- The rows of `includes INNER JOIN commands ON includes.sourceId = commands.fileId WHERE
includes.includedId = ?`, as `(directory, args)`: SQLite scans `includes` and looks the
commands of each source up, both in rowid order. -/
def getCompileCommandRows (s : Storage) (fileId : Int) : List (String × String) :=
  (s.includes.filter (fun e => e.includedId = fileId)).flatMap (fun e =>
    (s.commands.filter (fun c => e.sourceId = c.fileId)).map (fun c => (c.directory, c.args)))

/-- `getCompileCommand (fileName, directory, args)`: `none` for the `std::runtime_error`
thrown when the query has no row; else `directory` and `args` afterwards, read from the first
row.  `directory` is overwritten, the stored arguments are pushed onto the `args` passed. -/
def getCompileCommand (s : Storage) (fileName : String) (args : List String) :
    Option (String × List String) :=
  let fileId := s.fileId_ fileName
  match getCompileCommandRows s fileId with
  | [] => none
  | (directory, serializedArgs) :: _ => some (directory, deserialize_ serializedArgs args)

/-! ## `nextFile` -/

/-- One result row of the query in `nextFile`:
`included.name, included.indexed, source.name, count(source.name) AS sourceCount`. -/
structure Candidate where
  includedName : String
  indexed : Int
  sourceName : String
  sourceCount : Nat
deriving DecidableEq, Repr

/-- The rows of `includes INNER JOIN files AS source ON source.id = includes.sourceId
INNER JOIN files AS included ON included.id = includes.includedId`, as pairs
`(source, included)`. -/
def joinRows (s : Storage) : List (FileRow × FileRow) :=
  s.includes.flatMap (fun e =>
    (s.files.filter (fun f => f.id = e.sourceId)).flatMap (fun src =>
      (s.files.filter (fun f => f.id = e.includedId)).map (fun inc => (src, inc))))

/-- The keys of `GROUP BY included.id`, in ascending order: SQLite sorts the rows of the join
on the key to form the groups. -/
def groupKeys (s : Storage) : List Int :=
  (((joinRows s).map (fun r => r.2.id)).dedup).insertionSort (fun a b => a ≤ b)

/-- The result row of one group.  `count(source.name)` counts the rows of the group (a name
is never `NULL`); the bare columns are read from one row of the group, which SQL leaves
unspecified: the embedding takes the first in the order of `includes`, as SQLite does. -/
def groupRow (s : Storage) (k : Int) : Option Candidate :=
  match (joinRows s).filter (fun r => r.2.id = k) with
  | [] => none
  | (src, inc) :: rest => some ⟨inc.name, inc.indexed, src.name, rest.length + 1⟩

/-- The result of the query of `nextFile`, `ORDER BY sourceCount`; groups with the same
count stay in the order of their keys.  The statement sorts on an aggregate, so SQLite
computes every row on the first `step()`: the loop reads a snapshot. -/
def nextFileQuery (s : Storage) : List Candidate :=
  ((groupKeys s).filterMap (groupRow s)).insertionSort
    (fun a b => a.sourceCount ≤ b.sourceCount)

/-- The `while (stmt.step() == SQLITE_ROW)` loop of `nextFile` over the remaining rows. -/
def nextFileLoop (fs : FileSystem) : List Candidate → Storage → String × Storage
  | [], s => ("", s)
  | c :: rest, s =>
    match fs c.includedName with
    | none => nextFileLoop fs rest (s.removeFile c.includedName)
    | some modified =>
      if modified > c.indexed then (c.sourceName, s) else nextFileLoop fs rest s

/-- `nextFile`: the returned name (empty for none) and the database afterwards. -/
def nextFile (fs : FileSystem) (s : Storage) : String × Storage :=
  nextFileLoop fs (nextFileQuery s) s

/-! ## Queries -/

/-- `Storage::Reference`. -/
structure Reference where
  file : String
  line1 : Int
  line2 : Int
  col1 : Int
  col2 : Int
  offset1 : Int
  offset2 : Int
  kind : String
  spelling : String
deriving DecidableEq, Repr

/-- `Storage::Definition`. -/
structure Definition where
  usr : String
  file : String
  line1 : Int
  line2 : Int
  col1 : Int
  col2 : Int
  kind : String
  spelling : String
deriving DecidableEq, Repr

/-- `Storage::RefDef`. -/
structure RefDef where
  ref : Reference
  «def» : Definition
deriving DecidableEq, Repr

/-- The contents of the `int` members of a `Reference` that was declared and never
assigned: indeterminate values. -/
structure UninitReference where
  line1 : Int
  line2 : Int
  col1 : Int
  col2 : Int
deriving DecidableEq, Repr

/-- The rows of the join in `findDefinition` that pass its `WHERE` clause, as triples
`(ref, def, defFile)`, before `ORDER BY`. -/
def findDefinitionRows (s : Storage) (fileId offset : Int) :
    List (TagRow × TagRow × FileRow) :=
  s.tags.flatMap (fun r =>
    (s.tags.filter (fun d => d.usr = r.usr)).flatMap (fun d =>
      ((s.files.filter (fun f => d.fileId = f.id)).filter (fun _ =>
          d.isDecl = true ∧ r.fileId = fileId ∧ r.offset1 ≤ offset ∧ r.offset2 ≥ offset)).map
        (fun f => (r, d, f))))

/-- The body of the `while` loop of `findDefinition` for one result row: twelve columns are
read, `ref.file` is assigned, and `ref.line1`, `ref.line2`, `ref.col1`, `ref.col2` keep the
contents `u` of the fresh `RefDef`. -/
def findDefinitionRefDef (u : UninitReference) (fileName : String)
    (row : TagRow × TagRow × FileRow) : RefDef :=
  { ref :=
      { file := fileName, line1 := u.line1, line2 := u.line2, col1 := u.col1, col2 := u.col2,
        offset1 := row.1.offset1, offset2 := row.1.offset2, kind := row.1.kind,
        spelling := row.1.spelling },
    «def» :=
      { usr := row.2.1.usr, file := row.2.2.name, line1 := row.2.1.line1,
        line2 := row.2.1.line2, col1 := row.2.1.col1, col2 := row.2.1.col2,
        kind := row.2.1.kind, spelling := row.2.1.spelling } }

/-- `findDefinition`: the join, `ORDER BY (ref.offset2 - ref.offset1)`, one `RefDef` per
row. -/
def findDefinition (u : UninitReference) (s : Storage) (fileName : String) (offset : Int) :
    List RefDef :=
  let fileId := s.fileId_ fileName
  ((findDefinitionRows s fileId offset).insertionSort
      (fun a b => a.1.offset2 - a.1.offset1 ≤ b.1.offset2 - b.1.offset1)).map
    (findDefinitionRefDef u fileName)

/-- `grep`: `tags INNER JOIN files ON ref.fileId = refFile.id WHERE ref.usr = ?`; eight
columns are read, `spelling` stays the empty string of a fresh `Reference`. -/
def grep (s : Storage) (usr : String) : List Reference :=
  s.tags.flatMap (fun r =>
    ((s.files.filter (fun f => r.fileId = f.id)).filter (fun _ => r.usr = usr)).map
      (fun f =>
        { file := f.name, line1 := r.line1, line2 := r.line2, col1 := r.col1, col2 := r.col2,
          offset1 := r.offset1, offset2 := r.offset2, kind := r.kind, spelling := "" }))

end Storage

/-! ## The indexer (`index.cxx`) -/

/-- `LibClang::SourceLocation::Position`, the answer of `expansionLocation()`. -/
structure Position where
  file : String
  line : Int
  column : Int
  offset : Int
deriving DecidableEq, Repr

/-- What `Indexer::visit` reads from a `LibClang::Cursor`. -/
structure Cursor where
  /-- Answer of `cursor.referenced().isNull()`. -/
  referencedIsNull : Bool
  /-- Answer of `cursor.referenced().USR()`. -/
  referencedUSR : String
  /-- Answer of `cursor.location().expansionLocation()`. -/
  location : Position
  /-- Answer of `cursor.end().expansionLocation()`. -/
  «end» : Position
  kindStr : String
  spelling : String
  isDeclaration : Bool
  isDefinition : Bool
deriving DecidableEq, Repr

/-- A cursor with the cursors below it. -/
inductive CursorTree where
  | node (cursor : Cursor) (children : List CursorTree)

/-- The decision a visitor returns to `clang_visitChildren`. -/
inductive CXChildVisitResult where
  | CXChildVisit_Break
  | CXChildVisit_Continue
  | CXChildVisit_Recurse
deriving DecidableEq, Repr

/-- The members of an `Indexer`; `storage_` is the database behind the `Storage &`. -/
structure Indexer where
  sourceFile_ : String
  exclude_ : List String
  storage_ : Storage
  needsUpdate_ : List (String × Bool)
deriving DecidableEq, Repr

/-- `String::startsWith`: the characters of `pre` begin `str`. -/
def startsWith (str pre : String) : Bool :=
  pre.data.isPrefixOf str.data

namespace Indexer

/-- The constructor: `needsUpdate_[fileName] = storage.beginFile (fileName)` and
`storage_.addInclude (fileName, fileName)`, which throws (`none`) on an unknown name. -/
def create (fs : FileSystem) (uninit : Int) (fileName : String) (exclude : List String)
    (storage : Storage) : Option Indexer :=
  let (b, s1) := storage.beginFile fs uninit fileName
  (s1.addIncludeNamed fileName fileName).map (fun s2 =>
    { sourceFile_ := fileName, exclude_ := exclude, storage_ := s2,
      needsUpdate_ := [(fileName, b)] })

/-- `Indexer::visit` on one cursor: the decision and the indexer afterwards, `none` when
`addInclude` throws. -/
def visit (fs : FileSystem) (uninit : Int) (ix : Indexer) (cursor : Cursor) :
    Option (CXChildVisitResult × Indexer) :=
  if cursor.referencedIsNull then some (.CXChildVisit_Recurse, ix)
  else if cursor.referencedUSR = "" then some (.CXChildVisit_Recurse, ix)
  else
    let fileName := cursor.location.file
    if fileName = "" then some (.CXChildVisit_Continue, ix)
    else if ix.exclude_.any (fun e => startsWith fileName e) then
      some (.CXChildVisit_Continue, ix)
    else
      let seen : Option Indexer :=
        if (ix.needsUpdate_.lookup fileName).isNone then
          let (b, s1) := ix.storage_.beginFile fs uninit fileName
          (s1.addIncludeNamed fileName ix.sourceFile_).map (fun s2 =>
            { ix with storage_ := s2, needsUpdate_ := (fileName, b) :: ix.needsUpdate_ })
        else some ix
      seen.map (fun ix1 =>
        if (ix1.needsUpdate_.lookup fileName).getD false then
          (.CXChildVisit_Recurse,
            { ix1 with storage_ := (ix1.storage_.addTag cursor.referencedUSR cursor.kindStr
                cursor.spelling fileName cursor.location.line cursor.location.column
                cursor.location.offset cursor.«end».line cursor.«end».column
                cursor.«end».offset cursor.isDeclaration cursor.isDefinition) })
        else (.CXChildVisit_Recurse, ix1))

mutual
/-- The walk of `clang_visitChildren` from one child: visit it, then its children when the
decision is to recurse.  The `Bool` says that the walk was broken off. -/
def walk (fs : FileSystem) (uninit : Int) (ix : Indexer) :
    CursorTree → Option (Bool × Indexer)
  | .node c children =>
    match visit fs uninit ix c with
    | none => none
    | some (.CXChildVisit_Break, ix1) => some (true, ix1)
    | some (.CXChildVisit_Continue, ix1) => some (false, ix1)
    | some (.CXChildVisit_Recurse, ix1) => walkAll fs uninit ix1 children
/-- The walk over a list of siblings, in order. -/
def walkAll (fs : FileSystem) (uninit : Int) (ix : Indexer) :
    List CursorTree → Option (Bool × Indexer)
  | [] => some (false, ix)
  | t :: rest =>
    match walk fs uninit ix t with
    | none => none
    | some (true, ix1) => some (true, ix1)
    | some (false, ix1) => walkAll fs uninit ix1 rest
end

/-- `visitChildren (top)`: the walk over the children of the top cursor. -/
def visitChildren (fs : FileSystem) (uninit : Int) (ix : Indexer) :
    CursorTree → Option Indexer
  | .node _ children => (walkAll fs uninit ix children).map (fun r => r.2)

end Indexer

/-! ## The driver (`Application::updateIndex_`, no file name given) -/

/-- How a pass ended. -/
inductive PassStatus where
  /-- `nextFile` returned the empty string. -/
  | finished
  /-- A `std::runtime_error` left the loop. -/
  | threw
  /-- The embedding stopped the loop after the given number of iterations. -/
  | outOfFuel
deriving DecidableEq, Repr

/-- The outcome of a pass: the database, and the names `nextFile` returned, in order. -/
structure PassResult where
  status : PassStatus
  storage : Storage
  parsed : List String
deriving DecidableEq, Repr

/-- The loop `while ((fileName = storage_.nextFile()) != "")` of `updateIndex_`, at most
`fuel` calls of `nextFile`.  `translationUnit_` is the parser: the top cursor of the parsed
file, or `none` when it throws. -/
def updateLoop (fs : FileSystem) (uninit : Int)
    (translationUnit_ : Storage → String → Option CursorTree) (exclude : List String) :
    Nat → Storage → PassResult
  | 0, s => ⟨.outOfFuel, s, []⟩
  | fuel + 1, s =>
    let (fileName, s1) := s.nextFile fs
    if fileName = "" then ⟨.finished, s1, []⟩
    else
      match translationUnit_ s1 fileName with
      | none => ⟨.threw, s1, [fileName]⟩
      | some top =>
        match Indexer.create fs uninit fileName exclude s1 with
        | none => ⟨.threw, s1, [fileName]⟩
        | some ix =>
          match ix.visitChildren fs uninit top with
          | none => ⟨.threw, ix.storage_, [fileName]⟩
          | some ix1 =>
            let r := updateLoop fs uninit translationUnit_ exclude fuel ix1.storage_
            { r with parsed := fileName :: r.parsed }

/-! ## The entry point `Application::update` (no file name given) -/

/-- What a call of `Application::update` leaves behind. -/
structure UpdateResult where
  /-- A line `Warning: ...` was written to `std::cerr` by the `catch` clause. -/
  warning : Bool
  /-- The exclude list given to `updateIndex_` and the outcome of its loop; `none` when
  `updateIndex_` was not called. -/
  pass : Option (List String × PassResult)
  /-- The database afterwards. -/
  storage : Storage

namespace Application

/-- `Application::update`.  `getOptionVector` is the call
`storage_.getOption ("exclude", Storage::Vector ())`: the vector it returns, or `.error` with
the message of the `std::runtime_error` that leaves it (the database layer `sqlite++` is not
among the sources).  The `try` block holds the call and `updateIndex_`; the `catch` clause
writes the warning. -/
def update (fs : FileSystem) (uninit : Int)
    (translationUnit_ : Storage → String → Option CursorTree)
    (getOptionVector : Storage → String → Except String (List String))
    (fuel : Nat) (s : Storage) : UpdateResult :=
  match getOptionVector s "exclude" with
  | .error _ => { warning := true, pass := none, storage := s }
  | .ok exclude =>
    let r := updateLoop fs uninit translationUnit_ exclude fuel s
    { warning := decide (r.status = .threw), pass := some (exclude, r), storage := r.storage }

end Application


/-! ## Vocabulary of the specification -/

open Storage

/-- The uniqueness key of a tag: `(fileId, usr, offset1, offset2)`. -/
def tagKey (t : TagRow) : Int × String × Int × Int :=
  (t.fileId, t.usr, t.offset1, t.offset2)

/-- Tag uniqueness: no two rows of `tags` share the key. -/
def TagsUnique (s : Storage) : Prop :=
  (s.tags.map tagKey).Nodup

instance (s : Storage) : Decidable (TagsUnique s) :=
  inferInstanceAs (Decidable (List.Nodup _))

/-- The constraint of `id INTEGER PRIMARY KEY` on rows inserted with a `NULL` id: the ids of
`files` are pairwise distinct and positive. -/
def PrimaryKey (s : Storage) : Prop :=
  (s.files.map FileRow.id).Nodup ∧ ∀ f ∈ s.files, 0 < f.id

instance (s : Storage) : Decidable (PrimaryKey s) :=
  inferInstanceAs (Decidable (_ ∧ _))

/-- No two rows of `files` have the same name. -/
def UniqueNames (s : Storage) : Prop :=
  (s.files.map FileRow.name).Nodup

instance (s : Storage) : Decidable (UniqueNames s) :=
  inferInstanceAs (Decidable (List.Nodup _))

/-- The `files` table is well formed: its ids are pairwise distinct and positive (primary
key), and its names are pairwise distinct and not empty (the empty string is what `nextFile`
returns for none). -/
def FilesWellFormed (s : Storage) : Prop :=
  PrimaryKey s ∧ UniqueNames s ∧ ∀ f ∈ s.files, f.name ≠ ""

instance (s : Storage) : Decidable (FilesWellFormed s) :=
  inferInstanceAs (Decidable (_ ∧ _ ∧ _))

/-- Every tag is owned by a registered file: its `fileId` is the id of a row of `files`. -/
def TagsOwned (s : Storage) : Prop :=
  ∀ t ∈ s.tags, ∃ x ∈ s.files, x.id = t.fileId

instance (s : Storage) : Decidable (TagsOwned s) :=
  inferInstanceAs (Decidable (∀ t ∈ s.tags, ∃ x ∈ s.files, x.id = t.fileId))

/-- The constraints `REFERENCES files(id)` of the schema: every `fileId`, `sourceId` and
`includedId` is the id of a row of `files`. -/
def ForeignKeys (s : Storage) : Prop :=
  (∀ c ∈ s.commands, ∃ x ∈ s.files, x.id = c.fileId) ∧
  (∀ e ∈ s.includes, (∃ x ∈ s.files, x.id = e.sourceId) ∧ ∃ x ∈ s.files, x.id = e.includedId) ∧
  TagsOwned s

instance (s : Storage) : Decidable (ForeignKeys s) :=
  inferInstanceAs (Decidable (_ ∧ _ ∧ ∀ t ∈ s.tags, ∃ x ∈ s.files, x.id = t.fileId))

/-- Every table of `s'` is what is left of the table of `s` after deleting rows; `options` is
the same. -/
def Shrinks (s s' : Storage) : Prop :=
  s'.files.Sublist s.files ∧ s'.commands.Sublist s.commands ∧
  s'.includes.Sublist s.includes ∧ s'.tags.Sublist s.tags ∧ s'.options = s.options

/-- No table has a row for the file `F`: no row of `files` with its id or its name, no row of
`commands` or `tags` with its id, no row of `includes` with its id on either side. -/
def NoRowOf (s : Storage) (F : FileRow) : Prop :=
  (∀ r ∈ s.files, r.id ≠ F.id ∧ r.name ≠ F.name) ∧
  (∀ c ∈ s.commands, c.fileId ≠ F.id) ∧
  (∀ t ∈ s.tags, t.fileId ≠ F.id) ∧
  (∀ e ∈ s.includes, e.sourceId ≠ F.id ∧ e.includedId ≠ F.id)

instance (s : Storage) (F : FileRow) : Decidable (NoRowOf s F) :=
  inferInstanceAs (Decidable (_ ∧ _ ∧ _ ∧ _))

/-- The edge `src → inc` of the include graph: both are rows of `files`, and `includes` has
the row `(src.id, inc.id)`. -/
def IncludesEdge (s : Storage) (src inc : FileRow) : Prop :=
  src ∈ s.files ∧ inc ∈ s.files ∧ (⟨src.id, inc.id⟩ : IncludeRow) ∈ s.includes

instance (s : Storage) (src inc : FileRow) : Decidable (IncludesEdge s src inc) :=
  inferInstanceAs (Decidable (_ ∧ _ ∧ _))

/-- The file exists on disk and its modification time exceeds its stored `indexed` value. -/
def Stale (fs : FileSystem) (f : FileRow) : Prop :=
  ∃ m, fs f.name = some m ∧ m > f.indexed

/-- The name of the file with the given id, the empty string if there is none. -/
def fileNameOf (s : Storage) (id : Int) : String :=
  match s.files.find? (fun x => x.id = id) with
  | some x => x.name
  | none => ""

/-- The pairs `(r, d)` of rows of `tags` that `find_definition (f, o)` is specified to
return: `r` belongs to the file named `f`, its range covers `o`, and `d` is a declaration
with the USR of `r`. -/
def findDefinitionPairs (s : Storage) (f : String) (o : Int) : List (TagRow × TagRow) :=
  s.tags.flatMap (fun r =>
    (s.tags.filter (fun d =>
      (∃ x ∈ s.files, x.name = f ∧ x.id = r.fileId) ∧ r.offset1 ≤ o ∧ o ≤ r.offset2 ∧
        d.usr = r.usr ∧ d.isDecl = true)).map (fun d => (r, d)))

/-- The `RefDef` specified for the pair `(r, d)`: the reference carries `f` and the offsets,
kind and spelling of `r`, the definition the columns of `d` and the name of its file.  The
line and column members of the reference carry `u`. -/
def refDefOf (u : UninitReference) (s : Storage) (f : String) (p : TagRow × TagRow) :
    RefDef :=
  { ref :=
      { file := f, line1 := u.line1, line2 := u.line2, col1 := u.col1, col2 := u.col2,
        offset1 := p.1.offset1, offset2 := p.1.offset2, kind := p.1.kind,
        spelling := p.1.spelling },
    «def» :=
      { usr := p.2.usr, file := fileNameOf s p.2.fileId, line1 := p.2.line1,
        line2 := p.2.line2, col1 := p.2.col1, col2 := p.2.col2, kind := p.2.kind,
        spelling := p.2.spelling } }

/-- The `Reference` specified for a tag in the result of `grep`: the name of its file and
its position and kind; `spelling` is not part of the result and stays empty. -/
def referenceOf (s : Storage) (t : TagRow) : Reference :=
  { file := fileNameOf s t.fileId, line1 := t.line1, line2 := t.line2, col1 := t.col1,
    col2 := t.col2, offset1 := t.offset1, offset2 := t.offset2, kind := t.kind,
    spelling := "" }

/-! ## Scenarios -/

/-- A database with `a.cpp` registered as a translation unit and no tag. -/
def dbOneFile : Storage :=
  { files := [⟨1, "a.cpp", 100⟩], commands := [⟨1, "/", "[\"clang++\",\"a.cpp\"]"⟩],
    includes := [⟨1, 1⟩], tags := [], options := [] }

/-- Scenario S1 after a full index at t=100: `a.cpp` (command `(/, ["clang++","a.cpp"])`)
includes `a.h`; `a.cpp` has a reference to `f` over the bytes 40..45, `a.h` declares `f`. -/
def dbS1 : Storage :=
  { files := [⟨1, "a.cpp", 100⟩, ⟨2, "a.h", 100⟩],
    commands := [⟨1, "/", "[\"clang++\",\"a.cpp\"]"⟩],
    includes := [⟨1, 1⟩, ⟨1, 2⟩],
    tags := [⟨1, "c:@F@f#", "DeclRefExpr", "f", 3, 3, 40, 3, 8, 45, false, false⟩,
             ⟨2, "c:@F@f#", "FunctionDecl", "f", 1, 6, 5, 1, 9, 8, true, false⟩],
    options := [] }

/-- The disk of scenario S1: both files last modified at t=100. -/
def fsS1 : FileSystem := fun n =>
  if n = "a.cpp" then some 100 else if n = "a.h" then some 100 else none

/-- The disk of scenario S3: `a.h` touched at t=200. -/
def fsS3 : FileSystem := fun n =>
  if n = "a.cpp" then some 100 else if n = "a.h" then some 200 else none

/-- The disk of scenario S4: `a.h` deleted. -/
def fsS4 : FileSystem := fun n =>
  if n = "a.cpp" then some 100 else none

/-- Two translation units `a.cpp` and `b.cpp` that both include `a.h`, all indexed at
t=100. -/
def dbShared : Storage :=
  { files := [⟨1, "a.cpp", 100⟩, ⟨2, "b.cpp", 100⟩, ⟨3, "a.h", 100⟩],
    commands := [⟨1, "/", "[\"clang++\",\"a.cpp\"]"⟩, ⟨2, "/", "[\"clang++\",\"b.cpp\"]"⟩],
    includes := [⟨1, 1⟩, ⟨1, 3⟩, ⟨2, 2⟩, ⟨2, 3⟩],
    tags := [⟨3, "c:@F@f#", "FunctionDecl", "f", 1, 6, 5, 1, 9, 8, true, false⟩],
    options := [] }

/-- The disk for `dbShared` after `a.h` was edited at t=200. -/
def fsShared : FileSystem := fun n =>
  if n = "a.cpp" then some 100 else if n = "b.cpp" then some 100
  else if n = "a.h" then some 200 else none

/-- A cursor on the function `f` located in `file`. -/
def cursorF (file : String) (isDeclaration : Bool) : Cursor :=
  { referencedIsNull := false, referencedUSR := "c:@F@f#", location := ⟨file, 1, 6, 5⟩,
    «end» := ⟨file, 1, 9, 8⟩, kindStr := "FunctionDecl", spelling := "f",
    isDeclaration := isDeclaration, isDefinition := false }

/-- The parse of a translation unit that includes `a.h` (which declares `f`) and refers to
`f` itself. -/
def parseShared : Storage → String → Option CursorTree := fun _ fileName =>
  some (.node (cursorF fileName false)
    [.node (cursorF "a.h" true) [], .node (cursorF fileName false) []])

/-- A database in which the translation unit registered by `setCompileCommand` has the empty
name and includes `h.h`, indexed at t=5. -/
def dbEmptyName : Storage :=
  { files := [⟨1, "", 0⟩, ⟨2, "h.h", 5⟩], commands := [⟨1, "/", "[]"⟩],
    includes := [⟨1, 1⟩, ⟨1, 2⟩], tags := [], options := [] }

/-- The disk when `h.h` was indexed at t=5. -/
def fsEmptyName5 : FileSystem := fun n => if n = "h.h" then some 5 else none

/-- The disk after `h.h` was edited at t=10. -/
def fsEmptyName10 : FileSystem := fun n => if n = "h.h" then some 10 else none

/-- The translation units `""` and `t.cpp` both include `h.h`; all indexed at t=5. -/
def dbEmptyNameShared : Storage :=
  { files := [⟨1, "", 0⟩, ⟨2, "h.h", 5⟩, ⟨3, "t.cpp", 5⟩],
    commands := [⟨1, "/", "[]"⟩, ⟨3, "/", "[]"⟩],
    includes := [⟨1, 1⟩, ⟨1, 2⟩, ⟨3, 3⟩, ⟨3, 2⟩], tags := [], options := [] }

/-- The disk when `dbEmptyNameShared` was indexed: `h.h` and `t.cpp` modified at t=5. -/
def fsEmptyNameShared5 : FileSystem := fun n =>
  if n = "h.h" then some 5 else if n = "t.cpp" then some 5 else none

/-- The disk after `h.h` was edited at t=10. -/
def fsEmptyNameShared10 : FileSystem := fun n =>
  if n = "h.h" then some 10 else if n = "t.cpp" then some 5 else none

/-! ## Compile commands -/

/-- The row `c` of `commands` is the command of a registered file with an include edge to
the registered file named `f`. -/
def CommandFor (s : Storage) (f : String) (c : CommandRow) : Prop :=
  c ∈ s.commands ∧ ∃ src ∈ s.files, ∃ F ∈ s.files,
    F.name = f ∧ (⟨src.id, F.id⟩ : IncludeRow) ∈ s.includes ∧ c.fileId = src.id

instance (s : Storage) (f : String) (c : CommandRow) : Decidable (CommandFor s f c) :=
  inferInstanceAs (Decidable (_ ∧ ∃ src ∈ s.files, ∃ F ∈ s.files, _))

/-- No other translation unit includes the file named `f`: an include edge into a file of
that name from another file comes from a file without a row in `commands`. -/
def NoOtherUnit (s : Storage) (f : String) : Prop :=
  ∀ F ∈ s.files, F.name = f → ∀ e ∈ s.includes, e.includedId = F.id → e.sourceId ≠ F.id →
    ∀ c ∈ s.commands, c.fileId ≠ e.sourceId

instance (s : Storage) (f : String) : Decidable (NoOtherUnit s f) :=
  inferInstanceAs (Decidable (∀ F ∈ s.files, _ → ∀ e ∈ s.includes, _ → _ →
    ∀ c ∈ s.commands, _))

/-! ## Sequences of operations -/

/-- A call of an operation that writes to the database, with its arguments.  The filesystem
is an argument of the calls that `stat()`, so it may change between calls. -/
inductive Op where
  | setCompileCommand (fileName directory : String) (args : List String)
  | beginFile (fs : FileSystem) (uninit : Int) (fileName : String)
  | addInclude (includedId sourceId : Int)
  | addIncludeNamed (includedFile sourceFile : String)
  | addTag (usr kind spelling fileName : String)
      (line1 col1 offset1 line2 col2 offset2 : Int) (isDeclaration isDefinition : Bool)
  | cleanIndex
  | removeFile (fileName : String)
  | nextFile (fs : FileSystem)
  | setOption (name value : String)
  | setOptionVector (name : String) (value : List String)
  /-- The constructor of `Indexer`: `beginFile (fileName)`, then
  `addInclude (fileName, fileName)`. -/
  | newIndexer (fs : FileSystem) (uninit : Int) (fileName : String)

/-- The database after the call; a call that throws leaves what it had written. -/
def Op.apply (s : Storage) : Op → Storage
  | .setCompileCommand fileName directory args =>
    (s.setCompileCommand fileName directory (serialize_ args)).2
  | .beginFile fs uninit fileName => (s.beginFile fs uninit fileName).2
  | .addInclude includedId sourceId => s.addInclude includedId sourceId
  | .addIncludeNamed includedFile sourceFile =>
    (s.addIncludeNamed includedFile sourceFile).getD s
  | .addTag usr kind spelling fileName line1 col1 offset1 line2 col2 offset2 isDecl isDefn =>
    s.addTag usr kind spelling fileName line1 col1 offset1 line2 col2 offset2 isDecl isDefn
  | .cleanIndex => s.cleanIndex
  | .removeFile fileName => s.removeFile fileName
  | .nextFile fs => (s.nextFile fs).2
  | .setOption name value => s.setOption name value
  | .setOptionVector name value => s.setOptionVector name value
  | .newIndexer fs uninit fileName =>
    match Indexer.create fs uninit fileName [] s with
    | some ix => ix.storage_
    | none => (s.beginFile fs uninit fileName).2

/-- The database after a sequence of calls, made in order. -/
def run : List Op → Storage → Storage
  | [], s => s
  | o :: rest, s => run rest (o.apply s)

/-- Include self-edge: every row of `files` whose id has a row in `commands` has the row
`(id, id)` in `includes`. -/
def SelfEdges (s : Storage) : Prop :=
  ∀ f ∈ s.files, (∃ c ∈ s.commands, c.fileId = f.id) → (⟨f.id, f.id⟩ : IncludeRow) ∈ s.includes

instance (s : Storage) : Decidable (SelfEdges s) :=
  inferInstanceAs (Decidable (∀ f ∈ s.files, _ → _))

/-- The file named `n` is not a translation unit: no row of `commands` carries the id of a
row of `files` with that name. -/
def NoCommand (s : Storage) (n : String) : Prop :=
  ∀ F ∈ s.files, F.name = n → ∀ c ∈ s.commands, c.fileId ≠ F.id

instance (s : Storage) (n : String) : Decidable (NoCommand s n) :=
  inferInstanceAs (Decidable (∀ F ∈ s.files, _ → ∀ c ∈ s.commands, _))

/-- The calls that keep the self edges: every call but a `beginFile` that returns true for a
translation unit, which deletes the edges that leave the file, its self edge with them. -/
def KeepsSelfEdges (s : Storage) : Op → Prop
  | .beginFile fs uninit fileName =>
    (s.beginFile fs uninit fileName).1 = false ∨ NoCommand s fileName
  | _ => True

instance (s : Storage) (o : Op) : Decidable (KeepsSelfEdges s o) := by
  cases o <;> unfold KeepsSelfEdges <;> infer_instance

/-- Every call of the sequence, made from `s` on, keeps the self edges. -/
def SafeRun : List Op → Storage → Prop
  | [], _ => True
  | o :: rest, s => KeepsSelfEdges s o ∧ SafeRun rest (o.apply s)

instance decidableSafeRun : (ops : List Op) → (s : Storage) → Decidable (SafeRun ops s)
  | [], _ => isTrue trivial
  | o :: rest, s =>
    have := decidableSafeRun rest (o.apply s)
    inferInstanceAs (Decidable (_ ∧ _))

/-- Every row of `commands` carries the id of a row of `files`, and that id has its self
edge. -/
def CommandsLinked (s : Storage) : Prop :=
  ∀ c ∈ s.commands,
    (∃ f ∈ s.files, f.id = c.fileId) ∧ (⟨c.fileId, c.fileId⟩ : IncludeRow) ∈ s.includes

instance (s : Storage) : Decidable (CommandsLinked s) :=
  inferInstanceAs (Decidable (∀ c ∈ s.commands, _ ∧ _))

/-! ## Excluded paths -/

/-- The path starts with one of the exclude prefixes. -/
def Excluded (exclude : List String) (path : String) : Prop :=
  exclude.any (fun e => startsWith path e) = true

instance (exclude : List String) (path : String) : Decidable (Excluded exclude path) :=
  inferInstanceAs (Decidable (_ = true))

/-- What `s'` holds for excluded files was in `s`: a row of `files` with an excluded name, a
tag owned by such a row, an include edge into such a row. -/
def ExcludedFrame (exclude : List String) (s s' : Storage) : Prop :=
  (∀ f ∈ s'.files, Excluded exclude f.name → f ∈ s.files) ∧
  (∀ t ∈ s'.tags, ∀ f ∈ s'.files, f.id = t.fileId → Excluded exclude f.name → t ∈ s.tags) ∧
  (∀ e ∈ s'.includes, ∀ f ∈ s'.files, f.id = e.includedId → Excluded exclude f.name →
    e ∈ s.includes)

instance (exclude : List String) (s s' : Storage) : Decidable (ExcludedFrame exclude s s') :=
  inferInstanceAs (Decidable ((∀ f ∈ s'.files, _ → _) ∧
    (∀ t ∈ s'.tags, ∀ f ∈ s'.files, _ → _ → _) ∧
    (∀ e ∈ s'.includes, ∀ f ∈ s'.files, _ → _ → _)))

/-- A cursor without a referenced declaration, located in `/usr/include/stdio.h`. -/
def cursorStdio : Cursor :=
  { referencedIsNull := true, referencedUSR := "",
    location := ⟨"/usr/include/stdio.h", 10, 1, 200⟩,
    «end» := ⟨"/usr/include/stdio.h", 10, 9, 208⟩,
    kindStr := "TypedefDecl", spelling := "FILE", isDeclaration := true,
    isDefinition := false }

/-- An indexer for `a.cpp` over the database of S1 that excludes `/usr/include/`. -/
def indexerS6 : Indexer :=
  { sourceFile_ := "a.cpp", exclude_ := ["/usr/include/"], storage_ := dbS1,
    needsUpdate_ := [("a.cpp", true)] }

/-- The disk with `/usr/src/a.cpp`, modified at t=100. -/
def fsUsr : FileSystem := fun n => if n = "/usr/src/a.cpp" then some 100 else none

/-! ## Scenarios of the update pass -/

/-- The parse of `a.cpp` after `a.h` was emptied: every cursor is located in `a.cpp`. -/
def parseNoHeader : Storage → String → Option CursorTree := fun _ fileName =>
  some (.node (cursorF fileName false) [.node (cursorF fileName false) []])

/-- A database layer whose statement fails: the option cannot be read. -/
def getOptionFails : Storage → String → Except String (List String) :=
  fun _ _ => .error "database is locked"

/-- The database layer at work: `getOption (name, Vector)` returns. -/
def getOptionReturns : Storage → String → Except String (List String) :=
  fun s name => .ok (s.getOptionVector name)

/-! ## Two translation units, one seen from the other -/

/-- The database after the compilation database was loaded: `setCompileCommand` for `a.cpp`
and for `b.cpp`, nothing indexed yet. -/
def dbTwoUnits : Storage :=
  run [.setCompileCommand "a.cpp" "/" ["clang++", "a.cpp"],
    .setCompileCommand "b.cpp" "/" ["clang++", "b.cpp"]] Storage.empty

/-- The disk with `a.cpp` and `b.cpp`, both modified at t=100. -/
def fsTwoUnits : FileSystem := fun n =>
  if n = "a.cpp" then some 100 else if n = "b.cpp" then some 100 else none

/-- The parses: `a.cpp` includes `b.cpp`, so its tree has a cursor located in `b.cpp`; the
tree of any other file has cursors in that file only. -/
def parseTwoUnits : Storage → String → Option CursorTree := fun _ fileName =>
  if fileName = "a.cpp" then
    some (.node (cursorF "a.cpp" false)
      [.node (cursorF "a.cpp" false) [], .node (cursorF "b.cpp" true) []])
  else some (.node (cursorF fileName false) [.node (cursorF fileName false) []])

/-! ## Deleting rows -/

theorem shrinks_refl (s : Storage) : Shrinks s s :=
  ⟨List.Sublist.refl _, List.Sublist.refl _, List.Sublist.refl _, List.Sublist.refl _, rfl⟩

theorem shrinks_trans {a b c : Storage} (h1 : Shrinks a b) (h2 : Shrinks b c) :
    Shrinks a c :=
  ⟨h2.1.trans h1.1, h2.2.1.trans h1.2.1, h2.2.2.1.trans h1.2.2.1,
    h2.2.2.2.1.trans h1.2.2.2.1, h2.2.2.2.2.trans h1.2.2.2.2⟩

theorem removeFile_shrinks (s : Storage) (n : String) : Shrinks s (s.removeFile n) := by
  refine ⟨?_, ?_, ?_, ?_, rfl⟩
  · exact List.filter_sublist _
  · exact List.filter_sublist _
  · exact (List.filter_sublist _).trans (List.filter_sublist _)
  · exact List.filter_sublist _

theorem nextFileLoop_shrinks (fs : FileSystem) (rows : List Candidate) :
    ∀ s : Storage, Shrinks s (nextFileLoop fs rows s).2 := by
  induction rows with
  | nil => intro s; exact shrinks_refl s
  | cons c rest ih =>
    intro s
    unfold nextFileLoop
    cases hfs : fs c.includedName with
    | none => exact shrinks_trans (removeFile_shrinks s _) (ih _)
    | some m =>
      by_cases hm : m > c.indexed
      · simp [hm]; exact shrinks_refl s
      · simp [hm]; exact ih s

/-! ## Tag uniqueness -/

theorem addFile__tags (s : Storage) (n : String) : (s.addFile_ n).2.tags = s.tags := by
  unfold addFile_; dsimp only; split <;> rfl

theorem addInclude_tags (s : Storage) (i j : Int) : (s.addInclude i j).tags = s.tags := by
  unfold addInclude; split <;> rfl

theorem addTag_tags_cases (s : Storage) (usr kind spelling fileName : String)
    (l1 c1 o1 l2 c2 o2 : Int) (d f : Bool) :
    (s.addTag usr kind spelling fileName l1 c1 o1 l2 c2 o2 d f).tags = s.tags ∨
    ((s.addTag usr kind spelling fileName l1 c1 o1 l2 c2 o2 d f).tags =
        s.tags ++ [⟨s.fileId_ fileName, usr, kind, spelling, l1, c1, o1, l2, c2, o2, d, f⟩] ∧
      s.fileId_ fileName ≠ -1 ∧
      ∀ t ∈ s.tags, ¬ (t.fileId = s.fileId_ fileName ∧ t.usr = usr ∧ t.offset1 = o1 ∧
        t.offset2 = o2)) := by
  unfold addTag
  by_cases h1 : s.fileId_ fileName = -1
  · simp [h1]
  · by_cases h2 : s.tags.any (fun t =>
      t.fileId = s.fileId_ fileName ∧ t.usr = usr ∧ t.offset1 = o1 ∧ t.offset2 = o2) = true
    · simp only [h1, if_false, h2, if_true]; left; trivial
    · right
      simp only [h1, if_false, h2]
      refine ⟨by simp, h1, ?_⟩
      intro t ht hk
      apply h2
      rw [List.any_eq_true]
      exact ⟨t, ht, by simpa using hk⟩

theorem tagsUnique_of_sublist {s s' : Storage} (h : TagsUnique s)
    (hsub : s'.tags.Sublist s.tags) : TagsUnique s' :=
  List.Nodup.sublist (hsub.map tagKey) h

theorem beginFile_tags_sublist (fs : FileSystem) (uninit : Int) (s : Storage) (n : String) :
    (s.beginFile fs uninit n).2.tags.Sublist s.tags := by
  unfold beginFile
  dsimp only
  split
  · simp only [addFile__tags]; exact List.filter_sublist _
  · simp only [addFile__tags]; exact List.Sublist.refl _

theorem setCompileCommand_tags (s : Storage) (n d a : String) :
    (s.setCompileCommand n d a).2.tags = s.tags := by
  unfold setCompileCommand
  simp only [addInclude_tags, addFile__tags]

theorem addIncludeNamed_tags (s s' : Storage) (a b : String)
    (h : s.addIncludeNamed a b = some s') : s'.tags = s.tags := by
  unfold addIncludeNamed at h
  dsimp only at h
  split at h
  · cases h
  · cases h; exact addInclude_tags _ _ _

/-- C1, as amended: tag uniqueness is preserved by every `Storage` operation (`addTag`,
`beginFile`, `removeFile`, `cleanIndex`, `setCompileCommand`, both `addInclude`s, `nextFile`,
`setOption`); `addTag` leaves the database unchanged when a row with the same
`(fileId, usr, offset1, offset2)` exists and also when `fileName` is not registered, and
appends exactly one row when `fileName` is registered and no such row exists. -/
theorem tag_uniqueness_invariant (fs : FileSystem) (uninit : Int) (s : Storage)
    (usr kind spelling fileName directory args name value includedFile sourceFile : String)
    (line1 col1 offset1 line2 col2 offset2 includedId sourceId : Int)
    (isDeclaration isDefinition : Bool) (h : TagsUnique s) :
    TagsUnique (s.addTag usr kind spelling fileName line1 col1 offset1 line2 col2 offset2
      isDeclaration isDefinition) ∧
    TagsUnique (s.beginFile fs uninit fileName).2 ∧
    TagsUnique (s.removeFile fileName) ∧
    TagsUnique s.cleanIndex ∧
    TagsUnique (s.setCompileCommand fileName directory args).2 ∧
    TagsUnique (s.addInclude includedId sourceId) ∧
    (∀ s', s.addIncludeNamed includedFile sourceFile = some s' → TagsUnique s') ∧
    TagsUnique (s.nextFile fs).2 ∧
    TagsUnique (s.setOption name value) ∧
    ((∃ t ∈ s.tags, t.fileId = s.fileId_ fileName ∧ t.usr = usr ∧ t.offset1 = offset1 ∧
        t.offset2 = offset2) →
      (s.addTag usr kind spelling fileName line1 col1 offset1 line2 col2 offset2
        isDeclaration isDefinition) = s) ∧
    (s.fileId_ fileName = -1 →
      (s.addTag usr kind spelling fileName line1 col1 offset1 line2 col2 offset2
        isDeclaration isDefinition) = s) ∧
    (s.fileId_ fileName ≠ -1 →
      (¬ ∃ t ∈ s.tags, t.fileId = s.fileId_ fileName ∧ t.usr = usr ∧ t.offset1 = offset1 ∧
        t.offset2 = offset2) →
      (s.addTag usr kind spelling fileName line1 col1 offset1 line2 col2 offset2
        isDeclaration isDefinition) =
        { s with tags := s.tags ++ [⟨s.fileId_ fileName, usr, kind, spelling, line1, col1,
          offset1, line2, col2, offset2, isDeclaration, isDefinition⟩] }) := by
  refine ⟨?_, ?_, ?_, ?_, ?_, ?_, ?_, ?_, ?_, ?_, ?_, ?_⟩
  · rcases addTag_tags_cases s usr kind spelling fileName line1 col1 offset1 line2 col2
      offset2 isDeclaration isDefinition with h1 | ⟨h1, _, h3⟩
    · unfold TagsUnique; rw [h1]; exact h
    · unfold TagsUnique
      rw [h1, List.map_append]
      refine List.Nodup.append h (List.nodup_singleton _) ?_
      intro k hk hk'
      rw [List.mem_map] at hk
      obtain ⟨t, ht, rfl⟩ := hk
      simp only [List.map_cons, List.map_nil, List.mem_singleton, tagKey, Prod.mk.injEq] at hk'
      exact h3 t ht hk'
  · exact tagsUnique_of_sublist h (beginFile_tags_sublist fs uninit s fileName)
  · exact tagsUnique_of_sublist h (removeFile_shrinks s fileName).2.2.2.1
  · unfold TagsUnique cleanIndex; simp
  · unfold TagsUnique; rw [setCompileCommand_tags]; exact h
  · unfold TagsUnique; rw [addInclude_tags]; exact h
  · intro s' hs'; unfold TagsUnique; rw [addIncludeNamed_tags s s' _ _ hs']; exact h
  · exact tagsUnique_of_sublist h (nextFileLoop_shrinks fs _ s).2.2.2.1
  · exact h
  · rintro ⟨t, ht, hk⟩
    unfold addTag
    dsimp only
    split
    · rfl
    · rw [if_pos]
      rw [List.any_eq_true]
      exact ⟨t, ht, by simpa using hk⟩
  · intro h1
    unfold addTag
    simp [h1]
  · intro h1 h2
    unfold addTag
    dsimp only
    rw [if_neg h1, if_neg]
    intro hany
    rw [List.any_eq_true] at hany
    obtain ⟨t, ht, hk⟩ := hany
    exact h2 ⟨t, ht, by simpa using hk⟩

/-- Witness for C1: `dbOneFile` has unique tags and stays so after `addTag` on `a.cpp`. -/
theorem tag_uniqueness_invariant_witness :
    TagsUnique dbOneFile ∧
    TagsUnique (dbOneFile.addTag "c:@F@f" "FunctionDecl" "f" "a.cpp" 1 1 0 1 5 4 true true) :=
  ⟨by decide, (tag_uniqueness_invariant (fun _ => none) 0 dbOneFile "c:@F@f" "FunctionDecl"
    "f" "a.cpp" "/" "[]" "exclude" "" "a.cpp" "a.cpp" 1 1 0 1 5 4 1 1 true true
    (by decide)).1⟩

/-- Counterexample to C1 as stated: `b.h` is not registered in `dbOneFile`, no row of `tags`
has the key of the call, and `addTag` does not add a row. -/
theorem addTag_unregistered_adds_no_row :
    TagsUnique dbOneFile ∧
    (¬ ∃ t ∈ dbOneFile.tags, t.fileId = dbOneFile.fileId_ "b.h" ∧ t.usr = "c:@F@f" ∧
      t.offset1 = 0 ∧ t.offset2 = 4) ∧
    (dbOneFile.addTag "c:@F@f" "FunctionDecl" "f" "b.h" 1 1 0 1 5 4 true true).tags.length ≠
      dbOneFile.tags.length + 1 := by
  decide

/-! ## File registration and `beginFile` -/

theorem newRowId_fresh (files : List FileRow) : ∀ x ∈ files, x.id < newRowId files := by
  intro x hx
  unfold newRowId
  cases hmax : (files.map FileRow.id).max? with
  | none =>
    rw [List.max?_eq_none_iff] at hmax
    have : x.id ∈ files.map FileRow.id := List.mem_map_of_mem _ hx
    rw [hmax] at this
    cases this
  | some m =>
    have hle := (List.max?_le_iff (fun a b c => max_le_iff) hmax (x := m)).1 (le_refl m)
    have := hle x.id (List.mem_map_of_mem _ hx)
    show x.id < m + 1
    omega

theorem fileId__eq_of_find {s : Storage} {n : String} {f : FileRow}
    (h : s.files.find? (fun f => f.name = n) = some f) : s.fileId_ n = f.id := by
  unfold fileId_; rw [h]

theorem fileId__eq_of_none {s : Storage} {n : String}
    (h : s.files.find? (fun f => f.name = n) = none) : s.fileId_ n = -1 := by
  unfold fileId_; rw [h]

theorem fileId__unregistered {s : Storage} {n : String} (h : ∀ x ∈ s.files, x.name ≠ n) :
    s.fileId_ n = -1 := by
  apply fileId__eq_of_none
  rw [List.find?_eq_none]
  intro x hx
  simpa using h x hx

theorem fileId__registered {s : Storage} {n : String} (h : ∃ x ∈ s.files, x.name = n) :
    ∃ f ∈ s.files, f.name = n ∧ s.fileId_ n = f.id := by
  cases hfind : s.files.find? (fun f => f.name = n) with
  | none =>
    rw [List.find?_eq_none] at hfind
    obtain ⟨x, hx, hn⟩ := h
    exact absurd (by simpa using hn) (hfind x hx)
  | some f =>
    have hmem := List.mem_of_find?_eq_some hfind
    have hp := List.find?_some hfind
    exact ⟨f, hmem, by simpa using hp, fileId__eq_of_find hfind⟩

theorem indexedOf_eq {s : Storage} {f : FileRow} (hnd : (s.files.map FileRow.id).Nodup)
    (hf : f ∈ s.files) : s.indexedOf f.id = f.indexed := by
  unfold indexedOf
  cases hfind : s.files.find? (fun g => g.id = f.id) with
  | none =>
    rw [List.find?_eq_none] at hfind
    exact absurd (by simp) (hfind f hf)
  | some g =>
    have hmem := List.mem_of_find?_eq_some hfind
    have hp : g.id = f.id := by simpa using List.find?_some hfind
    have : g = f := List.inj_on_of_nodup_map hnd hmem hf hp
    rw [this]


theorem addFile__new {s : Storage} {n : String} (h : ∀ x ∈ s.files, x.name ≠ n) :
    s.addFile_ n =
      (newRowId s.files, { s with files := s.files ++ [⟨newRowId s.files, n, 0⟩] }) := by
  unfold addFile_
  simp [fileId__unregistered h]

theorem addFile__old {s : Storage} {n : String} (hpos : ∀ f ∈ s.files, 0 < f.id)
    (h : ∃ x ∈ s.files, x.name = n) : s.addFile_ n = (s.fileId_ n, s) := by
  obtain ⟨f, hf, _, hid⟩ := fileId__registered h
  have hne : s.fileId_ n ≠ -1 := by
    have := hpos f hf
    omega
  unfold addFile_
  simp [hne]

/-- After `addFile_`, the returned id is the id of a row named `fileName`, the ids are still
pairwise distinct, and the row is the one `fileId_` finds. -/
theorem addFile__row {s : Storage} (hpk : PrimaryKey s) (n : String) :
    ((s.addFile_ n).2.files.map FileRow.id).Nodup ∧
    ∃ row ∈ (s.addFile_ n).2.files, row.name = n ∧ row.id = (s.addFile_ n).1 ∧
      (s.addFile_ n).2.fileId_ n = row.id ∧
      ((∀ x ∈ s.files, x.name ≠ n) → row.indexed = 0) := by
  by_cases h : ∃ x ∈ s.files, x.name = n
  · rw [addFile__old hpk.2 h]
    obtain ⟨f, hf, hn, hid⟩ := fileId__registered h
    refine ⟨hpk.1, f, hf, hn, hid.symm, hid, ?_⟩
    intro hno
    exact absurd hn (hno f hf)
  · have h' : ∀ x ∈ s.files, x.name ≠ n := fun x hx hn => h ⟨x, hx, hn⟩
    rw [addFile__new h']
    refine ⟨?_, ⟨newRowId s.files, n, 0⟩, by simp, rfl, rfl, ?_, fun _ => rfl⟩
    · dsimp only
      rw [List.map_append]
      refine List.Nodup.append hpk.1 (List.nodup_singleton _) ?_
      intro k hk hk'
      simp only [List.map_cons, List.map_nil, List.mem_singleton] at hk'
      rw [List.mem_map] at hk
      obtain ⟨x, hx, rfl⟩ := hk
      have := newRowId_fresh s.files x hx
      omega
    · apply fileId__eq_of_find
      dsimp only
      rw [List.find?_append]
      have : s.files.find? (fun f => f.name = n) = none := by
        rw [List.find?_eq_none]
        intro x hx
        simpa using h' x hx
      rw [this]
      simp

/-- C2: `beginFile (f)` for a file that is on disk with modification time `m`.  It first
registers `f` with `indexed = 0` when no row of `files` has the name (and changes nothing
when one has), then returns true iff `m` exceeds the `indexed` value of the row of `f`.  When
it returns true, `tags` keeps exactly the rows of other ids, `includes` exactly the rows whose
`sourceId` is another id, the row of `f` gets `indexed = m` and the other rows of `files`,
`commands` and `options` are unchanged.  When it returns false nothing changes after the
registration.  Stated for databases whose file ids are pairwise distinct and positive. -/
theorem beginFile_postcondition (fs : FileSystem) (uninit : Int) (s : Storage)
    (f : String) (m : Int) (hpk : PrimaryKey s) (hstat : fs f = some m) :
    ((∀ x ∈ s.files, x.name ≠ f) →
      (s.addFile_ f).2 = { s with files := s.files ++ [⟨(s.addFile_ f).1, f, 0⟩] }) ∧
    ((∃ x ∈ s.files, x.name = f) → (s.addFile_ f).2 = s) ∧
    (∃ row ∈ (s.addFile_ f).2.files, row.name = f ∧ row.id = (s.addFile_ f).1 ∧
      (s.addFile_ f).2.fileId_ f = row.id ∧
      ((s.beginFile fs uninit f).1 = true ↔ m > row.indexed)) ∧
    ((s.beginFile fs uninit f).1 = true →
      (s.beginFile fs uninit f).2.tags =
        s.tags.filter (fun t => ¬ t.fileId = (s.addFile_ f).1) ∧
      (s.beginFile fs uninit f).2.includes =
        s.includes.filter (fun e => ¬ e.sourceId = (s.addFile_ f).1) ∧
      (∀ t ∈ (s.beginFile fs uninit f).2.tags, t.fileId ≠ (s.addFile_ f).1) ∧
      (∀ e ∈ (s.beginFile fs uninit f).2.includes, e.sourceId ≠ (s.addFile_ f).1) ∧
      (s.beginFile fs uninit f).2.files = (s.addFile_ f).2.files.map
        (fun x => if x.id = (s.addFile_ f).1 then { x with indexed := m } else x) ∧
      (∀ x ∈ (s.beginFile fs uninit f).2.files, x.id = (s.addFile_ f).1 → x.indexed = m) ∧
      (s.beginFile fs uninit f).2.commands = s.commands ∧
      (s.beginFile fs uninit f).2.options = s.options) ∧
    ((s.beginFile fs uninit f).1 = false → (s.beginFile fs uninit f).2 = (s.addFile_ f).2) := by
  obtain ⟨hnd, row, hrow, hname, hid, hfid, _⟩ := addFile__row hpk f
  have hidx : (s.addFile_ f).2.indexedOf (s.addFile_ f).1 = row.indexed := by
    rw [← hid]; exact indexedOf_eq hnd hrow
  have htags : (s.addFile_ f).2.tags = s.tags := addFile__tags s f
  have hinc : (s.addFile_ f).2.includes = s.includes := by
    unfold addFile_; dsimp only; split <;> rfl
  have hcmd : (s.addFile_ f).2.commands = s.commands := by
    unfold addFile_; dsimp only; split <;> rfl
  have hopt : (s.addFile_ f).2.options = s.options := by
    unfold addFile_; dsimp only; split <;> rfl
  have hbf : s.beginFile fs uninit f =
      if m > row.indexed then
        (true,
          { (s.addFile_ f).2 with
            tags := (s.addFile_ f).2.tags.filter (fun t => ¬ t.fileId = (s.addFile_ f).1)
            includes := (s.addFile_ f).2.includes.filter
              (fun e => ¬ e.sourceId = (s.addFile_ f).1)
            files := (s.addFile_ f).2.files.map
              (fun x => if x.id = (s.addFile_ f).1 then { x with indexed := m } else x) })
      else (false, (s.addFile_ f).2) := by
    unfold beginFile
    simp only [hstat, Option.getD_some, hidx]
  refine ⟨?_, ?_, ⟨row, hrow, hname, hid, hfid, ?_⟩, ?_, ?_⟩
  · intro h; rw [addFile__new h]
  · intro h; rw [addFile__old hpk.2 h]
  · rw [hbf]; split <;> simp [*]
  · intro htrue
    rw [hbf] at htrue ⊢
    by_cases hm : m > row.indexed
    · simp only [hm, if_true, htags, hinc, hcmd, hopt]
      refine ⟨trivial, trivial, ?_, ?_, trivial, ?_, trivial, trivial⟩
      · intro t ht; simpa using (List.mem_filter.1 ht).2
      · intro e he; simpa using (List.mem_filter.1 he).2
      · intro x hx hxid
        rw [List.mem_map] at hx
        obtain ⟨y, _, rfl⟩ := hx
        by_cases hy : y.id = (s.addFile_ f).1
        · simp [hy]
        · simp [hy] at hxid
    · simp [hm] at htrue
  · intro hfalse
    rw [hbf] at hfalse ⊢
    by_cases hm : m > row.indexed
    · simp [hm] at hfalse
    · simp [hm]

/-- Witness for C2, scenario S3: `a.h`, touched at t=200 and indexed at t=100, is registered
and `beginFile` returns true. -/
theorem beginFile_postcondition_witness :
    (∃ row ∈ (dbS1.addFile_ "a.h").2.files, row.name = "a.h" ∧
      row.id = (dbS1.addFile_ "a.h").1 ∧ (dbS1.addFile_ "a.h").2.fileId_ "a.h" = row.id ∧
      ((dbS1.beginFile fsS3 0 "a.h").1 = true ↔ 200 > row.indexed)) ∧
    (dbS1.beginFile fsS3 0 "a.h").1 = true ∧
    (dbS1.beginFile fsS3 0 "a.h").2.files = [⟨1, "a.cpp", 100⟩, ⟨2, "a.h", 200⟩] ∧
    (dbS1.beginFile fsS3 0 "a.h").2.tags =
      [⟨1, "c:@F@f#", "DeclRefExpr", "f", 3, 3, 40, 3, 8, 45, false, false⟩] :=
  ⟨(beginFile_postcondition fsS3 0 dbS1 "a.h" 200 (by decide) (by decide)).2.2.1,
    by decide, by decide, by decide⟩

/-! ## The query of `nextFile` -/

theorem mem_joinRows {s : Storage} {src inc : FileRow} :
    (src, inc) ∈ joinRows s ↔ IncludesEdge s src inc := by
  unfold joinRows IncludesEdge
  simp only [List.mem_flatMap, List.mem_filter, List.mem_map, Prod.mk.injEq,
    decide_eq_true_eq]
  constructor
  · rintro ⟨e, he, src', ⟨hs, hsid⟩, inc', ⟨hi, hiid⟩, rfl, rfl⟩
    refine ⟨hs, hi, ?_⟩
    rw [hsid, hiid]
    exact he
  · rintro ⟨hs, hi, he⟩
    exact ⟨_, he, src, ⟨hs, rfl⟩, inc, ⟨hi, rfl⟩, rfl, rfl⟩

theorem groupRow_sound {s : Storage} {k : Int} {c : Candidate} (h : groupRow s k = some c) :
    ∃ src inc, IncludesEdge s src inc ∧ inc.id = k ∧ c.includedName = inc.name ∧
      c.indexed = inc.indexed ∧ c.sourceName = src.name := by
  unfold groupRow at h
  split at h
  · cases h
  · rename_i src inc rest heq
    have hmem : (src, inc) ∈ (joinRows s).filter (fun r => r.2.id = k) := by
      rw [heq]; exact List.mem_cons_self _ _
    rw [List.mem_filter] at hmem
    cases h
    exact ⟨src, inc, mem_joinRows.1 hmem.1, by simpa using hmem.2, rfl, rfl, rfl⟩

theorem mem_nextFileQuery {s : Storage} {c : Candidate} :
    c ∈ nextFileQuery s ↔ ∃ k ∈ groupKeys s, groupRow s k = some c := by
  unfold nextFileQuery
  rw [(List.perm_insertionSort _ _).mem_iff, List.mem_filterMap]

theorem nextFileQuery_sound {s : Storage} {c : Candidate} (h : c ∈ nextFileQuery s) :
    ∃ src inc, IncludesEdge s src inc ∧ c.includedName = inc.name ∧
      c.indexed = inc.indexed ∧ c.sourceName = src.name := by
  obtain ⟨k, _, hk⟩ := mem_nextFileQuery.1 h
  obtain ⟨src, inc, he, _, h1, h2, h3⟩ := groupRow_sound hk
  exact ⟨src, inc, he, h1, h2, h3⟩

theorem nextFileQuery_complete {s : Storage} (hnd : (s.files.map FileRow.id).Nodup)
    {src inc : FileRow} (h : IncludesEdge s src inc) :
    ∃ c ∈ nextFileQuery s, c.includedName = inc.name ∧ c.indexed = inc.indexed := by
  have hj : (src, inc) ∈ joinRows s := mem_joinRows.2 h
  have hk : inc.id ∈ groupKeys s := by
    unfold groupKeys
    rw [(List.perm_insertionSort _ _).mem_iff, List.mem_dedup, List.mem_map]
    exact ⟨(src, inc), hj, rfl⟩
  have hf : (src, inc) ∈ (joinRows s).filter (fun r => r.2.id = inc.id) := by
    rw [List.mem_filter]; exact ⟨hj, by simp⟩
  cases hrow : groupRow s inc.id with
  | none =>
    unfold groupRow at hrow
    split at hrow
    · rename_i heq; rw [heq] at hf; cases hf
    · cases hrow
  | some c =>
    obtain ⟨src', inc', he', hid, h1, h2, _⟩ := groupRow_sound hrow
    have : inc' = inc := List.inj_on_of_nodup_map hnd he'.2.1 h.2.1 hid
    subst this
    exact ⟨c, mem_nextFileQuery.2 ⟨_, hk, hrow⟩, h1, h2⟩

/-! ## The loop of `nextFile` -/

theorem nextFileLoop_returns (fs : FileSystem) (rows : List Candidate) :
    ∀ s : Storage, (nextFileLoop fs rows s).1 ≠ "" →
      ∃ c ∈ rows, c.sourceName = (nextFileLoop fs rows s).1 ∧
        ∃ m, fs c.includedName = some m ∧ m > c.indexed := by
  induction rows with
  | nil => intro s h; exact absurd rfl h
  | cons c rest ih =>
    intro s h
    unfold nextFileLoop at h ⊢
    cases hfs : fs c.includedName with
    | none =>
      simp only [hfs] at h ⊢
      obtain ⟨c', hc', h1, h2⟩ := ih _ h
      exact ⟨c', List.mem_cons_of_mem _ hc', h1, h2⟩
    | some m =>
      simp only [hfs] at h ⊢
      by_cases hm : m > c.indexed
      · simp only [hm, if_true] at h ⊢
        exact ⟨c, List.mem_cons_self _ _, rfl, m, hfs, hm⟩
      · simp only [hm, if_false] at h ⊢
        obtain ⟨c', hc', h1, h2⟩ := ih _ h
        exact ⟨c', List.mem_cons_of_mem _ hc', h1, h2⟩

theorem nextFileLoop_none (fs : FileSystem) (rows : List Candidate)
    (hne : ∀ c ∈ rows, c.sourceName ≠ "") :
    ∀ s : Storage, (nextFileLoop fs rows s).1 = "" →
      ∀ c ∈ rows, ∀ m, fs c.includedName = some m → ¬ m > c.indexed := by
  induction rows with
  | nil => intro s _ c hc; cases hc
  | cons c rest ih =>
    intro s h c' hc' m hm
    have ih' := ih (fun x hx => hne x (List.mem_cons_of_mem _ hx))
    unfold nextFileLoop at h
    cases hfs : fs c.includedName with
    | none =>
      simp only [hfs] at h
      rcases List.mem_cons.1 hc' with rfl | hc'
      · rw [hfs] at hm; cases hm
      · exact ih' _ h c' hc' m hm
    | some m' =>
      simp only [hfs] at h
      by_cases hgt : m' > c.indexed
      · simp only [hgt, if_true] at h
        exact absurd h (hne c (List.mem_cons_self _ _))
      · simp only [hgt, if_false] at h
        rcases List.mem_cons.1 hc' with rfl | hc'
        · rw [hfs] at hm; cases hm; exact hgt
        · exact ih' _ h c' hc' m hm

theorem nextFile_returns_edge (fs : FileSystem) (s : Storage)
    (h : (s.nextFile fs).1 ≠ "") :
    ∃ src inc, IncludesEdge s src inc ∧ src.name = (s.nextFile fs).1 ∧ Stale fs inc := by
  obtain ⟨c, hc, hname, m, hm, hgt⟩ := nextFileLoop_returns fs _ s h
  obtain ⟨src, inc, he, hi, hx, hs⟩ := nextFileQuery_sound hc
  refine ⟨src, inc, he, ?_, m, ?_, ?_⟩
  · rw [← hs]; exact hname
  · rw [← hi]; exact hm
  · rw [← hx]; exact hgt

theorem nextFileQuery_sourceName_ne {s : Storage} (hne : ∀ f ∈ s.files, f.name ≠ "") :
    ∀ c ∈ nextFileQuery s, c.sourceName ≠ "" := by
  intro c hc
  obtain ⟨src, _, he, _, _, hs⟩ := nextFileQuery_sound hc
  rw [hs]
  exact hne src he.1

theorem nextFile_none_fresh (fs : FileSystem) (s : Storage)
    (hnd : (s.files.map FileRow.id).Nodup) (hne : ∀ f ∈ s.files, f.name ≠ "")
    (h : (s.nextFile fs).1 = "") : ¬ ∃ src inc, IncludesEdge s src inc ∧ Stale fs inc := by
  rintro ⟨src, inc, he, m, hm, hgt⟩
  obtain ⟨c, hc, hi, hx⟩ := nextFileQuery_complete hnd he
  refine nextFileLoop_none fs _ (nextFileQuery_sourceName_ne hne) s h c hc m ?_ ?_
  · rw [hi]; exact hm
  · rw [hx]; exact hgt

/-- C3, as amended: eligibility rule of `nextFile` in a database with distinct file ids and
no empty file name.  A non-empty result is the name of a registered file with an include
edge to a file that is on disk and newer than its `indexed` value; the empty result means
that no file with an incoming include edge is on disk and newer than its `indexed` value; so
`nextFile` returns a file iff such a stale file exists. -/
theorem nextFile_eligibility (fs : FileSystem) (s : Storage)
    (hnd : (s.files.map FileRow.id).Nodup) (hne : ∀ f ∈ s.files, f.name ≠ "") :
    ((s.nextFile fs).1 ≠ "" →
      ∃ src inc, IncludesEdge s src inc ∧ src.name = (s.nextFile fs).1 ∧ Stale fs inc) ∧
    ((s.nextFile fs).1 = "" → ¬ ∃ src inc, IncludesEdge s src inc ∧ Stale fs inc) ∧
    ((s.nextFile fs).1 ≠ "" ↔ ∃ src inc, IncludesEdge s src inc ∧ Stale fs inc) := by
  refine ⟨nextFile_returns_edge fs s, nextFile_none_fresh fs s hnd hne, ?_⟩
  constructor
  · intro h
    obtain ⟨src, inc, he, _, hst⟩ := nextFile_returns_edge fs s h
    exact ⟨src, inc, he, hst⟩
  · intro hex h
    exact nextFile_none_fresh fs s hnd hne h hex

/-- Witness for C3 as amended: scenario S3, `a.h` touched at t=200. -/
theorem nextFile_eligibility_witness :
    (dbS1.nextFile fsS3).1 ≠ "" ↔
      ∃ src inc, IncludesEdge dbS1 src inc ∧ Stale fsS3 inc :=
  (nextFile_eligibility fsS3 dbS1 (by decide) (by decide)).2.2

/-- Counterexample to C3 as stated: `dbEmptyName` is what `setCompileCommand ("", ...)`,
`beginFile ("h.h")` and `addInclude ("h.h", "")` leave; `h.h` has an incoming include edge, is
on disk and is newer than its `indexed` value, and `nextFile` returns the empty string, the
name of its source. -/
theorem nextFile_empty_name_is_none :
    ((Storage.empty.setCompileCommand "" "/" "[]").2.beginFile fsEmptyName5 0
      "h.h").2.addIncludeNamed "h.h" "" = some dbEmptyName ∧
    IncludesEdge dbEmptyName ⟨1, "", 0⟩ ⟨2, "h.h", 5⟩ ∧
    Stale fsEmptyName10 ⟨2, "h.h", 5⟩ ∧
    (dbEmptyName.nextFile fsEmptyName10).1 = "" ∧
    ¬ ((dbEmptyName.nextFile fsEmptyName10).1 ≠ "" ↔
      ∃ src inc, IncludesEdge dbEmptyName src inc ∧ Stale fsEmptyName10 inc) := by
  refine ⟨by decide, by decide, ⟨10, by decide, by decide⟩, by decide, ?_⟩
  intro h
  exact h.2 ⟨⟨1, "", 0⟩, ⟨2, "h.h", 5⟩, by decide, 10, by decide, by decide⟩ (by decide)

/-! ## A second call of `nextFile` -/

theorem uniqueNames_of_shrinks {s s' : Storage} (h : UniqueNames s) (hs : Shrinks s s') :
    UniqueNames s' :=
  List.Nodup.sublist (hs.1.map FileRow.name) h

theorem removeFile_name_gone {s : Storage} (hun : UniqueNames s) (n : String) :
    ∀ r ∈ (s.removeFile n).files, r.name ≠ n := by
  intro r hr hn
  have hr' : r ∈ s.files.filter (fun f => ¬ f.id = s.fileId_ n) := hr
  rw [List.mem_filter] at hr'
  obtain ⟨f, hf, hfn, hid⟩ := fileId__registered ⟨r, hr'.1, hn⟩
  have : f = r := List.inj_on_of_nodup_map hun hf hr'.1 (hfn.trans hn.symm)
  subst this
  simp [hid] at hr'

theorem nextFileLoop_removed (fs : FileSystem) (rows : List Candidate)
    (hne : ∀ c ∈ rows, c.sourceName ≠ "") :
    ∀ s : Storage, UniqueNames s → (nextFileLoop fs rows s).1 = "" →
      ∀ c ∈ rows, fs c.includedName = none →
        ∀ r ∈ (nextFileLoop fs rows s).2.files, r.name ≠ c.includedName := by
  induction rows with
  | nil => intro s _ _ c hc; cases hc
  | cons c0 rest ih =>
    intro s hun h c hc hfs
    have ih' := ih (fun x hx => hne x (List.mem_cons_of_mem _ hx))
    unfold nextFileLoop at h ⊢
    cases hfs0 : fs c0.includedName with
    | none =>
      simp only [hfs0] at h ⊢
      rcases List.mem_cons.1 hc with rfl | hc
      · intro r hr
        exact removeFile_name_gone hun _ r ((nextFileLoop_shrinks fs rest _).1.subset hr)
      · exact ih' _ (uniqueNames_of_shrinks hun (removeFile_shrinks s _)) h c hc hfs
    | some m =>
      simp only [hfs0] at h ⊢
      by_cases hgt : m > c0.indexed
      · simp only [hgt, if_true] at h
        exact absurd h (hne c0 (List.mem_cons_self _ _))
      · simp only [hgt, if_false] at h ⊢
        rcases List.mem_cons.1 hc with rfl | hc
        · rw [hfs0] at hfs; cases hfs
        · exact ih' _ hun h c hc hfs

theorem nextFileLoop_all_fresh (fs : FileSystem) (rows : List Candidate) (s : Storage)
    (h : ∀ c ∈ rows, ∃ m, fs c.includedName = some m ∧ ¬ m > c.indexed) :
    nextFileLoop fs rows s = ("", s) := by
  induction rows with
  | nil => rfl
  | cons c rest ih =>
    obtain ⟨m, hm, hgt⟩ := h c (List.mem_cons_self _ _)
    unfold nextFileLoop
    simp only [hm, hgt, if_false]
    exact ih (fun x hx => h x (List.mem_cons_of_mem _ hx))

theorem includesEdge_of_shrinks {s s' : Storage} (hs : Shrinks s s') {src inc : FileRow}
    (h : IncludesEdge s' src inc) : IncludesEdge s src inc :=
  ⟨hs.1.subset h.1, hs.1.subset h.2.1, hs.2.2.1.subset h.2.2⟩

theorem updateLoop_finished (fs : FileSystem) (uninit : Int)
    (translationUnit_ : Storage → String → Option CursorTree) (exclude : List String)
    (fuel : Nat) (s : Storage) (h : s.nextFile fs = ("", s)) :
    updateLoop fs uninit translationUnit_ exclude (fuel + 1) s = ⟨.finished, s, []⟩ := by
  unfold updateLoop
  simp [h]

theorem nextFile_again (fs : FileSystem) (s : Storage)
    (hnd : (s.files.map FileRow.id).Nodup) (hun : UniqueNames s)
    (hne : ∀ f ∈ s.files, f.name ≠ "") (h : (s.nextFile fs).1 = "") :
    (s.nextFile fs).2.nextFile fs = ("", (s.nextFile fs).2) := by
  have hsh : Shrinks s (s.nextFile fs).2 := nextFileLoop_shrinks fs _ s
  have hsrc := nextFileQuery_sourceName_ne hne
  apply nextFileLoop_all_fresh
  intro c' hc'
  obtain ⟨src', inc', he', hi', hx', _⟩ := nextFileQuery_sound hc'
  obtain ⟨c, hc, hi, hx⟩ := nextFileQuery_complete hnd (includesEdge_of_shrinks hsh he')
  cases hfs : fs inc'.name with
  | none =>
    have := nextFileLoop_removed fs _ hsrc s hun h c hc (by rw [hi]; exact hfs)
      inc' he'.2.1
    exact absurd hi.symm this
  | some m =>
    refine ⟨m, by rw [hi']; exact hfs, ?_⟩
    rw [hx', ← hx]
    exact nextFileLoop_none fs _ hsrc s h c hc m (by rw [hi]; exact hfs)

theorem nextFile_all_fresh (fs : FileSystem) (s : Storage)
    (hall : ∀ src inc, IncludesEdge s src inc → ∃ m, fs inc.name = some m ∧ ¬ m > inc.indexed) :
    s.nextFile fs = ("", s) := by
  apply nextFileLoop_all_fresh
  intro c hc
  obtain ⟨src, inc, he, hi, hx, _⟩ := nextFileQuery_sound hc
  obtain ⟨m, hm, hgt⟩ := hall src inc he
  exact ⟨m, by rw [hi]; exact hm, by rw [hx]; exact hgt⟩

/-! ## What a pass keeps -/

theorem filesWellFormed_of_shrinks {s s' : Storage} (h : FilesWellFormed s)
    (hs : Shrinks s s') : FilesWellFormed s' :=
  ⟨⟨List.Nodup.sublist (hs.1.map FileRow.id) h.1.1, fun f hf => h.1.2 f (hs.1.subset hf)⟩,
    uniqueNames_of_shrinks h.2.1 hs, fun f hf => h.2.2 f (hs.1.subset hf)⟩

theorem filesWellFormed_of_files_map {s s' : Storage} (h : FilesWellFormed s)
    (hid : s'.files.map FileRow.id = s.files.map FileRow.id)
    (hname : s'.files.map FileRow.name = s.files.map FileRow.name) : FilesWellFormed s' := by
  refine ⟨⟨?_, ?_⟩, ?_, ?_⟩
  · rw [hid]; exact h.1.1
  · intro f hf
    have : f.id ∈ s.files.map FileRow.id := by rw [← hid]; exact List.mem_map_of_mem _ hf
    obtain ⟨g, hg, hfg⟩ := List.mem_map.1 this
    rw [← hfg]
    exact h.1.2 g hg
  · unfold UniqueNames; rw [hname]; exact h.2.1
  · intro f hf
    have : f.name ∈ s.files.map FileRow.name := by
      rw [← hname]; exact List.mem_map_of_mem _ hf
    obtain ⟨g, hg, hfg⟩ := List.mem_map.1 this
    rw [← hfg]
    exact h.2.2 g hg

theorem filesWellFormed_of_files_eq {s s' : Storage} (h : FilesWellFormed s)
    (he : s'.files = s.files) : FilesWellFormed s' :=
  filesWellFormed_of_files_map h (by rw [he]) (by rw [he])

theorem newRowId_pos {files : List FileRow} (hpos : ∀ f ∈ files, 0 < f.id) :
    0 < newRowId files := by
  cases files with
  | nil => decide
  | cons a rest =>
    have h1 := newRowId_fresh (a :: rest) a (List.mem_cons_self _ _)
    have h2 := hpos a (List.mem_cons_self _ _)
    omega

theorem addFile__filesWellFormed {s : Storage} (h : FilesWellFormed s) {n : String}
    (hn : n ≠ "") : FilesWellFormed (s.addFile_ n).2 := by
  by_cases hreg : ∃ x ∈ s.files, x.name = n
  · rw [addFile__old h.1.2 hreg]; exact h
  · have hno : ∀ x ∈ s.files, x.name ≠ n := fun x hx hxn => hreg ⟨x, hx, hxn⟩
    rw [addFile__new hno]
    refine ⟨⟨?_, ?_⟩, ?_, ?_⟩
    · dsimp only
      rw [List.map_append]
      refine List.Nodup.append h.1.1 (List.nodup_singleton _) ?_
      intro k hk hk'
      simp only [List.map_cons, List.map_nil, List.mem_singleton] at hk'
      rw [List.mem_map] at hk
      obtain ⟨x, hx, rfl⟩ := hk
      have := newRowId_fresh s.files x hx
      omega
    · intro f hf
      rcases List.mem_append.1 hf with hf | hf
      · exact h.1.2 f hf
      · rw [List.mem_singleton] at hf
        rw [hf]
        exact newRowId_pos h.1.2
    · unfold UniqueNames
      dsimp only
      rw [List.map_append]
      refine List.Nodup.append h.2.1 (List.nodup_singleton _) ?_
      intro k hk hk'
      simp only [List.map_cons, List.map_nil, List.mem_singleton] at hk'
      rw [List.mem_map] at hk
      obtain ⟨x, hx, rfl⟩ := hk
      exact hno x hx hk'
    · intro f hf
      rcases List.mem_append.1 hf with hf | hf
      · exact h.2.2 f hf
      · rw [List.mem_singleton] at hf
        rw [hf]
        exact hn

theorem beginFile_files_map (fs : FileSystem) (uninit : Int) (s : Storage) (n : String) :
    (s.beginFile fs uninit n).2.files.map FileRow.id = (s.addFile_ n).2.files.map FileRow.id ∧
    (s.beginFile fs uninit n).2.files.map FileRow.name =
      (s.addFile_ n).2.files.map FileRow.name := by
  unfold beginFile
  dsimp only
  split
  · dsimp only
    rw [List.map_map, List.map_map]
    constructor
    · apply List.map_congr_left
      intro f _
      simp only [Function.comp]
      split <;> rfl
    · apply List.map_congr_left
      intro f _
      simp only [Function.comp]
      split <;> rfl
  · exact ⟨rfl, rfl⟩

theorem beginFile_filesWellFormed (fs : FileSystem) (uninit : Int) {s : Storage}
    (h : FilesWellFormed s) {n : String} (hn : n ≠ "") :
    FilesWellFormed (s.beginFile fs uninit n).2 :=
  filesWellFormed_of_files_map (addFile__filesWellFormed h hn)
    (beginFile_files_map fs uninit s n).1 (beginFile_files_map fs uninit s n).2

theorem addInclude_files (s : Storage) (i j : Int) : (s.addInclude i j).files = s.files := by
  unfold addInclude; split <;> rfl

theorem addIncludeNamed_files {s s' : Storage} {a b : String}
    (h : s.addIncludeNamed a b = some s') : s'.files = s.files := by
  unfold addIncludeNamed at h
  dsimp only at h
  split at h
  · cases h
  · cases h; exact addInclude_files _ _ _

theorem addTag_files (s : Storage) (usr kind spelling fileName : String)
    (l1 c1 o1 l2 c2 o2 : Int) (d f : Bool) :
    (s.addTag usr kind spelling fileName l1 c1 o1 l2 c2 o2 d f).files = s.files := by
  unfold addTag
  dsimp only
  split
  · rfl
  · split <;> rfl

theorem create_filesWellFormed (fs : FileSystem) (uninit : Int) {s : Storage}
    (h : FilesWellFormed s) {n : String} (hn : n ≠ "") (exclude : List String)
    {ix : Indexer} (hc : Indexer.create fs uninit n exclude s = some ix) :
    FilesWellFormed ix.storage_ := by
  unfold Indexer.create at hc
  dsimp only at hc
  rw [Option.map_eq_some'] at hc
  obtain ⟨s2, hs2, rfl⟩ := hc
  exact filesWellFormed_of_files_eq (beginFile_filesWellFormed fs uninit h hn)
    (addIncludeNamed_files hs2)

theorem visit_filesWellFormed (fs : FileSystem) (uninit : Int) {ix : Indexer}
    (h : FilesWellFormed ix.storage_) (c : Cursor) {r : CXChildVisitResult × Indexer}
    (hv : ix.visit fs uninit c = some r) : FilesWellFormed r.2.storage_ := by
  unfold Indexer.visit at hv
  split at hv
  · cases hv; exact h
  · split at hv
    · cases hv; exact h
    · dsimp only at hv
      split at hv
      · cases hv; exact h
      · rename_i hname
        split at hv
        · cases hv; exact h
        · rw [Option.map_eq_some'] at hv
          obtain ⟨ix1, hix1, rfl⟩ := hv
          have h1 : FilesWellFormed ix1.storage_ := by
            split at hix1
            · rw [Option.map_eq_some'] at hix1
              obtain ⟨s2, hs2, rfl⟩ := hix1
              exact filesWellFormed_of_files_eq (beginFile_filesWellFormed fs uninit h hname)
                (addIncludeNamed_files hs2)
            · cases hix1; exact h
          split
          · exact filesWellFormed_of_files_eq h1 (addTag_files _ _ _ _ _ _ _ _ _ _ _ _ _)
          · exact h1

mutual
theorem walk_filesWellFormed (fs : FileSystem) (uninit : Int) :
    ∀ (t : CursorTree) (ix : Indexer), FilesWellFormed ix.storage_ →
      ∀ r, Indexer.walk fs uninit ix t = some r → FilesWellFormed r.2.storage_
  | .node c children, ix, h, r, hr => by
    rw [Indexer.walk] at hr
    split at hr
    · cases hr
    · rename_i ix1 hv
      cases hr
      exact visit_filesWellFormed fs uninit h c hv
    · rename_i ix1 hv
      cases hr
      exact visit_filesWellFormed fs uninit h c hv
    · rename_i ix1 hv
      exact walkAll_filesWellFormed fs uninit children ix1
        (visit_filesWellFormed fs uninit h c hv) r hr
theorem walkAll_filesWellFormed (fs : FileSystem) (uninit : Int) :
    ∀ (ts : List CursorTree) (ix : Indexer), FilesWellFormed ix.storage_ →
      ∀ r, Indexer.walkAll fs uninit ix ts = some r → FilesWellFormed r.2.storage_
  | [], ix, h, r, hr => by
    rw [Indexer.walkAll] at hr
    cases hr
    exact h
  | t :: rest, ix, h, r, hr => by
    rw [Indexer.walkAll] at hr
    split at hr
    · cases hr
    · rename_i ix1 hw
      cases hr
      exact walk_filesWellFormed fs uninit t ix h _ hw
    · rename_i ix1 hw
      exact walkAll_filesWellFormed fs uninit rest ix1
        (walk_filesWellFormed fs uninit t ix h _ hw) r hr
end

theorem visitChildren_filesWellFormed (fs : FileSystem) (uninit : Int) {ix ix1 : Indexer}
    (h : FilesWellFormed ix.storage_) (top : CursorTree)
    (hv : ix.visitChildren fs uninit top = some ix1) : FilesWellFormed ix1.storage_ := by
  cases top with
  | node c children =>
    rw [Indexer.visitChildren, Option.map_eq_some'] at hv
    obtain ⟨r, hr, rfl⟩ := hv
    exact walkAll_filesWellFormed fs uninit children ix h r hr

/-! ## The end of a pass -/

theorem updateLoop_parsed_head (fs : FileSystem) (uninit : Int)
    (translationUnit_ : Storage → String → Option CursorTree) (exclude : List String)
    (fuel : Nat) (s : Storage) (h : (s.nextFile fs).1 ≠ "") :
    ∃ rest, (updateLoop fs uninit translationUnit_ exclude (fuel + 1) s).parsed =
      (s.nextFile fs).1 :: rest := by
  rw [updateLoop]
  simp only [h, if_false]
  split
  · exact ⟨[], rfl⟩
  · split
    · exact ⟨[], rfl⟩
    · split
      · exact ⟨[], rfl⟩
      · exact ⟨_, rfl⟩


theorem updateLoop_finished_settled (fs : FileSystem) (uninit : Int)
    (translationUnit_ : Storage → String → Option CursorTree) (exclude : List String) :
    ∀ (fuel : Nat) (s : Storage), FilesWellFormed s →
      (updateLoop fs uninit translationUnit_ exclude fuel s).status = .finished →
      FilesWellFormed (updateLoop fs uninit translationUnit_ exclude fuel s).storage ∧
      (updateLoop fs uninit translationUnit_ exclude fuel s).storage.nextFile fs =
        ("", (updateLoop fs uninit translationUnit_ exclude fuel s).storage) ∧
      ¬ ∃ src inc,
        IncludesEdge (updateLoop fs uninit translationUnit_ exclude fuel s).storage src inc ∧
          Stale fs inc := by
  intro fuel
  induction fuel with
  | zero =>
    intro s _ hst
    rw [updateLoop] at hst
    cases hst
  | succ n ih =>
    intro s h hst
    have hsh : Shrinks s (s.nextFile fs).2 := nextFileLoop_shrinks fs _ s
    rw [updateLoop] at hst ⊢
    dsimp only at hst ⊢
    by_cases hname : (s.nextFile fs).1 = ""
    · simp only [hname, if_true] at hst ⊢
      refine ⟨filesWellFormed_of_shrinks h hsh,
        nextFile_again fs s h.1.1 h.2.1 h.2.2 hname, ?_⟩
      rintro ⟨src, inc, he, hstale⟩
      exact nextFile_none_fresh fs s h.1.1 h.2.2 hname
        ⟨src, inc, includesEdge_of_shrinks hsh he, hstale⟩
    · simp only [hname, if_false] at hst ⊢
      split at hst
      · cases hst
      · rename_i top htu
        split at hst
        · cases hst
        · rename_i ix hix
          split at hst
          · cases hst
          · rename_i ix1 hix1
            have h1 := create_filesWellFormed fs uninit (filesWellFormed_of_shrinks h hsh)
              hname exclude hix
            have h2 := visitChildren_filesWellFormed fs uninit h1 top hix1
            simp only [htu, hix, hix1]
            exact ih ix1.storage_ h2 hst

/-- Counterexample to C4 as stated: `a.h` is stale and both `a.cpp` and `b.cpp` have an
include edge to it, yet the pass ends after reparsing one file; `a.h` is then up to date
and `nextFile` does not return the other includer. -/
theorem updateLoop_skips_other_includer :
    IncludesEdge dbShared ⟨1, "a.cpp", 100⟩ ⟨3, "a.h", 100⟩ ∧
    IncludesEdge dbShared ⟨2, "b.cpp", 100⟩ ⟨3, "a.h", 100⟩ ∧
    Stale fsShared ⟨3, "a.h", 100⟩ ∧
    (updateLoop fsShared 0 parseShared [] 3 dbShared).status = .finished ∧
    (updateLoop fsShared 0 parseShared [] 3 dbShared).parsed = ["a.cpp"] ∧
    "b.cpp" ∉ (updateLoop fsShared 0 parseShared [] 3 dbShared).parsed ∧
    (updateLoop fsShared 0 parseShared [] 3 dbShared).storage.files =
      [⟨1, "a.cpp", 100⟩, ⟨2, "b.cpp", 100⟩, ⟨3, "a.h", 200⟩] :=
  ⟨by decide, by decide, ⟨200, by decide, by decide⟩, by decide, by decide, by decide,
    by decide⟩

/-- C5, as amended: in a database whose `files` table is well formed (distinct positive ids,
distinct names, no empty name), a call of `nextFile` after one that returned the empty string
returns the empty string and changes no table, and so does a pass of the update loop; when
every file with an incoming include edge is on disk and not newer than its `indexed` value
the first call already does so and a pass changes nothing; a pass run right after a pass
that ended returns at once and leaves the database as it is. -/
theorem nextFile_idempotent (fs : FileSystem) (uninit : Int)
    (translationUnit_ : Storage → String → Option CursorTree) (exclude : List String)
    (fuel fuel' : Nat) (s : Storage) (hwf : FilesWellFormed s) :
    ((s.nextFile fs).1 = "" →
      (s.nextFile fs).2.nextFile fs = ("", (s.nextFile fs).2) ∧
      updateLoop fs uninit translationUnit_ exclude (fuel + 1) (s.nextFile fs).2 =
        ⟨.finished, (s.nextFile fs).2, []⟩) ∧
    ((∀ src inc, IncludesEdge s src inc → ∃ m, fs inc.name = some m ∧ ¬ m > inc.indexed) →
      s.nextFile fs = ("", s) ∧
      updateLoop fs uninit translationUnit_ exclude (fuel + 1) s = ⟨.finished, s, []⟩) ∧
    ((updateLoop fs uninit translationUnit_ exclude fuel s).status = .finished →
      updateLoop fs uninit translationUnit_ exclude (fuel' + 1)
          (updateLoop fs uninit translationUnit_ exclude fuel s).storage =
        ⟨.finished, (updateLoop fs uninit translationUnit_ exclude fuel s).storage, []⟩) := by
  refine ⟨?_, ?_, ?_⟩
  · intro h
    have key := nextFile_again fs s hwf.1.1 hwf.2.1 hwf.2.2 h
    exact ⟨key, updateLoop_finished fs uninit translationUnit_ exclude fuel _ key⟩
  · intro hall
    have key := nextFile_all_fresh fs s hall
    exact ⟨key, updateLoop_finished fs uninit translationUnit_ exclude fuel _ key⟩
  · intro hfin
    exact updateLoop_finished fs uninit translationUnit_ exclude fuel' _
      (updateLoop_finished_settled fs uninit translationUnit_ exclude fuel s hwf hfin).2.1

/-- Witness for C5 as amended, scenario S2: nothing changed on disk since the index at
t=100. -/
theorem nextFile_idempotent_witness :
    (dbS1.nextFile fsS1).1 = "" ∧
    (dbS1.nextFile fsS1).2.nextFile fsS1 = ("", (dbS1.nextFile fsS1).2) ∧
    updateLoop fsS1 0 parseShared [] 1 (dbS1.nextFile fsS1).2 =
      ⟨.finished, (dbS1.nextFile fsS1).2, []⟩ ∧
    (dbS1.nextFile fsS1).2 = dbS1 :=
  ⟨by decide,
    ((nextFile_idempotent fsS1 0 parseShared [] 0 0 dbS1 (by decide)).1 (by decide)).1,
    ((nextFile_idempotent fsS1 0 parseShared [] 0 0 dbS1 (by decide)).1 (by decide)).2,
    by decide⟩

/-- Counterexample to C5 as stated: `dbEmptyNameShared` is what registering the translation
units `""` and `t.cpp`, both including `h.h`, leaves.  After `h.h` is edited, `nextFile`
removes the file `""`, which cannot be found on disk, and returns the empty string, the name
of the source it reports for `h.h`; called again on the same disk it returns `t.cpp`. -/
theorem nextFile_empty_name_not_idempotent :
    (((Storage.empty.setCompileCommand "" "/" "[]").2.beginFile fsEmptyNameShared5 0
        "h.h").2.addIncludeNamed "h.h" "").bind (fun s1 =>
      (((s1.setCompileCommand "t.cpp" "/" "[]").2.beginFile fsEmptyNameShared5 0
          "t.cpp").2.addIncludeNamed "t.cpp" "t.cpp").bind (fun s2 =>
        (s2.beginFile fsEmptyNameShared5 0 "h.h").2.addIncludeNamed "h.h" "t.cpp")) =
      some dbEmptyNameShared ∧
    (dbEmptyNameShared.nextFile fsEmptyNameShared10).1 = "" ∧
    (dbEmptyNameShared.nextFile fsEmptyNameShared10).2.files =
      [⟨2, "h.h", 5⟩, ⟨3, "t.cpp", 5⟩] ∧
    ((dbEmptyNameShared.nextFile fsEmptyNameShared10).2.nextFile fsEmptyNameShared10).1 =
      "t.cpp" := by
  decide

/-! ## Queries -/

theorem filter_id_eq_singleton {files : List FileRow}
    (hnd : (files.map FileRow.id).Nodup) {x : FileRow} (hx : x ∈ files) :
    files.filter (fun y => x.id = y.id) = [x] := by
  induction files with
  | nil => cases hx
  | cons a rest ih =>
    rw [List.map_cons, List.nodup_cons] at hnd
    rcases List.mem_cons.1 hx with rfl | hx'
    · have hrest : rest.filter (fun y => x.id = y.id) = [] := by
        rw [List.filter_eq_nil_iff]
        intro y hy hyx
        exact hnd.1 (List.mem_map.2 ⟨y, hy, (by simpa using hyx : x.id = y.id).symm⟩)
      simp [List.filter_cons, hrest]
    · have hne : ¬ x.id = a.id := by
        intro h
        exact hnd.1 (List.mem_map.2 ⟨x, hx', h⟩)
      simp [List.filter_cons, hne, ih hnd.2 hx']

theorem fileNameOf_eq {s : Storage} (hnd : (s.files.map FileRow.id).Nodup) {x : FileRow}
    (hx : x ∈ s.files) : fileNameOf s x.id = x.name := by
  unfold fileNameOf
  cases hfind : s.files.find? (fun g => g.id = x.id) with
  | none =>
    rw [List.find?_eq_none] at hfind
    exact absurd (by simp) (hfind x hx)
  | some g =>
    have hmem := List.mem_of_find?_eq_some hfind
    have hp : g.id = x.id := by simpa using List.find?_some hfind
    have : g = x := List.inj_on_of_nodup_map hnd hmem hx hp
    rw [this]

theorem flatMap_congr_mem {α β : Type} (l : List α) (f g : α → List β)
    (h : ∀ a ∈ l, f a = g a) : l.flatMap f = l.flatMap g := by
  induction l with
  | nil => rfl
  | cons a rest ih =>
    rw [List.flatMap_cons, List.flatMap_cons, h a (List.mem_cons_self _ _),
      ih (fun b hb => h b (List.mem_cons_of_mem _ hb))]

theorem filter_flatMap_guard {α β : Type} (l : List α) (p q : α → Bool) (k : α → β)
    (F : α → List β) (h : ∀ a ∈ l, F a = if q a then [k a] else []) :
    (l.filter p).flatMap F = (l.filter (fun a => p a && q a)).map k := by
  induction l with
  | nil => rfl
  | cons a rest ih =>
    have ih' := ih (fun b hb => h b (List.mem_cons_of_mem _ hb))
    have ha := h a (List.mem_cons_self _ _)
    cases hp : p a <;> cases hq : q a <;>
      simp [List.filter_cons, hp, hq, ha, ih', List.flatMap_cons]


theorem fileId__eq_iff_belongs {s : Storage} (hpk : PrimaryKey s) (hun : UniqueNames s)
    (hown : TagsOwned s) (f : String) {r : TagRow} (hr : r ∈ s.tags) :
    r.fileId = s.fileId_ f ↔ ∃ x ∈ s.files, x.name = f ∧ x.id = r.fileId := by
  constructor
  · intro h
    by_cases hreg : ∃ x ∈ s.files, x.name = f
    · obtain ⟨x, hx, hn, hid⟩ := fileId__registered hreg
      exact ⟨x, hx, hn, by rw [h, hid]⟩
    · have hno : ∀ x ∈ s.files, x.name ≠ f := fun x hx hn => hreg ⟨x, hx, hn⟩
      rw [fileId__unregistered hno] at h
      obtain ⟨x, hx, hid⟩ := hown r hr
      have := hpk.2 x hx
      omega
  · rintro ⟨x, hx, hn, hid⟩
    obtain ⟨y, hy, hyn, hyid⟩ := fileId__registered ⟨x, hx, hn⟩
    have : y = x := List.inj_on_of_nodup_map hun hy hx (hyn.trans hn.symm)
    subst this
    rw [hyid, hid]

theorem findDefinitionRows_map (u : UninitReference) (s : Storage) (f : String) (o : Int)
    (hpk : PrimaryKey s) (hun : UniqueNames s) (hown : TagsOwned s) :
    (findDefinitionRows s (s.fileId_ f) o).map (findDefinitionRefDef u f) =
      (findDefinitionPairs s f o).map (refDefOf u s f) := by
  unfold findDefinitionRows findDefinitionPairs
  rw [List.map_flatMap, List.map_flatMap]
  apply flatMap_congr_mem
  intro r hr
  rw [List.map_flatMap, List.map_map]
  have hinner : ∀ d ∈ s.tags,
      (((s.files.filter (fun x => d.fileId = x.id)).filter (fun _ =>
          d.isDecl = true ∧ r.fileId = s.fileId_ f ∧ r.offset1 ≤ o ∧ r.offset2 ≥ o)).map
        (fun x => (r, d, x))).map (findDefinitionRefDef u f) =
      if decide (d.isDecl = true ∧ r.fileId = s.fileId_ f ∧ r.offset1 ≤ o ∧ r.offset2 ≥ o)
      then [refDefOf u s f (r, d)] else [] := by
    intro d hd
    obtain ⟨x, hx, hid⟩ := hown d hd
    have hsingle : s.files.filter (fun y => d.fileId = y.id) = [x] := by
      rw [← hid]; exact filter_id_eq_singleton hpk.1 hx
    have hname : fileNameOf s d.fileId = x.name := by
      rw [← hid]; exact fileNameOf_eq hpk.1 hx
    rw [hsingle]
    by_cases hc : d.isDecl = true ∧ r.fileId = s.fileId_ f ∧ r.offset1 ≤ o ∧ r.offset2 ≥ o
    · simp only [hc, and_self, decide_True, List.filter_cons_of_pos, List.filter_nil,
        List.map_cons, List.map_nil, if_true]
      simp [findDefinitionRefDef, refDefOf, hname]
    · simp only [hc, decide_False, List.filter_cons_of_neg, List.filter_nil, List.map_nil,
        Bool.false_eq_true, if_false, not_false_eq_true]
  rw [filter_flatMap_guard s.tags _ _ (fun d => refDefOf u s f (r, d)) _ hinner]
  congr 1
  apply List.filter_congr
  intro d _
  have hb := fileId__eq_iff_belongs hpk hun hown f hr
  rw [Bool.eq_iff_iff]
  simp only [Bool.and_eq_true, decide_eq_true_eq, ge_iff_le]
  constructor
  · rintro ⟨h1, h2, h3, h4, h5⟩
    exact ⟨hb.1 h3, h4, h5, h1, h2⟩
  · rintro ⟨hbel, h4, h5, h1, h2⟩
    exact ⟨h1, h2, hb.2 hbel, h4, h5⟩

instance findDefinition_total :
    IsTotal (TagRow × TagRow × FileRow)
      (fun a b => a.1.offset2 - a.1.offset1 ≤ b.1.offset2 - b.1.offset1) :=
  ⟨fun a b => le_total (a.1.offset2 - a.1.offset1) (b.1.offset2 - b.1.offset1)⟩

instance findDefinition_trans :
    IsTrans (TagRow × TagRow × FileRow)
      (fun a b => a.1.offset2 - a.1.offset1 ≤ b.1.offset2 - b.1.offset1) :=
  ⟨fun _ _ _ h1 h2 => le_trans h1 h2⟩

/-- C6: the result of `findDefinition (f, o)` holds exactly one `RefDef` for each pair
`(r, d)` of tag rows with `r` in the file `f`, `r.offset1 ≤ o ≤ r.offset2`, `d.usr = r.usr`
and `d.isDecl`, and nothing else; it is ordered by non-decreasing span width of the
reference; every element has `ref.file = f` and `def.file` the name of the file of `d`.
Stated for databases with distinct positive file ids, distinct file names and every tag owned
by a registered file. -/
theorem findDefinition_result (u : UninitReference) (s : Storage) (f : String) (o : Int)
    (hpk : PrimaryKey s) (hun : UniqueNames s) (hown : TagsOwned s) :
    (s.findDefinition u f o).Perm ((findDefinitionPairs s f o).map (refDefOf u s f)) ∧
    (s.findDefinition u f o).Pairwise
      (fun x y => x.ref.offset2 - x.ref.offset1 ≤ y.ref.offset2 - y.ref.offset1) ∧
    (∀ x ∈ s.findDefinition u f o, x.ref.file = f ∧
      ∃ r ∈ s.tags, ∃ d ∈ s.tags, ∃ file ∈ s.files,
        (∃ own ∈ s.files, own.name = f ∧ own.id = r.fileId) ∧
        r.offset1 ≤ o ∧ o ≤ r.offset2 ∧ d.usr = r.usr ∧ d.isDecl = true ∧
        file.id = d.fileId ∧ x.«def».file = file.name ∧
        x.ref.offset1 = r.offset1 ∧ x.ref.offset2 = r.offset2) ∧
    (dbS1.findDefinition u "a.cpp" 42).map (fun x => (x.ref.file, x.«def».file)) =
      [("a.cpp", "a.h")] := by
  have hperm : (s.findDefinition u f o).Perm
      ((findDefinitionPairs s f o).map (refDefOf u s f)) := by
    rw [← findDefinitionRows_map u s f o hpk hun hown]
    unfold findDefinition
    exact (List.perm_insertionSort _ _).map _
  refine ⟨hperm, ?_, ?_, rfl⟩
  · unfold findDefinition
    dsimp only
    rw [List.pairwise_map]
    exact List.sorted_insertionSort
      (fun a b : TagRow × TagRow × FileRow =>
        a.1.offset2 - a.1.offset1 ≤ b.1.offset2 - b.1.offset1)
      (findDefinitionRows s (s.fileId_ f) o)
  · intro x hx
    have hx' := hperm.subset hx
    rw [List.mem_map] at hx'
    obtain ⟨⟨r, d⟩, hp, rfl⟩ := hx'
    unfold findDefinitionPairs at hp
    simp only [List.mem_flatMap, List.mem_map, List.mem_filter, decide_eq_true_eq,
      Prod.mk.injEq] at hp
    obtain ⟨r', hr', d', ⟨hd', hbel, h1, h2, h3, h4⟩, rfl, rfl⟩ := hp
    obtain ⟨file, hfile, hid⟩ := hown d' hd'
    refine ⟨rfl, r', hr', d', hd', file, hfile, hbel, h1, h2, h3, h4, hid, ?_, rfl, rfl⟩
    show fileNameOf s d'.fileId = file.name
    rw [← hid]
    exact fileNameOf_eq hpk.1 hfile

/-- Witness for C6, scenario S5: one reference tag in `a.cpp` covering offset 42 and one
declaration tag with the same USR in `a.h` give a single `RefDef` with `ref.file = a.cpp`
and `def.file = a.h`. -/
theorem findDefinition_result_witness :
    (dbS1.findDefinition ⟨0, 0, 0, 0⟩ "a.cpp" 42).Perm
      ((findDefinitionPairs dbS1 "a.cpp" 42).map (refDefOf ⟨0, 0, 0, 0⟩ dbS1 "a.cpp")) ∧
    (dbS1.findDefinition ⟨0, 0, 0, 0⟩ "a.cpp" 42).map
      (fun x => (x.ref.file, x.«def».file)) = [("a.cpp", "a.h")] :=
  ⟨(findDefinition_result ⟨0, 0, 0, 0⟩ dbS1 "a.cpp" 42 (by decide) (by decide)
    (by decide)).1, by decide⟩


/-- C7, on the code: every `RefDef` that `findDefinition` returns has, in `ref.line1`,
`ref.line2`, `ref.col1` and `ref.col2`, the contents `u` of the unassigned members, whatever
the reference tag holds; in scenario S5 the reference tag is at line 3, columns 3 to 8, and
the returned reference carries `u`.  The other members of the reference and the whole
definition are those of the rows. -/
theorem findDefinition_ref_position_unassigned (u : UninitReference) (s : Storage)
    (f : String) (o : Int) :
    (∀ x ∈ s.findDefinition u f o,
      x.ref.line1 = u.line1 ∧ x.ref.line2 = u.line2 ∧ x.ref.col1 = u.col1 ∧
        x.ref.col2 = u.col2) ∧
    dbS1.findDefinition u "a.cpp" 42 =
      [{ ref :=
           { file := "a.cpp", line1 := u.line1, line2 := u.line2, col1 := u.col1,
             col2 := u.col2, offset1 := 40, offset2 := 45, kind := "DeclRefExpr",
             spelling := "f" },
         «def» :=
           { usr := "c:@F@f#", file := "a.h", line1 := 1, line2 := 1, col1 := 6, col2 := 9,
             kind := "FunctionDecl", spelling := "f" } }] ∧
    (dbS1.findDefinitionRows (dbS1.fileId_ "a.cpp") 42).map
      (fun row => (row.1.line1, row.1.line2, row.1.col1, row.1.col2)) = [(3, 3, 3, 8)] ∧
    (dbS1.findDefinition ⟨0, 0, 0, 0⟩ "a.cpp" 42).map
      (fun x => (x.ref.line1, x.ref.line2, x.ref.col1, x.ref.col2)) = [(0, 0, 0, 0)] := by
  refine ⟨?_, rfl, by decide, by decide⟩
  intro x hx
  unfold findDefinition at hx
  rw [List.mem_map] at hx
  obtain ⟨row, _, rfl⟩ := hx
  exact ⟨rfl, rfl, rfl, rfl⟩


theorem grep_eq (s : Storage) (usr : String) (hnd : (s.files.map FileRow.id).Nodup)
    (hown : TagsOwned s) :
    s.grep usr = (s.tags.filter (fun t => t.usr = usr)).map (referenceOf s) := by
  unfold grep
  have h := filter_flatMap_guard s.tags (fun _ => true) (fun t => decide (t.usr = usr))
    (referenceOf s)
    (fun r => ((s.files.filter (fun x => r.fileId = x.id)).filter
      (fun _ => r.usr = usr)).map (fun x =>
        { file := x.name, line1 := r.line1, line2 := r.line2, col1 := r.col1,
          col2 := r.col2, offset1 := r.offset1, offset2 := r.offset2, kind := r.kind,
          spelling := "" }))
    (by
      intro r hr
      obtain ⟨x, hx, hid⟩ := hown r hr
      have hsingle : s.files.filter (fun y => r.fileId = y.id) = [x] := by
        rw [← hid]; exact filter_id_eq_singleton hnd hx
      have hname : fileNameOf s r.fileId = x.name := by
        rw [← hid]; exact fileNameOf_eq hnd hx
      dsimp only
      rw [hsingle]
      by_cases hc : r.usr = usr
      · simp [hc, hname, referenceOf]
      · simp [hc])
  simpa using h

/-- C8: `grep (usr)` returns exactly one `Reference` per row of `tags` whose `usr` is the
given one, carrying the name of the file of the row and its `line1`, `line2`, `col1`, `col2`,
`offset1`, `offset2` and `kind`; nothing for a row with another `usr`, and the empty list when
no row has it.  Stated for databases with distinct file ids and every tag owned by a
registered file. -/
theorem grep_result (s : Storage) (usr : String) (hnd : (s.files.map FileRow.id).Nodup)
    (hown : TagsOwned s) :
    s.grep usr = (s.tags.filter (fun t => t.usr = usr)).map (referenceOf s) ∧
    (s.grep usr).length = s.tags.countP (fun t => t.usr = usr) ∧
    (∀ x ∈ s.grep usr, ∃ t ∈ s.tags, t.usr = usr ∧ ∃ file ∈ s.files, file.id = t.fileId ∧
      x.file = file.name ∧ x.line1 = t.line1 ∧ x.line2 = t.line2 ∧ x.col1 = t.col1 ∧
      x.col2 = t.col2 ∧ x.offset1 = t.offset1 ∧ x.offset2 = t.offset2 ∧ x.kind = t.kind) ∧
    ((∀ t ∈ s.tags, t.usr ≠ usr) → s.grep usr = []) := by
  have heq := grep_eq s usr hnd hown
  refine ⟨heq, ?_, ?_, ?_⟩
  · rw [heq, List.length_map, List.countP_eq_length_filter]
  · intro x hx
    rw [heq, List.mem_map] at hx
    obtain ⟨t, ht, rfl⟩ := hx
    rw [List.mem_filter] at ht
    obtain ⟨file, hfile, hid⟩ := hown t ht.1
    have hname : fileNameOf s t.fileId = file.name := by
      rw [← hid]; exact fileNameOf_eq hnd hfile
    exact ⟨t, ht.1, by simpa using ht.2, file, hfile, hid, hname, rfl, rfl, rfl, rfl, rfl,
      rfl, rfl⟩
  · intro hno
    rw [heq, List.map_eq_nil_iff, List.filter_eq_nil_iff]
    intro t ht
    simpa using hno t ht

/-- Witness for C8: in scenario S1 the USR of `f` has one tag in `a.cpp` and one in `a.h`. -/
theorem grep_result_witness :
    (dbS1.grep "c:@F@f#").length = dbS1.tags.countP (fun t => t.usr = "c:@F@f#") ∧
    (dbS1.grep "c:@F@f#").map (fun x => x.file) = ["a.cpp", "a.h"] :=
  ⟨(grep_result dbS1 "c:@F@f#" (by decide) (by decide)).2.1, by decide⟩

/-! ## Files missing from disk -/

theorem noRowOf_of_shrinks {s s' : Storage} {F : FileRow} (h : NoRowOf s F)
    (hs : Shrinks s s') : NoRowOf s' F :=
  ⟨fun r hr => h.1 r (hs.1.subset hr), fun c hc => h.2.1 c (hs.2.1.subset hc),
    fun t ht => h.2.2.1 t (hs.2.2.2.1.subset ht), fun e he => h.2.2.2 e (hs.2.2.1.subset he)⟩

theorem removeFile_noRowOf {s : Storage} (hun : UniqueNames s) {F : FileRow}
    (hF : F ∈ s.files) (n : String) (hid : s.fileId_ n = F.id) :
    NoRowOf (s.removeFile n) F := by
  unfold removeFile
  rw [hid]
  refine ⟨?_, ?_, ?_, ?_⟩
  · intro r hr
    simp only [List.mem_filter, decide_not, Bool.not_eq_true', decide_eq_false_iff_not] at hr
    refine ⟨hr.2, fun hn => hr.2 ?_⟩
    have : r = F := List.inj_on_of_nodup_map hun hr.1 hF hn
    rw [this]
  · intro c hc
    simp only [List.mem_filter, decide_not, Bool.not_eq_true', decide_eq_false_iff_not] at hc
    exact hc.2
  · intro t ht
    simp only [List.mem_filter, decide_not, Bool.not_eq_true', decide_eq_false_iff_not] at ht
    exact ht.2
  · intro e he
    simp only [List.mem_filter, decide_not, Bool.not_eq_true', decide_eq_false_iff_not] at he
    exact ⟨he.1.2, he.2⟩

theorem removeFile_keeps_or_noRowOf {s : Storage} (hun : UniqueNames s) {F : FileRow}
    (n : String) (h : F ∈ s.files ∨ NoRowOf s F) :
    F ∈ (s.removeFile n).files ∨ NoRowOf (s.removeFile n) F := by
  rcases h with hF | hgone
  · by_cases hid : s.fileId_ n = F.id
    · exact Or.inr (removeFile_noRowOf hun hF n hid)
    · left
      show F ∈ s.files.filter (fun f => ¬ f.id = s.fileId_ n)
      rw [List.mem_filter]
      exact ⟨hF, by simpa using fun h => hid h.symm⟩
  · exact Or.inr (noRowOf_of_shrinks hgone (removeFile_shrinks s n))

theorem nextFileLoop_keeps_or_noRowOf (fs : FileSystem) (F : FileRow)
    (rows : List Candidate) :
    ∀ s : Storage, UniqueNames s → (F ∈ s.files ∨ NoRowOf s F) →
      F ∈ (nextFileLoop fs rows s).2.files ∨ NoRowOf (nextFileLoop fs rows s).2 F := by
  induction rows with
  | nil => intro s _ h; exact h
  | cons c rest ih =>
    intro s hun h
    unfold nextFileLoop
    cases hfs : fs c.includedName with
    | none =>
      exact ih _ (uniqueNames_of_shrinks hun (removeFile_shrinks s _))
        (removeFile_keeps_or_noRowOf hun _ h)
    | some m =>
      by_cases hgt : m > c.indexed
      · simpa [hgt] using h
      · simpa [hgt] using ih s hun h

theorem nextFileLoop_cons_none (fs : FileSystem) (c : Candidate) (rest : List Candidate)
    (s : Storage) (h : fs c.includedName = none) :
    nextFileLoop fs (c :: rest) s = nextFileLoop fs rest (s.removeFile c.includedName) := by
  rw [nextFileLoop]; simp only [h]

theorem nextFileLoop_cons_fresh (fs : FileSystem) (c : Candidate) (rest : List Candidate)
    (s : Storage) (m : Int) (h : fs c.includedName = some m) (hgt : ¬ m > c.indexed) :
    nextFileLoop fs (c :: rest) s = nextFileLoop fs rest s := by
  rw [nextFileLoop]; simp only [h, hgt, if_false]

theorem nextFileLoop_append (fs : FileSystem) (pre rest : List Candidate)
    (hpre : ∀ p ∈ pre, ∀ m, fs p.includedName = some m → ¬ m > p.indexed) :
    ∀ s : Storage,
      nextFileLoop fs (pre ++ rest) s = nextFileLoop fs rest (nextFileLoop fs pre s).2 := by
  induction pre with
  | nil => intro s; rfl
  | cons p pre ih =>
    intro s
    have ih' := ih (fun x hx => hpre x (List.mem_cons_of_mem _ hx))
    rw [List.cons_append]
    cases hfs : fs p.includedName with
    | none =>
      rw [nextFileLoop_cons_none fs p _ s hfs, nextFileLoop_cons_none fs p _ s hfs]
      exact ih' _
    | some m =>
      have hgt := hpre p (List.mem_cons_self _ _) m hfs
      rw [nextFileLoop_cons_fresh fs p _ s m hfs hgt, nextFileLoop_cons_fresh fs p _ s m hfs hgt]
      exact ih' s

/-- C10: when `nextFile` comes to the row of a file `F` that `stat()` cannot find (the rows
`pre` before it in the query result did not make it return), `F` is removed with all the
rows that mention it and the loop goes on with the rows `post` after it; in scenario S4
`nextFile` returns the empty string and no table keeps a row for `a.h`.  Stated for
databases with distinct file names. -/
theorem nextFile_missing_file (fs : FileSystem) (s : Storage) (F : FileRow)
    (pre post : List Candidate) (c : Candidate) (hun : UniqueNames s) (hF : F ∈ s.files)
    (hstat : fs F.name = none) (hq : nextFileQuery s = pre ++ c :: post)
    (hc : c.includedName = F.name)
    (hpre : ∀ p ∈ pre, ∀ m, fs p.includedName = some m → ¬ m > p.indexed) :
    NoRowOf (s.nextFile fs).2 F ∧
    s.nextFile fs = nextFileLoop fs post ((nextFileLoop fs pre s).2.removeFile F.name) ∧
    (∃ src, IncludesEdge s src F) ∧
    ((dbS1.nextFile fsS4).1 = "" ∧ NoRowOf (dbS1.nextFile fsS4).2 ⟨2, "a.h", 100⟩ ∧
      (dbS1.nextFile fsS4).2.files = [⟨1, "a.cpp", 100⟩] ∧
      (dbS1.nextFile fsS4).2.includes = [⟨1, 1⟩]) := by
  have hstep : s.nextFile fs =
      nextFileLoop fs post ((nextFileLoop fs pre s).2.removeFile F.name) := by
    unfold nextFile
    rw [hq, nextFileLoop_append fs pre (c :: post) hpre s]
    rw [nextFileLoop_cons_none fs c post _ (by rw [hc]; exact hstat), hc]
  have hmid := nextFileLoop_shrinks fs pre s
  have hunmid : UniqueNames (nextFileLoop fs pre s).2 := uniqueNames_of_shrinks hun hmid
  have hgone : NoRowOf ((nextFileLoop fs pre s).2.removeFile F.name) F := by
    rcases nextFileLoop_keeps_or_noRowOf fs F pre s hun (Or.inl hF) with hin | hg
    · obtain ⟨f, hf, hfn, hid⟩ := fileId__registered ⟨F, hin, rfl⟩
      have : f = F := List.inj_on_of_nodup_map hunmid hf hin hfn
      subst this
      exact removeFile_noRowOf hunmid hin _ hid
    · exact noRowOf_of_shrinks hg (removeFile_shrinks _ _)
  refine ⟨?_, hstep, ?_, by decide⟩
  · rw [hstep]
    exact noRowOf_of_shrinks hgone (nextFileLoop_shrinks fs post _)
  · have hcq : c ∈ nextFileQuery s := by rw [hq]; simp
    obtain ⟨src, inc, he, hi, _, _⟩ := nextFileQuery_sound hcq
    have : inc = F := List.inj_on_of_nodup_map hun he.2.1 hF (hi.symm.trans hc)
    subst this
    exact ⟨src, he⟩

/-- Witness for C10: scenario S4, where the row of `a.h` comes after the row of `a.cpp`. -/
theorem nextFile_missing_file_witness :
    NoRowOf (dbS1.nextFile fsS4).2 ⟨2, "a.h", 100⟩ :=
  (nextFile_missing_file fsS4 dbS1 ⟨2, "a.h", 100⟩ [⟨"a.cpp", 100, "a.cpp", 1⟩] []
    ⟨"a.h", 100, "a.cpp", 1⟩ (by decide) (by decide) (by decide) (by decide) rfl
    (by decide)).1

/-! ## `removeFile` -/

theorem filter_eq_self_of_forall {α : Type} (l : List α) (p : α → Bool)
    (h : ∀ a ∈ l, p a = true) : l.filter p = l :=
  List.filter_eq_self.2 h

/-- C9: `removeFile (f)` for a registered `f` with id `i` leaves no row of `files` with id
`i` or name `f`, no row of `commands` or `tags` with `fileId = i`, no row of `includes` with
`i` on either side; each table keeps, in order, exactly its rows that do not mention `i`, and
`options` is unchanged.  For an unregistered name the database is unchanged, in a database
that satisfies the primary key and the foreign keys of the schema.  Stated for databases with
distinct file names. -/
theorem removeFile_cascade (s : Storage) (f : String) (hun : UniqueNames s) :
    (∀ F ∈ s.files, F.name = f →
      (s.removeFile f).files = s.files.filter (fun r => ¬ r.id = F.id) ∧
      (s.removeFile f).commands = s.commands.filter (fun c => ¬ c.fileId = F.id) ∧
      (s.removeFile f).tags = s.tags.filter (fun t => ¬ t.fileId = F.id) ∧
      (s.removeFile f).includes =
        s.includes.filter (fun e => ¬ e.sourceId = F.id ∧ ¬ e.includedId = F.id) ∧
      (s.removeFile f).options = s.options ∧
      NoRowOf (s.removeFile f) F) ∧
    ((∀ r ∈ s.files, r.name ≠ f) → PrimaryKey s → ForeignKeys s → s.removeFile f = s) := by
  constructor
  · intro F hF hname
    obtain ⟨x, hx, hxn, hid⟩ := fileId__registered ⟨F, hF, hname⟩
    have : x = F := List.inj_on_of_nodup_map hun hx hF (hxn.trans hname.symm)
    subst this
    refine ⟨?_, ?_, ?_, ?_, rfl, removeFile_noRowOf hun hF f hid⟩
    · unfold removeFile; rw [hid]
    · unfold removeFile; rw [hid]
    · unfold removeFile; rw [hid]
    · unfold removeFile
      rw [hid]
      dsimp only
      rw [List.filter_filter]
      apply List.filter_congr
      intro e _
      by_cases h1 : e.sourceId = x.id <;> by_cases h2 : e.includedId = x.id <;> simp [h1, h2]
  · intro hno hpk hfk
    have hid := fileId__unregistered hno
    have hpos : ∀ k : Int, (∃ x ∈ s.files, x.id = k) → ¬ k = -1 := by
      rintro k ⟨x, hx, rfl⟩ hk
      have := hpk.2 x hx
      omega
    unfold removeFile
    rw [hid]
    have e1 : s.files.filter (fun r => ¬ r.id = -1) = s.files :=
      filter_eq_self_of_forall _ _ (fun r hr => by simpa using hpos r.id ⟨r, hr, rfl⟩)
    have e2 : s.commands.filter (fun c => ¬ c.fileId = -1) = s.commands :=
      filter_eq_self_of_forall _ _ (fun c hc => by simpa using hpos _ (hfk.1 c hc))
    have e3 : s.tags.filter (fun t => ¬ t.fileId = -1) = s.tags :=
      filter_eq_self_of_forall _ _ (fun t ht => by simpa using hpos _ (hfk.2.2 t ht))
    have e4 : s.includes.filter (fun e => ¬ e.sourceId = -1) = s.includes :=
      filter_eq_self_of_forall _ _ (fun e he => by simpa using hpos _ (hfk.2.1 e he).1)
    have e5 : s.includes.filter (fun e => ¬ e.includedId = -1) = s.includes :=
      filter_eq_self_of_forall _ _ (fun e he => by simpa using hpos _ (hfk.2.1 e he).2)
    dsimp only
    rw [e1, e2, e3, e4, e5]

/-- Witness for C9: removing `a.h` from the database of scenario S1, and removing the
unregistered `b.h`. -/
theorem removeFile_cascade_witness :
    NoRowOf (dbS1.removeFile "a.h") ⟨2, "a.h", 100⟩ ∧
    dbS1.removeFile "a.h" =
      { files := [⟨1, "a.cpp", 100⟩],
        commands := [⟨1, "/", "[\"clang++\",\"a.cpp\"]"⟩],
        includes := [⟨1, 1⟩],
        tags := [⟨1, "c:@F@f#", "DeclRefExpr", "f", 3, 3, 40, 3, 8, 45, false, false⟩],
        options := [] } ∧
    dbS1.removeFile "b.h" = dbS1 :=
  ⟨((removeFile_cascade dbS1 "a.h" (by decide)).1 ⟨2, "a.h", 100⟩ (by decide)
    (by decide)).2.2.2.2.2, by decide,
    (removeFile_cascade dbS1 "b.h" (by decide)).2 (by decide) (by decide) (by decide)⟩

/-! ## `cleanIndex` -/

/-- C14: after `cleanIndex` the table `tags` is empty and every row of `files` has
`indexed = 0`; the rows of `files` are the old rows, in order, with the same id and name, and
`commands`, `includes` and `options` are what they were. -/
theorem cleanIndex_postcondition (s : Storage) :
    s.cleanIndex.tags = [] ∧
    (∀ f ∈ s.cleanIndex.files, f.indexed = 0) ∧
    s.cleanIndex.files.map (fun f => (f.id, f.name)) = s.files.map (fun f => (f.id, f.name)) ∧
    s.cleanIndex.commands = s.commands ∧
    s.cleanIndex.includes = s.includes ∧
    s.cleanIndex.options = s.options := by
  refine ⟨rfl, ?_, ?_, rfl, rfl, rfl⟩
  · intro f hf
    simp only [cleanIndex, List.mem_map] at hf
    obtain ⟨g, _, rfl⟩ := hf
    rfl
  · simp only [cleanIndex, List.map_map]
    rfl

/-! ## Options -/

theorem getOption_setOption_same (s : Storage) (n v : String) :
    (s.setOption n v).getOption n = v := by
  unfold getOption setOption
  dsimp only
  rw [List.find?_append]
  have : (s.options.filter (fun o => ¬ o.name = n)).find? (fun o => o.name = n) = none := by
    rw [List.find?_eq_none]
    intro x hx
    simp only [List.mem_filter, decide_not, Bool.not_eq_true', decide_eq_false_iff_not] at hx
    simpa using hx.2
  rw [this]
  simp

theorem find?_filter_of_imp {α : Type} (l : List α) (p q : α → Bool)
    (h : ∀ x, p x = true → q x = true) : (l.filter q).find? p = l.find? p := by
  induction l with
  | nil => rfl
  | cons a rest ih =>
    by_cases hq : q a = true
    · rw [List.filter_cons_of_pos hq]
      by_cases hp : p a = true
      · rw [List.find?_cons_of_pos _ hp, List.find?_cons_of_pos _ hp]
      · rw [List.find?_cons_of_neg _ hp, List.find?_cons_of_neg _ hp, ih]
    · rw [List.filter_cons_of_neg hq]
      have hp : ¬ p a = true := fun hp => hq (h a hp)
      rw [List.find?_cons_of_neg _ hp, ih]

theorem getOption_setOption_other (s : Storage) (n v : String) {m : String} (hm : m ≠ n) :
    (s.setOption n v).getOption m = s.getOption m := by
  unfold getOption setOption
  dsimp only
  rw [List.find?_append]
  have h1 : (s.options.filter (fun o => ¬ o.name = n)).find? (fun o => o.name = m)
      = s.options.find? (fun o => o.name = m) := by
    apply find?_filter_of_imp
    intro x hx
    simp only [decide_eq_true_eq] at hx
    simp [hx, hm]
  rw [h1]
  cases s.options.find? (fun o => o.name = m) with
  | some o => rfl
  | none => simp [Ne.symm hm]

theorem setOption_rows_same (s : Storage) (n v : String) :
    (s.setOption n v).options.filter (fun o => o.name = n) = [⟨n, v⟩] := by
  unfold setOption
  dsimp only
  rw [List.filter_append, List.filter_filter]
  simp

theorem setOption_rows_other (s : Storage) (n v : String) :
    (s.setOption n v).options.filter (fun o => ¬ o.name = n)
      = s.options.filter (fun o => ¬ o.name = n) := by
  unfold setOption
  dsimp only
  rw [List.filter_append, List.filter_filter]
  simp

/-- C16: after `setOption (n, v); setOption (n, v')` the table `options` has exactly one row
named `n`, the row `(n, v')`; `getOption (n)` returns `v'`; the rows with another name are the
rows that were there, in order, so `getOption` returns for every other name what it returned
before; the other tables are unchanged. -/
theorem setOption_replace (s : Storage) (n v v' : String) :
    ((s.setOption n v).setOption n v').options.filter (fun o => o.name = n) = [⟨n, v'⟩] ∧
    ((s.setOption n v).setOption n v').getOption n = v' ∧
    ((s.setOption n v).setOption n v').options.filter (fun o => ¬ o.name = n)
      = s.options.filter (fun o => ¬ o.name = n) ∧
    (∀ m, m ≠ n → ((s.setOption n v).setOption n v').getOption m = s.getOption m) ∧
    ((s.setOption n v).setOption n v').files = s.files ∧
    ((s.setOption n v).setOption n v').commands = s.commands ∧
    ((s.setOption n v).setOption n v').includes = s.includes ∧
    ((s.setOption n v).setOption n v').tags = s.tags := by
  refine ⟨setOption_rows_same _ n v', getOption_setOption_same _ n v', ?_, ?_,
    rfl, rfl, rfl, rfl⟩
  · rw [setOption_rows_other, setOption_rows_other]
  · intro m hm
    rw [getOption_setOption_other _ n v' hm, getOption_setOption_other _ n v hm]

/-! ## `addInclude` -/

theorem addInclude_of_mem {s : Storage} {i src : Int}
    (h : (⟨src, i⟩ : IncludeRow) ∈ s.includes) : s.addInclude i src = s := by
  unfold addInclude
  rw [if_pos]
  rw [List.any_eq_true]
  exact ⟨⟨src, i⟩, h, by simp⟩

theorem addInclude_of_not_mem {s : Storage} {i src : Int}
    (h : (⟨src, i⟩ : IncludeRow) ∉ s.includes) :
    s.addInclude i src = { s with includes := s.includes ++ [⟨src, i⟩] } := by
  unfold addInclude
  rw [if_neg]
  rw [List.any_eq_true]
  rintro ⟨e, he, hp⟩
  simp only [Bool.decide_and, Bool.and_eq_true, decide_eq_true_eq] at hp
  obtain ⟨src', i'⟩ := e
  simp only at hp
  rw [hp.1, hp.2] at he
  exact h he

theorem addInclude_mem (s : Storage) (i src : Int) :
    (⟨src, i⟩ : IncludeRow) ∈ (s.addInclude i src).includes := by
  by_cases h : (⟨src, i⟩ : IncludeRow) ∈ s.includes
  · rw [addInclude_of_mem h]; exact h
  · rw [addInclude_of_not_mem h]; simp

theorem addInclude_twice (s : Storage) (i src : Int) :
    (s.addInclude i src).addInclude i src = s.addInclude i src :=
  addInclude_of_mem (addInclude_mem s i src)

theorem addInclude_iterate (s : Storage) (i src : Int) (n : Nat) :
    (fun t : Storage => t.addInclude i src)^[n + 1] s = s.addInclude i src := by
  induction n with
  | zero => rfl
  | succ k ih =>
    rw [Function.iterate_succ_apply', ih]
    exact addInclude_twice s i src

/-- C13: in a database where the row `(s, i)` occurs at most once in `includes`, `n ≥ 1` calls
of `addInclude (i, s)` leave what one call leaves: the row `(s, i)` occurs exactly once, the
other rows of `includes` are the old ones in their order, and the other tables are unchanged.
A second call changes nothing after the first (in any database), and a table free of duplicate
rows stays free of them.  The function is total: a duplicate is no error. -/
theorem addInclude_idempotent (s : Storage) (i src : Int) (n : Nat)
    (hcount : s.includes.count ⟨src, i⟩ ≤ 1) (hn : 1 ≤ n) :
    (fun t : Storage => t.addInclude i src)^[n] s = s.addInclude i src ∧
    (s.addInclude i src).includes.count ⟨src, i⟩ = 1 ∧
    (s.addInclude i src).includes.filter (fun e => e ≠ ⟨src, i⟩)
      = s.includes.filter (fun e => e ≠ ⟨src, i⟩) ∧
    (s.addInclude i src).files = s.files ∧
    (s.addInclude i src).commands = s.commands ∧
    (s.addInclude i src).tags = s.tags ∧
    (s.addInclude i src).options = s.options ∧
    (s.addInclude i src).addInclude i src = s.addInclude i src ∧
    (s.includes.Nodup → (s.addInclude i src).includes.Nodup) := by
  obtain ⟨k, rfl⟩ : ∃ k, n = k + 1 := ⟨n - 1, by omega⟩
  refine ⟨addInclude_iterate s i src k, ?_, ?_, ?_, ?_, ?_, ?_, addInclude_twice s i src, ?_⟩
  · by_cases h : (⟨src, i⟩ : IncludeRow) ∈ s.includes
    · rw [addInclude_of_mem h]
      have := List.count_pos_iff.2 h
      omega
    · rw [addInclude_of_not_mem h]
      dsimp only
      rw [List.count_append, List.count_eq_zero_of_not_mem h]
      simp
  · by_cases h : (⟨src, i⟩ : IncludeRow) ∈ s.includes
    · rw [addInclude_of_mem h]
    · rw [addInclude_of_not_mem h]
      dsimp only
      rw [List.filter_append]
      simp
  · unfold addInclude; split <;> rfl
  · unfold addInclude; split <;> rfl
  · unfold addInclude; split <;> rfl
  · unfold addInclude; split <;> rfl
  · intro hnd
    by_cases h : (⟨src, i⟩ : IncludeRow) ∈ s.includes
    · rw [addInclude_of_mem h]; exact hnd
    · rw [addInclude_of_not_mem h]
      dsimp only
      refine List.Nodup.append hnd (List.nodup_singleton _) ?_
      intro e he he'
      rw [List.mem_singleton] at he'
      rw [he'] at he
      exact h he

theorem addInclude_idempotent_witness :
    dbS1.includes.count ⟨1, 2⟩ ≤ 1 ∧
    ((fun t : Storage => t.addInclude 2 1)^[3] dbS1 = dbS1.addInclude 2 1 ∧
     (dbS1.addInclude 2 1).includes.count ⟨1, 2⟩ = 1 ∧
     (dbS1.addInclude 2 1).includes.filter (fun e => e ≠ ⟨1, 2⟩)
       = dbS1.includes.filter (fun e => e ≠ ⟨1, 2⟩) ∧
     (dbS1.addInclude 2 1).files = dbS1.files ∧
     (dbS1.addInclude 2 1).commands = dbS1.commands ∧
     (dbS1.addInclude 2 1).tags = dbS1.tags ∧
     (dbS1.addInclude 2 1).options = dbS1.options ∧
     (dbS1.addInclude 2 1).addInclude 2 1 = dbS1.addInclude 2 1 ∧
     (dbS1.includes.Nodup → (dbS1.addInclude 2 1).includes.Nodup)) :=
  ⟨by decide, addInclude_idempotent dbS1 2 1 3 (by decide) (by decide)⟩

/-! ## Reading back what the writer wrote -/

theorem run_append (st : Json.ReaderState) (a b : List Char) :
    Json.run st (a ++ b) = (Json.run st a).bind (fun st1 => Json.run st1 b) := by
  induction a generalizing st with
  | nil => rfl
  | cons c rest ih =>
    rw [List.cons_append, Json.run, Json.run]
    cases Json.step st c with
    | none => rfl
    | some st1 => exact ih st1

theorem hexVal_hexDigit : ∀ k : Fin 16, Json.hexVal (Json.hexDigit k.val) = some k.val := by
  decide

theorem run_escapeChar (items : List String) (cur : List Char) (c : Char) :
    Json.run (.chars items cur) (Json.escapeChar c) = some (.chars items (cur ++ [c])) := by
  unfold Json.escapeChar
  split
  · rename_i h; subst h; rfl
  · split
    · rename_i h; subst h; rfl
    · split
      · rename_i h; subst h; rfl
      · split
        · rename_i h; subst h; rfl
        · split
          · rename_i h; subst h; rfl
          · split
            · rename_i h; subst h; rfl
            · split
              · rename_i h; subst h; rfl
              · rename_i h1 h2 _ _ _ _ _
                split
                · rename_i hlt
                  have hd1 := hexVal_hexDigit ⟨c.toNat / 16, by omega⟩
                  have hd2 := hexVal_hexDigit ⟨c.toNat % 16, by omega⟩
                  have hc : c.toNat / 16 * 16 + c.toNat % 16 = c.toNat := by omega
                  simp only at hd1 hd2
                  have h0 : Json.hexVal '0' = some 0 := by decide
                  simp only [Json.run, Json.step, h0, hd1, hd2, Option.map_some', if_pos,
                    if_neg, Json.rsolidus, Json.dquote]
                  simp [h0, hd1, hd2, hc, Char.ofNat_toNat]
                · simp only [Json.run, Json.step, if_neg h1, if_neg h2]

theorem run_escaped (items : List String) (x : List Char) (cur : List Char) :
    Json.run (.chars items cur) (x.flatMap Json.escapeChar)
      = some (.chars items (cur ++ x)) := by
  induction x generalizing cur with
  | nil => simp [Json.run]
  | cons c rest ih =>
    rw [List.flatMap_cons, run_append, run_escapeChar, Option.some_bind, ih]
    simp

theorem run_quoted (items : List String) (first : Bool) (x : String) :
    Json.run (.element items first) (Json.quoted x) = some (.afterElement (items ++ [x])) := by
  unfold Json.quoted
  rw [Json.run]
  have h1 : Json.step (.element items first) Json.dquote = some (.chars items []) := by
    simp [Json.step, Json.isSpace, Json.dquote]
  rw [h1]
  dsimp only
  rw [run_append, run_escaped, Option.some_bind, Json.run]
  simp [Json.step, Json.run]

theorem run_writeItems (x : String) (rest items : List String) (first : Bool) :
    Json.run (.element items first) (Json.writeItems (x :: rest))
      = some (.afterElement (items ++ x :: rest)) := by
  induction rest generalizing x items first with
  | nil => rw [Json.writeItems]; exact run_quoted items first x
  | cons y rest ih =>
    rw [Json.writeItems]
    rw [run_append, run_quoted, Option.some_bind, Json.run]
    have h1 : Json.step (.afterElement (items ++ [x])) ',' = some (.element (items ++ [x]) false) := by
      simp [Json.step, Json.isSpace]
    rw [h1]
    dsimp only
    rw [ih]
    simp

theorem parse_write_array (xs : List String) :
    Json.parse (Json.write (.array xs)) = some (.array xs) := by
  cases xs with
  | nil => decide
  | cons x rest =>
    unfold Json.parse Json.write
    dsimp only
    rw [Json.run]
    have h1 : Json.step .start '[' = some (.element [] true) := by decide
    rw [h1]
    dsimp only
    rw [run_append, run_writeItems, Option.some_bind]
    simp [Json.run, Json.step, Json.isSpace]

theorem foldl_append_array (v xs : List String) :
    v.foldl Json.Value.append (.array xs) = .array (xs ++ v) := by
  induction v generalizing xs with
  | nil => simp
  | cons a rest ih => rw [List.foldl_cons, Json.Value.append, ih]; simp

theorem items_foldl_append (v : List String) :
    (v.foldl Json.Value.append .null).items = v := by
  cases v with
  | nil => rfl
  | cons a rest => rw [List.foldl_cons, Json.Value.append, foldl_append_array]; rfl

theorem parse_serialize_ (v : List String) :
    Json.parse (serialize_ v) = some (v.foldl Json.Value.append .null) := by
  unfold serialize_
  cases v with
  | nil => decide
  | cons a rest =>
    rw [List.foldl_cons, Json.Value.append, foldl_append_array]
    exact parse_write_array _

theorem deserialize__serialize_ (v out : List String) :
    deserialize_ (serialize_ v) out = out ++ v := by
  unfold deserialize_
  rw [parse_serialize_]
  dsimp only
  rw [items_foldl_append]

/-- C15: `setOption (n, A)` followed by `getOption (n, Vector)` returns `A`, for every name,
every list of strings and every database before, and `deserialize_` pushes onto a vector the
strings `serialize_` was given, in order.  The strings are any sequences of characters; the
empty list is stored as `null`. -/
theorem option_vector_round_trip (s : Storage) (n : String) (A : List String) :
    (s.setOptionVector n A).getOptionVector n = A ∧
    (∀ out : List String, deserialize_ (serialize_ A) out = out ++ A) := by
  refine ⟨?_, deserialize__serialize_ A⟩
  unfold getOptionVector setOptionVector
  rw [getOption_setOption_same, deserialize__serialize_]
  rfl

/-! ## `getCompileCommand` -/

theorem mem_getCompileCommandRows {s : Storage} {k : Int} {p : String × String} :
    p ∈ getCompileCommandRows s k ↔
      ∃ e ∈ s.includes, e.includedId = k ∧
        ∃ c ∈ s.commands, e.sourceId = c.fileId ∧ (c.directory, c.args) = p := by
  unfold getCompileCommandRows
  simp only [List.mem_flatMap, List.mem_filter, List.mem_map, decide_eq_true_eq]
  constructor
  · rintro ⟨e, ⟨he, hk⟩, c, ⟨hc, hec⟩, hp⟩
    exact ⟨e, he, hk, c, hc, hec, hp⟩
  · rintro ⟨e, he, hk, c, hc, hec, hp⟩
    exact ⟨e, ⟨he, hk⟩, c, ⟨hc, hec⟩, hp⟩

theorem deserialize__append (x : String) (out : List String) :
    deserialize_ x out = out ++ deserialize_ x [] := by
  unfold deserialize_
  cases Json.parse x with
  | none => simp
  | some j => simp

theorem getCompileCommand_eq_none {s : Storage} {f : String} {args : List String} :
    s.getCompileCommand f args = none ↔ getCompileCommandRows s (s.fileId_ f) = [] := by
  unfold getCompileCommand
  dsimp only
  cases getCompileCommandRows s (s.fileId_ f) with
  | nil => simp
  | cons p rest => simp

theorem getCompileCommand_eq_some {s : Storage} {f : String} {args : List String}
    {d : String} {out : List String} (h : s.getCompileCommand f args = some (d, out)) :
    ∃ e ∈ s.includes, e.includedId = s.fileId_ f ∧ ∃ c ∈ s.commands, e.sourceId = c.fileId ∧
      d = c.directory ∧ out = args ++ deserialize_ c.args [] := by
  unfold getCompileCommand at h
  dsimp only at h
  cases hrows : getCompileCommandRows s (s.fileId_ f) with
  | nil => rw [hrows] at h; cases h
  | cons p rest =>
    rw [hrows] at h
    obtain ⟨d', a'⟩ := p
    simp only [Option.some.injEq, Prod.mk.injEq] at h
    have hp : (d', a') ∈ getCompileCommandRows s (s.fileId_ f) := by
      rw [hrows]; exact List.mem_cons_self _ _
    obtain ⟨e, he, hk, c, hc, hec, hpc⟩ := mem_getCompileCommandRows.1 hp
    simp only [Prod.mk.injEq] at hpc
    refine ⟨e, he, hk, c, hc, hec, ?_, ?_⟩
    · rw [← h.1, hpc.1]
    · rw [← h.2, hpc.2, deserialize__append]

theorem commandFor_iff {s : Storage} (hpk : PrimaryKey s) (hun : UniqueNames s)
    (hfk : ForeignKeys s) (f : String) (c : CommandRow) :
    (c ∈ s.commands ∧ ∃ e ∈ s.includes, e.includedId = s.fileId_ f ∧ e.sourceId = c.fileId) ↔
      CommandFor s f c := by
  constructor
  · rintro ⟨hc, e, he, hk, hec⟩
    obtain ⟨⟨src, hsrc, hsid⟩, ⟨x, hx, hxid⟩⟩ := hfk.2.1 e he
    have hreg : ∃ y ∈ s.files, y.name = f := by
      by_contra hno
      have hno' : ∀ y ∈ s.files, y.name ≠ f := fun y hy hn => hno ⟨y, hy, hn⟩
      rw [fileId__unregistered hno'] at hk
      have := hpk.2 x hx
      omega
    obtain ⟨F, hF, hFn, hFid⟩ := fileId__registered hreg
    refine ⟨hc, src, hsrc, F, hF, hFn, ?_, ?_⟩
    · have : (⟨src.id, F.id⟩ : IncludeRow) = e := by
        obtain ⟨a, b⟩ := e
        simp only at hsid hk
        rw [hsid, ← hFid, ← hk]
      rw [this]; exact he
    · rw [← hec, hsid]
  · rintro ⟨hc, src, _, F, hF, hFn, hedge, hcs⟩
    obtain ⟨y, hy, hyn, hyid⟩ := fileId__registered ⟨F, hF, hFn⟩
    have : y = F := List.inj_on_of_nodup_map hun hy hF (hyn.trans hFn.symm)
    subst this
    exact ⟨hc, ⟨src.id, y.id⟩, hedge, hyid.symm, hcs.symm⟩

theorem setCompileCommand_fst (s : Storage) (f d a : String) :
    (s.setCompileCommand f d a).1 = (s.addFile_ f).1 := rfl

theorem setCompileCommand_files (s : Storage) (f d a : String) :
    (s.setCompileCommand f d a).2.files = (s.addFile_ f).2.files := by
  unfold setCompileCommand
  dsimp only
  rw [addInclude_files]

theorem setCompileCommand_commands (s : Storage) (f d a : String) :
    (s.setCompileCommand f d a).2.commands =
      s.commands.filter (fun c => ¬ c.fileId = (s.addFile_ f).1) ++ [⟨(s.addFile_ f).1, d, a⟩] := by
  unfold setCompileCommand
  dsimp only
  have h1 : ((s.addFile_ f).2.addInclude (s.addFile_ f).1 (s.addFile_ f).1).commands
      = s.commands := by
    unfold addInclude addFile_
    dsimp only
    split <;> split <;> rfl
  rw [h1]

theorem setCompileCommand_includes (s : Storage) (f d a : String) :
    (s.setCompileCommand f d a).2.includes =
      (s.addInclude (s.addFile_ f).1 (s.addFile_ f).1).includes := by
  unfold setCompileCommand addInclude addFile_
  dsimp only
  split <;> split <;> rfl

theorem mem_addInclude {s : Storage} {i src : Int} {e : IncludeRow}
    (h : e ∈ (s.addInclude i src).includes) : e ∈ s.includes ∨ e = ⟨src, i⟩ := by
  unfold addInclude at h
  split at h
  · exact Or.inl h
  · rcases List.mem_append.1 h with h | h
    · exact Or.inl h
    · exact Or.inr (List.mem_singleton.1 h)

theorem fileId__congr {s s' : Storage} (h : s'.files = s.files) (n : String) :
    s'.fileId_ n = s.fileId_ n := by
  unfold fileId_; rw [h]

theorem setCompileCommand_fileId_ {s : Storage} (hpk : PrimaryKey s) (f d a : String) :
    (s.setCompileCommand f d a).2.fileId_ f = (s.addFile_ f).1 := by
  rw [fileId__congr (setCompileCommand_files s f d a)]
  obtain ⟨_, row, _, _, hid, hfid, _⟩ := addFile__row hpk f
  rw [hfid, hid]

theorem addFile__fst_eq {s : Storage} (hpk : PrimaryKey s) (hfk : ForeignKeys s)
    (f : String) {e : IncludeRow} (he : e ∈ s.includes)
    (hid : e.includedId = (s.addFile_ f).1) :
    ∃ F ∈ s.files, F.name = f ∧ F.id = (s.addFile_ f).1 := by
  by_cases hreg : ∃ x ∈ s.files, x.name = f
  · rw [addFile__old hpk.2 hreg]
    obtain ⟨F, hF, hn, hFid⟩ := fileId__registered hreg
    exact ⟨F, hF, hn, hFid.symm⟩
  · have hno : ∀ x ∈ s.files, x.name ≠ f := fun x hx hn => hreg ⟨x, hx, hn⟩
    rw [addFile__new hno] at hid
    obtain ⟨_, x, hx, hxid⟩ := hfk.2.1 e he
    have := newRowId_fresh s.files x hx
    dsimp only at hid
    omega

theorem getCompileCommand_after_set {s : Storage} (hpk : PrimaryKey s) (hfk : ForeignKeys s)
    {f : String} (hno : NoOtherUnit s f) (d : String) (a : List String) :
    (s.setCompileCommand f d (serialize_ a)).2.getCompileCommand f [] = some (d, a) := by
  have hall : ∀ p ∈ getCompileCommandRows (s.setCompileCommand f d (serialize_ a)).2
      (s.addFile_ f).1, p = (d, serialize_ a) := by
    intro p hp
    obtain ⟨e, he, hk, c, hc, hec, hpc⟩ := mem_getCompileCommandRows.1 hp
    rw [setCompileCommand_commands] at hc
    rw [setCompileCommand_includes] at he
    rcases List.mem_append.1 hc with hc | hc
    · exfalso
      simp only [List.mem_filter, decide_not, Bool.not_eq_true', decide_eq_false_iff_not]
        at hc
      rcases mem_addInclude he with he | he
      · obtain ⟨F, hF, hFn, hFid⟩ := addFile__fst_eq hpk hfk f he hk
        refine hno F hF hFn e he (hk.trans hFid.symm) ?_ c hc.1 hec.symm
        rw [hec, hFid]; exact hc.2
      · rw [he] at hec
        exact hc.2 hec.symm
    · rw [List.mem_singleton] at hc
      rw [← hpc, hc]
  have hmem : (d, serialize_ a) ∈ getCompileCommandRows
      (s.setCompileCommand f d (serialize_ a)).2 (s.addFile_ f).1 := by
    rw [mem_getCompileCommandRows]
    refine ⟨⟨(s.addFile_ f).1, (s.addFile_ f).1⟩, ?_, rfl,
      ⟨(s.addFile_ f).1, d, serialize_ a⟩, ?_, rfl, rfl⟩
    · rw [setCompileCommand_includes]; exact addInclude_mem _ _ _
    · rw [setCompileCommand_commands]; simp
  unfold getCompileCommand
  dsimp only
  rw [setCompileCommand_fileId_ hpk]
  cases hrows : getCompileCommandRows (s.setCompileCommand f d (serialize_ a)).2
      (s.addFile_ f).1 with
  | nil => rw [hrows] at hmem; cases hmem
  | cons p rest =>
    have := hall p (by rw [hrows]; exact List.mem_cons_self _ _)
    subst this
    dsimp only
    rw [deserialize__serialize_]
    rfl

/-- C12: in a database that satisfies its schema (file ids distinct and positive, file names
distinct, the `REFERENCES files(id)` columns hold ids of files), `getCompileCommand (f)`
throws exactly when no row of `commands` belongs to a file with an include edge to the file
named `f`, in particular when no file is named `f`; when it returns, `directory` is the
directory of such a row and `args` is the vector passed in followed by the arguments stored in
that row.  After `setCompileCommand (f, d, a)` in a database where no other translation unit
includes `f`, `getCompileCommand (f)` with an empty vector returns `(d, a)`. -/
theorem getCompileCommand_resolution (s : Storage) (f : String) (args : List String)
    (hpk : PrimaryKey s) (hun : UniqueNames s) (hfk : ForeignKeys s) :
    (s.getCompileCommand f args = none ↔ ¬ ∃ c, CommandFor s f c) ∧
    ((∀ x ∈ s.files, x.name ≠ f) → s.getCompileCommand f args = none) ∧
    (∀ d out, s.getCompileCommand f args = some (d, out) →
      ∃ c, CommandFor s f c ∧ d = c.directory ∧ out = args ++ deserialize_ c.args []) ∧
    (∀ d a, NoOtherUnit s f →
      (s.setCompileCommand f d (serialize_ a)).2.getCompileCommand f [] = some (d, a)) := by
  have hiff : s.getCompileCommand f args = none ↔ ¬ ∃ c, CommandFor s f c := by
    rw [getCompileCommand_eq_none, List.eq_nil_iff_forall_not_mem]
    constructor
    · rintro h ⟨c, hc⟩
      obtain ⟨hcm, e, he, hk, hec⟩ := (commandFor_iff hpk hun hfk f c).2 hc
      exact h (c.directory, c.args)
        (mem_getCompileCommandRows.2 ⟨e, he, hk, c, hcm, hec, rfl⟩)
    · intro h p hp
      obtain ⟨e, he, hk, c, hc, hec, _⟩ := mem_getCompileCommandRows.1 hp
      exact h ⟨c, (commandFor_iff hpk hun hfk f c).1 ⟨hc, e, he, hk, hec⟩⟩
  refine ⟨hiff, ?_, ?_, ?_⟩
  · intro hno
    rw [hiff]
    rintro ⟨c, _, _, _, F, hF, hFn, _⟩
    exact hno F hF hFn
  · intro d out h
    obtain ⟨e, he, hk, c, hc, hec, hd, hout⟩ := getCompileCommand_eq_some h
    exact ⟨c, (commandFor_iff hpk hun hfk f c).1 ⟨hc, e, he, hk, hec⟩, hd, hout⟩
  · intro d a hno
    exact getCompileCommand_after_set hpk hfk hno d a

theorem getCompileCommand_resolution_witness :
    PrimaryKey dbShared ∧ UniqueNames dbShared ∧ ForeignKeys dbShared ∧
    NoOtherUnit dbShared "b.cpp" ∧
    ((dbShared.getCompileCommand "b.cpp" ["-x"] = none ↔ ¬ ∃ c, CommandFor dbShared "b.cpp" c) ∧
     ((∀ x ∈ dbShared.files, x.name ≠ "b.cpp") → dbShared.getCompileCommand "b.cpp" ["-x"] = none) ∧
     (∀ d out, dbShared.getCompileCommand "b.cpp" ["-x"] = some (d, out) →
       ∃ c, CommandFor dbShared "b.cpp" c ∧ d = c.directory ∧
         out = ["-x"] ++ deserialize_ c.args []) ∧
     (∀ d a, NoOtherUnit dbShared "b.cpp" →
       (dbShared.setCompileCommand "b.cpp" d (serialize_ a)).2.getCompileCommand "b.cpp" []
         = some (d, a))) :=
  ⟨by decide, by decide, by decide, by decide,
    getCompileCommand_resolution dbShared "b.cpp" ["-x"] (by decide) (by decide) (by decide)⟩

/-! ## The keys of `files` in reachable databases -/

theorem keyed_of_shrinks {s s' : Storage} (h : PrimaryKey s ∧ UniqueNames s)
    (hs : Shrinks s s') : PrimaryKey s' ∧ UniqueNames s' :=
  ⟨⟨List.Nodup.sublist (hs.1.map FileRow.id) h.1.1, fun f hf => h.1.2 f (hs.1.subset hf)⟩,
    uniqueNames_of_shrinks h.2 hs⟩

theorem keyed_of_files_map {s s' : Storage} (h : PrimaryKey s ∧ UniqueNames s)
    (hid : s'.files.map FileRow.id = s.files.map FileRow.id)
    (hname : s'.files.map FileRow.name = s.files.map FileRow.name) :
    PrimaryKey s' ∧ UniqueNames s' := by
  refine ⟨⟨?_, ?_⟩, ?_⟩
  · rw [hid]; exact h.1.1
  · intro f hf
    have : f.id ∈ s.files.map FileRow.id := by rw [← hid]; exact List.mem_map_of_mem _ hf
    obtain ⟨g, hg, hfg⟩ := List.mem_map.1 this
    rw [← hfg]
    exact h.1.2 g hg
  · unfold UniqueNames; rw [hname]; exact h.2

theorem keyed_of_files_eq {s s' : Storage} (h : PrimaryKey s ∧ UniqueNames s)
    (he : s'.files = s.files) : PrimaryKey s' ∧ UniqueNames s' :=
  keyed_of_files_map h (by rw [he]) (by rw [he])

theorem addFile__keyed {s : Storage} (h : PrimaryKey s ∧ UniqueNames s) (n : String) :
    PrimaryKey (s.addFile_ n).2 ∧ UniqueNames (s.addFile_ n).2 := by
  by_cases hreg : ∃ x ∈ s.files, x.name = n
  · rw [addFile__old h.1.2 hreg]; exact h
  · have hno : ∀ x ∈ s.files, x.name ≠ n := fun x hx hxn => hreg ⟨x, hx, hxn⟩
    rw [addFile__new hno]
    refine ⟨⟨?_, ?_⟩, ?_⟩
    · dsimp only
      rw [List.map_append]
      refine List.Nodup.append h.1.1 (List.nodup_singleton _) ?_
      intro k hk hk'
      simp only [List.map_cons, List.map_nil, List.mem_singleton] at hk'
      rw [List.mem_map] at hk
      obtain ⟨x, hx, rfl⟩ := hk
      have := newRowId_fresh s.files x hx
      omega
    · intro f hf
      rcases List.mem_append.1 hf with hf | hf
      · exact h.1.2 f hf
      · rw [List.mem_singleton] at hf
        rw [hf]
        exact newRowId_pos h.1.2
    · unfold UniqueNames
      dsimp only
      rw [List.map_append]
      refine List.Nodup.append h.2 (List.nodup_singleton _) ?_
      intro k hk hk'
      simp only [List.map_cons, List.map_nil, List.mem_singleton] at hk'
      rw [List.mem_map] at hk
      obtain ⟨x, hx, rfl⟩ := hk
      exact hno x hx hk'

theorem beginFile_keyed (fs : FileSystem) (uninit : Int) {s : Storage}
    (h : PrimaryKey s ∧ UniqueNames s) (n : String) :
    PrimaryKey (s.beginFile fs uninit n).2 ∧ UniqueNames (s.beginFile fs uninit n).2 :=
  keyed_of_files_map (addFile__keyed h n)
    (beginFile_files_map fs uninit s n).1 (beginFile_files_map fs uninit s n).2

theorem addIncludeNamed_getD_files (s : Storage) (a b : String) :
    ((s.addIncludeNamed a b).getD s).files = s.files := by
  cases h : s.addIncludeNamed a b with
  | none => rfl
  | some s' => exact addIncludeNamed_files h

theorem newIndexer_apply (fs : FileSystem) (uninit : Int) (s : Storage) (n : String) :
    Op.apply s (.newIndexer fs uninit n) =
      match Indexer.create fs uninit n [] s with
      | some ix => ix.storage_
      | none => (s.beginFile fs uninit n).2 := rfl

theorem newIndexer_files (fs : FileSystem) (uninit : Int) (s : Storage) (n : String) :
    (Op.apply s (.newIndexer fs uninit n)).files = (s.beginFile fs uninit n).2.files := by
  rw [newIndexer_apply]
  cases hc : Indexer.create fs uninit n [] s with
  | none => rfl
  | some ix =>
    unfold Indexer.create at hc
    dsimp only at hc
    rw [Option.map_eq_some'] at hc
    obtain ⟨s2, hs2, rfl⟩ := hc
    exact addIncludeNamed_files hs2

theorem nextFile_shrinks (fs : FileSystem) (s : Storage) : Shrinks s (s.nextFile fs).2 :=
  nextFileLoop_shrinks fs (nextFileQuery s) s

theorem apply_keyed {s : Storage} (h : PrimaryKey s ∧ UniqueNames s) (o : Op) :
    PrimaryKey (o.apply s) ∧ UniqueNames (o.apply s) := by
  cases o with
  | setCompileCommand f d a =>
    exact keyed_of_files_eq (addFile__keyed h f) (setCompileCommand_files s f d _)
  | beginFile fs u n => exact beginFile_keyed fs u h n
  | addInclude i j => exact keyed_of_files_eq h (addInclude_files s i j)
  | addIncludeNamed a b => exact keyed_of_files_eq h (addIncludeNamed_getD_files s a b)
  | addTag usr kind spelling fileName l1 c1 o1 l2 c2 o2 d f =>
    exact keyed_of_files_eq h (addTag_files s _ _ _ _ _ _ _ _ _ _ _ _)
  | cleanIndex =>
    refine keyed_of_files_map h ?_ ?_
    · simp only [Op.apply, cleanIndex, List.map_map]; rfl
    · simp only [Op.apply, cleanIndex, List.map_map]; rfl
  | removeFile n => exact keyed_of_shrinks h (removeFile_shrinks s n)
  | nextFile fs => exact keyed_of_shrinks h (nextFile_shrinks fs s)
  | setOption n v => exact keyed_of_files_eq h rfl
  | setOptionVector n v => exact keyed_of_files_eq h rfl
  | newIndexer fs u n =>
    exact keyed_of_files_eq (beginFile_keyed fs u h n) (newIndexer_files fs u s n)

theorem run_keyed (ops : List Op) {s : Storage} (h : PrimaryKey s ∧ UniqueNames s) :
    PrimaryKey (run ops s) ∧ UniqueNames (run ops s) := by
  induction ops generalizing s with
  | nil => exact h
  | cons o rest ih => exact ih (apply_keyed h o)

theorem empty_keyed : PrimaryKey Storage.empty ∧ UniqueNames Storage.empty := by decide

theorem beginFile_rows (fs : FileSystem) (uninit : Int) (s : Storage) (n : String) :
    (s.beginFile fs uninit n).2.files.map (fun f => (f.id, f.name))
      = (s.addFile_ n).2.files.map (fun f => (f.id, f.name)) := by
  unfold beginFile
  dsimp only
  split
  · dsimp only
    rw [List.map_map]
    apply List.map_congr_left
    intro f _
    simp only [Function.comp]
    split <;> rfl
  · rfl

/-- C18: in every database reached from the empty one by a sequence of calls, no two rows of
`files` have the same name (nor the same id), so every row is the one `fileId_` finds for its
name.  There, registering a name that is present returns the id of its row and leaves `files`
as it is, and registering a new name appends one row, with a new id and `indexed = 0`.
`setCompileCommand` returns the id of the registration and leaves `files` as the registration
left it; `beginFile` leaves the same rows up to `indexed`, which it sets afterwards. -/
theorem file_name_uniqueness (ops : List Op) (n : String) :
    UniqueNames (run ops Storage.empty) ∧
    PrimaryKey (run ops Storage.empty) ∧
    (∀ x ∈ (run ops Storage.empty).files, (run ops Storage.empty).fileId_ x.name = x.id) ∧
    ((∃ x ∈ (run ops Storage.empty).files, x.name = n) →
      (run ops Storage.empty).addFile_ n
        = ((run ops Storage.empty).fileId_ n, run ops Storage.empty)) ∧
    ((∀ x ∈ (run ops Storage.empty).files, x.name ≠ n) →
      ((run ops Storage.empty).addFile_ n).2.files = (run ops Storage.empty).files ++
          [⟨((run ops Storage.empty).addFile_ n).1, n, 0⟩] ∧
        ∀ x ∈ (run ops Storage.empty).files,
          x.id ≠ ((run ops Storage.empty).addFile_ n).1) ∧
    (∀ d a, ((run ops Storage.empty).setCompileCommand n d a).1
        = ((run ops Storage.empty).addFile_ n).1 ∧
      ((run ops Storage.empty).setCompileCommand n d a).2.files
        = ((run ops Storage.empty).addFile_ n).2.files) ∧
    (∀ fs uninit,
      ((run ops Storage.empty).beginFile fs uninit n).2.files.map (fun f => (f.id, f.name))
        = ((run ops Storage.empty).addFile_ n).2.files.map (fun f => (f.id, f.name))) := by
  have hk := run_keyed ops empty_keyed
  generalize run ops Storage.empty = s at hk
  refine ⟨hk.2, hk.1, ?_, ?_, ?_, ?_, ?_⟩
  · intro x hx
    obtain ⟨y, hy, hyn, hyid⟩ := fileId__registered ⟨x, hx, rfl⟩
    have : y = x := List.inj_on_of_nodup_map hk.2 hy hx hyn
    rw [hyid, this]
  · intro hreg
    exact addFile__old hk.1.2 hreg
  · intro hno
    rw [addFile__new hno]
    refine ⟨rfl, ?_⟩
    intro x hx
    have := newRowId_fresh s.files x hx
    dsimp only
    omega
  · intro d a
    exact ⟨rfl, setCompileCommand_files s n d a⟩
  · intro fs uninit
    exact beginFile_rows fs uninit s n

/-! ## The self edge of a translation unit -/

theorem selfEdges_of_linked {s : Storage} (h : CommandsLinked s) : SelfEdges s := by
  rintro f _ ⟨c, hc, hcf⟩
  rw [← hcf]
  exact (h c hc).2

theorem addFile__commands (s : Storage) (n : String) : (s.addFile_ n).2.commands = s.commands := by
  unfold addFile_; dsimp only; split <;> rfl

theorem addFile__includes (s : Storage) (n : String) : (s.addFile_ n).2.includes = s.includes := by
  unfold addFile_; dsimp only; split <;> rfl

theorem addFile__files_subset (s : Storage) (n : String) :
    ∀ x ∈ s.files, x ∈ (s.addFile_ n).2.files := by
  intro x hx
  unfold addFile_
  dsimp only
  split
  · exact List.mem_append_left _ hx
  · exact hx

theorem addInclude_commands (s : Storage) (i j : Int) :
    (s.addInclude i j).commands = s.commands := by
  unfold addInclude; split <;> rfl

theorem addInclude_subset (s : Storage) (i j : Int) :
    ∀ e ∈ s.includes, e ∈ (s.addInclude i j).includes := by
  intro e he
  unfold addInclude
  split
  · exact he
  · exact List.mem_append_left _ he

theorem exists_id_of_map_eq {l l' : List FileRow}
    (h : l'.map FileRow.id = l.map FileRow.id) {k : Int} (hk : ∃ f ∈ l, f.id = k) :
    ∃ f ∈ l', f.id = k := by
  obtain ⟨f, hf, rfl⟩ := hk
  have : f.id ∈ l'.map FileRow.id := by rw [h]; exact List.mem_map_of_mem _ hf
  obtain ⟨g, hg, hgf⟩ := List.mem_map.1 this
  exact ⟨g, hg, hgf⟩

theorem addFile__fst_no_command {s : Storage} (hl : CommandsLinked s)
    {n : String} (hno : NoCommand s n) :
    ∀ c ∈ s.commands, c.fileId ≠ (s.addFile_ n).1 := by
  intro c hc
  by_cases hreg : ∃ x ∈ s.files, x.name = n
  · obtain ⟨F, hF, hFn, hFid⟩ := fileId__registered hreg
    have hne := hno F hF hFn c hc
    unfold addFile_
    dsimp only
    split
    · rename_i h1
      obtain ⟨f, hf, hfid⟩ := (hl c hc).1
      have := newRowId_fresh s.files f hf
      omega
    · rw [hFid]; exact hne
  · have hno' : ∀ x ∈ s.files, x.name ≠ n := fun x hx hxn => hreg ⟨x, hx, hxn⟩
    rw [addFile__new hno']
    obtain ⟨f, hf, hfid⟩ := (hl c hc).1
    have := newRowId_fresh s.files f hf
    dsimp only
    omega

theorem beginFile_commands (fs : FileSystem) (uninit : Int) (s : Storage) (n : String) :
    (s.beginFile fs uninit n).2.commands = s.commands := by
  unfold beginFile
  dsimp only
  split
  · exact addFile__commands s n
  · exact addFile__commands s n

theorem beginFile_includes (fs : FileSystem) (uninit : Int) (s : Storage) (n : String) :
    ((s.beginFile fs uninit n).1 = false ∧ (s.beginFile fs uninit n).2.includes = s.includes) ∨
    ((s.beginFile fs uninit n).1 = true ∧ (s.beginFile fs uninit n).2.includes
      = s.includes.filter (fun e => ¬ e.sourceId = (s.addFile_ n).1)) := by
  unfold beginFile
  dsimp only
  split
  · right
    refine ⟨rfl, ?_⟩
    dsimp only
    rw [addFile__includes]
  · left
    exact ⟨rfl, addFile__includes s n⟩

theorem beginFile_has_id (fs : FileSystem) (uninit : Int) (s : Storage) (n : String)
    {k : Int} (hk : ∃ f ∈ s.files, f.id = k) :
    ∃ f ∈ (s.beginFile fs uninit n).2.files, f.id = k := by
  apply exists_id_of_map_eq (beginFile_files_map fs uninit s n).1
  obtain ⟨f, hf, hfk⟩ := hk
  exact ⟨f, addFile__files_subset s n f hf, hfk⟩

theorem beginFile_linked (fs : FileSystem) (uninit : Int) {s : Storage}
    (hl : CommandsLinked s) {n : String}
    (hsafe : (s.beginFile fs uninit n).1 = false ∨ NoCommand s n) :
    CommandsLinked (s.beginFile fs uninit n).2 := by
  intro c hc
  rw [beginFile_commands] at hc
  refine ⟨beginFile_has_id fs uninit s n (hl c hc).1, ?_⟩
  rcases beginFile_includes fs uninit s n with ⟨_, hinc⟩ | ⟨htrue, hinc⟩
  · rw [hinc]; exact (hl c hc).2
  · rw [hinc]
    have hno : NoCommand s n := by
      rcases hsafe with h | h
      · rw [htrue] at h; cases h
      · exact h
    have hne := addFile__fst_no_command hl hno c hc
    simp only [List.mem_filter, decide_not, Bool.not_eq_true', decide_eq_false_iff_not]
    exact ⟨(hl c hc).2, hne⟩

theorem removeFile_linked {s : Storage} (hl : CommandsLinked s) (n : String) :
    CommandsLinked (s.removeFile n) := by
  intro c hc
  simp only [removeFile, List.mem_filter, decide_not, Bool.not_eq_true',
    decide_eq_false_iff_not] at hc ⊢
  obtain ⟨f, hf, hfid⟩ := (hl c hc.1).1
  exact ⟨⟨f, ⟨hf, by rw [hfid]; exact hc.2⟩, hfid⟩, ⟨⟨(hl c hc.1).2, hc.2⟩, hc.2⟩⟩

theorem nextFileLoop_linked (fs : FileSystem) (rows : List Candidate) :
    ∀ s : Storage, CommandsLinked s → CommandsLinked (nextFileLoop fs rows s).2 := by
  induction rows with
  | nil => intro s h; exact h
  | cons c rest ih =>
    intro s h
    unfold nextFileLoop
    split
    · exact ih _ (removeFile_linked h _)
    · split
      · exact h
      · exact ih _ h

theorem linked_of_eq {s s' : Storage} (hl : CommandsLinked s) (hc : s'.commands = s.commands)
    (hf : s'.files.map FileRow.id = s.files.map FileRow.id)
    (hi : ∀ e ∈ s.includes, e ∈ s'.includes) : CommandsLinked s' := by
  intro c hcm
  rw [hc] at hcm
  exact ⟨exists_id_of_map_eq hf (hl c hcm).1, hi _ (hl c hcm).2⟩

theorem addTag_commands (s : Storage) (usr kind spelling fileName : String)
    (l1 c1 o1 l2 c2 o2 : Int) (d f : Bool) :
    (s.addTag usr kind spelling fileName l1 c1 o1 l2 c2 o2 d f).commands = s.commands := by
  unfold addTag
  dsimp only
  split
  · rfl
  · split <;> rfl

theorem addTag_includes (s : Storage) (usr kind spelling fileName : String)
    (l1 c1 o1 l2 c2 o2 : Int) (d f : Bool) :
    (s.addTag usr kind spelling fileName l1 c1 o1 l2 c2 o2 d f).includes = s.includes := by
  unfold addTag
  dsimp only
  split
  · rfl
  · split <;> rfl

theorem beginFile_fileId_ (fs : FileSystem) (uninit : Int) (s : Storage) (n m : String) :
    (s.beginFile fs uninit n).2.fileId_ m = (s.addFile_ n).2.fileId_ m := by
  unfold beginFile
  dsimp only
  split
  · unfold fileId_
    dsimp only
    rw [List.find?_map]
    have hfun : ((fun f : FileRow => decide (f.name = m)) ∘ fun f : FileRow =>
        if f.id = (s.addFile_ n).1 then
          { f with indexed := (fs n).getD uninit } else f)
        = fun f : FileRow => decide (f.name = m) := by
      funext f
      simp only [Function.comp]
      split <;> rfl
    rw [hfun]
    cases (s.addFile_ n).2.files.find? (fun f => decide (f.name = m)) with
    | none => rfl
    | some f =>
      simp only [Option.map_some']
      split <;> rfl
  · rfl

theorem setCompileCommand_linked {s : Storage} (hpk : PrimaryKey s) (hl : CommandsLinked s)
    (f d a : String) : CommandsLinked (s.setCompileCommand f d a).2 := by
  intro c hc
  rw [setCompileCommand_commands] at hc
  rw [setCompileCommand_files, setCompileCommand_includes]
  rcases List.mem_append.1 hc with hc | hc
  · have hc' := (List.mem_filter.1 hc).1
    obtain ⟨x, hx, hxid⟩ := (hl c hc').1
    exact ⟨⟨x, addFile__files_subset s f x hx, hxid⟩, addInclude_subset s _ _ _ (hl c hc').2⟩
  · rw [List.mem_singleton] at hc
    subst hc
    obtain ⟨_, row, hrow, _, hid, _, _⟩ := addFile__row hpk f
    exact ⟨⟨row, hrow, hid⟩, addInclude_mem s _ _⟩

theorem newIndexer_linked (fs : FileSystem) (uninit : Int) {s : Storage}
    (hpk : PrimaryKey s) (hl : CommandsLinked s) (n : String) :
    CommandsLinked (Op.apply s (.newIndexer fs uninit n)) := by
  have hfid : (s.beginFile fs uninit n).2.fileId_ n = (s.addFile_ n).1 := by
    rw [beginFile_fileId_]
    obtain ⟨_, row, _, _, hid, hfid, _⟩ := addFile__row hpk n
    rw [hfid, hid]
  have hpos : (s.addFile_ n).1 ≠ -1 := by
    obtain ⟨_, row, hrow, _, hid, _, _⟩ := addFile__row hpk n
    have hpk1 : PrimaryKey (s.addFile_ n).2 := by
      by_cases hreg : ∃ x ∈ s.files, x.name = n
      · rw [addFile__old hpk.2 hreg]; exact hpk
      · have hno : ∀ x ∈ s.files, x.name ≠ n := fun x hx hxn => hreg ⟨x, hx, hxn⟩
        rw [addFile__new hno]
        refine ⟨?_, ?_⟩
        · dsimp only
          rw [List.map_append]
          refine List.Nodup.append hpk.1 (List.nodup_singleton _) ?_
          intro k hk hk'
          simp only [List.map_cons, List.map_nil, List.mem_singleton] at hk'
          rw [List.mem_map] at hk
          obtain ⟨x, hx, rfl⟩ := hk
          have := newRowId_fresh s.files x hx
          omega
        · intro g hg
          rcases List.mem_append.1 hg with hg | hg
          · exact hpk.2 g hg
          · rw [List.mem_singleton] at hg
            rw [hg]
            exact newRowId_pos hpk.2
    have := hpk1.2 row hrow
    omega
  have happly : Op.apply s (.newIndexer fs uninit n)
      = (s.beginFile fs uninit n).2.addInclude (s.addFile_ n).1 (s.addFile_ n).1 := by
    rw [newIndexer_apply]
    unfold Indexer.create addIncludeNamed
    simp only [hfid, hpos, or_self, if_false, Option.map_some']
  rw [happly]
  intro c hc
  rw [addInclude_commands, beginFile_commands] at hc
  refine ⟨?_, ?_⟩
  · rw [addInclude_files]
    exact beginFile_has_id fs uninit s n (hl c hc).1
  · by_cases hcid : c.fileId = (s.addFile_ n).1
    · rw [hcid]; exact addInclude_mem _ _ _
    · apply addInclude_subset
      rcases beginFile_includes fs uninit s n with ⟨_, hinc⟩ | ⟨_, hinc⟩
      · rw [hinc]; exact (hl c hc).2
      · rw [hinc]
        simp only [List.mem_filter, decide_not, Bool.not_eq_true', decide_eq_false_iff_not]
        exact ⟨(hl c hc).2, hcid⟩

theorem apply_linked {s : Storage} (hpk : PrimaryKey s) (hl : CommandsLinked s) (o : Op)
    (hsafe : KeepsSelfEdges s o) : CommandsLinked (o.apply s) := by
  cases o with
  | setCompileCommand f d a => exact setCompileCommand_linked hpk hl f d _
  | beginFile fs u n => exact beginFile_linked fs u hl hsafe
  | addInclude i j =>
    exact linked_of_eq hl (addInclude_commands s i j) (by rw [Op.apply, addInclude_files])
      (addInclude_subset s i j)
  | addIncludeNamed a b =>
    show CommandsLinked ((s.addIncludeNamed a b).getD s)
    unfold addIncludeNamed
    dsimp only
    split
    · exact hl
    · exact linked_of_eq hl (addInclude_commands s _ _) (by rw [Option.getD, addInclude_files])
        (addInclude_subset s _ _)
  | addTag usr kind spelling fileName l1 c1 o1 l2 c2 o2 d f =>
    exact linked_of_eq hl (addTag_commands s _ _ _ _ _ _ _ _ _ _ _ _)
      (by rw [Op.apply, addTag_files]) (by rw [Op.apply, addTag_includes]; exact fun e he => he)
  | cleanIndex =>
    refine linked_of_eq hl rfl ?_ (fun e he => he)
    simp only [Op.apply, cleanIndex, List.map_map]; rfl
  | removeFile n => exact removeFile_linked hl n
  | nextFile fs => exact nextFileLoop_linked fs _ s hl
  | setOption n v => exact linked_of_eq hl rfl rfl (fun e he => he)
  | setOptionVector n v => exact linked_of_eq hl rfl rfl (fun e he => he)
  | newIndexer fs u n => exact newIndexer_linked fs u hpk hl n

theorem run_linked (ops : List Op) {s : Storage} (hk : PrimaryKey s ∧ UniqueNames s)
    (hl : CommandsLinked s) (hsafe : SafeRun ops s) : CommandsLinked (run ops s) := by
  induction ops generalizing s with
  | nil => exact hl
  | cons o rest ih =>
    exact ih (apply_keyed hk o) (apply_linked hk.1 hl o hsafe.1) hsafe.2

theorem setCompileCommand_one_row (s : Storage) (f d a : String) :
    (s.setCompileCommand f d a).2.commands.filter
        (fun c => c.fileId = (s.setCompileCommand f d a).1)
      = [⟨(s.setCompileCommand f d a).1, d, a⟩] := by
  rw [setCompileCommand_commands, setCompileCommand_fst, List.filter_append,
    List.filter_filter]
  simp

/-- What holds of the self edges.  `setCompileCommand (f, d, a)`, in a database reached from
the empty one, leaves the self edge of the id it returns, which is the id of `f`, and exactly
one row of `commands` with that id, the row `(id, d, a)`.  In every database reached from the
empty one by calls that keep the self edges, every file with a row in `commands` has its self
edge: these are all the calls (the constructor of `Indexer` among them) except `beginFile`
returning true for a file with a row in `commands`. -/
theorem self_edge_invariant (ops : List Op) (f d : String) (a : List String) :
    ((run ops Storage.empty).setCompileCommand f d (serialize_ a)).2.fileId_ f
      = ((run ops Storage.empty).setCompileCommand f d (serialize_ a)).1 ∧
    (⟨((run ops Storage.empty).setCompileCommand f d (serialize_ a)).1,
        ((run ops Storage.empty).setCompileCommand f d (serialize_ a)).1⟩ : IncludeRow)
      ∈ ((run ops Storage.empty).setCompileCommand f d (serialize_ a)).2.includes ∧
    ((run ops Storage.empty).setCompileCommand f d (serialize_ a)).2.commands.filter
        (fun c => c.fileId = ((run ops Storage.empty).setCompileCommand f d (serialize_ a)).1)
      = [⟨((run ops Storage.empty).setCompileCommand f d (serialize_ a)).1, d,
          serialize_ a⟩] ∧
    (SafeRun ops Storage.empty → SelfEdges (run ops Storage.empty)) := by
  have hk := run_keyed ops empty_keyed
  refine ⟨setCompileCommand_fileId_ hk.1 f d _, ?_, setCompileCommand_one_row _ f d _, ?_⟩
  · rw [setCompileCommand_includes, setCompileCommand_fst]
    exact addInclude_mem _ _ _
  · intro hsafe
    exact selfEdges_of_linked (run_linked ops empty_keyed (by decide) hsafe)

/-- After `setCompileCommand` for `a.cpp`, a call of `beginFile` for `a.cpp`, which is on disk
with a modification time above `0`, deletes the edges that leave `a.cpp`: the file keeps its
row in `commands` and has no self edge. -/
theorem beginFile_drops_self_edge :
    ¬ SelfEdges (run [.setCompileCommand "a.cpp" "/" ["clang++", "a.cpp"],
      .beginFile fsS1 0 "a.cpp"] Storage.empty) := by
  decide

/-! ## Excluded paths -/

theorem excludedFrame_refl (ex : List String) (s : Storage) : ExcludedFrame ex s s :=
  ⟨fun _ hf _ => hf, fun _ ht _ _ _ _ => ht, fun _ he _ _ _ _ => he⟩

theorem excludedFrame_trans {ex : List String} {a b c : Storage}
    (h1 : ExcludedFrame ex a b) (h2 : ExcludedFrame ex b c) : ExcludedFrame ex a c := by
  refine ⟨fun f hf hx => h1.1 f (h2.1 f hf hx) hx, ?_, ?_⟩
  · intro t ht f hf hid hx
    exact h1.2.1 t (h2.2.1 t ht f hf hid hx) f (h2.1 f hf hx) hid hx
  · intro e he f hf hid hx
    exact h1.2.2 e (h2.2.2 e he f hf hid hx) f (h2.1 f hf hx) hid hx

/-- In a database with distinct ids, a row whose id is the one `fileId_` finds for `n` is
named `n`. -/
theorem name_of_fileId_ {s : Storage} (hpk : PrimaryKey s) {n : String} {f : FileRow}
    (hf : f ∈ s.files) (hid : f.id = s.fileId_ n) : f.name = n := by
  by_cases hreg : ∃ x ∈ s.files, x.name = n
  · obtain ⟨F, hF, hFn, hFid⟩ := fileId__registered hreg
    have : f = F := List.inj_on_of_nodup_map hpk.1 hf hF (hid.trans hFid)
    rw [this]; exact hFn
  · have hno : ∀ x ∈ s.files, x.name ≠ n := fun x hx hxn => hreg ⟨x, hx, hxn⟩
    rw [fileId__unregistered hno] at hid
    have := hpk.2 f hf
    omega

theorem beginFile_excludedFrame (fs : FileSystem) (uninit : Int) {s : Storage}
    (hk : PrimaryKey s ∧ UniqueNames s) {ex : List String} {n : String}
    (hn : ¬ Excluded ex n) : ExcludedFrame ex s (s.beginFile fs uninit n).2 := by
  refine ⟨?_, ?_, ?_⟩
  · intro f hf hx
    have hk1 := addFile__keyed hk n
    obtain ⟨_, row, hrow, hrn, hrid, _, _⟩ := addFile__row hk.1 n
    have hold : ∀ g ∈ (s.addFile_ n).2.files, Excluded ex g.name → g ∈ s.files := by
      intro g hg hgx
      unfold addFile_ at hg
      dsimp only at hg
      split at hg
      · rcases List.mem_append.1 hg with hg | hg
        · exact hg
        · rw [List.mem_singleton] at hg
          rw [hg] at hgx
          exact absurd hgx hn
      · exact hg
    unfold beginFile at hf
    dsimp only at hf
    split at hf
    · dsimp only at hf
      rw [List.mem_map] at hf
      obtain ⟨g, hg, hgf⟩ := hf
      split at hgf
      · rename_i hgid
        have : g = row := List.inj_on_of_nodup_map hk1.1.1 hg hrow (hgid.trans hrid.symm)
        rw [← hgf] at hx
        dsimp only at hx
        rw [this, hrn] at hx
        exact absurd hx hn
      · rw [← hgf] at hx ⊢
        exact hold g hg hx
    · exact hold f hf hx
  · intro t ht _ _ _ _
    exact (beginFile_tags_sublist fs uninit s n).subset ht
  · intro e he _ _ _ _
    rcases beginFile_includes fs uninit s n with ⟨_, hinc⟩ | ⟨_, hinc⟩
    · rw [hinc] at he; exact he
    · rw [hinc] at he; exact (List.mem_filter.1 he).1

theorem addIncludeNamed_excludedFrame {s s' : Storage} (hpk : PrimaryKey s)
    {ex : List String} {n src : String} (hn : ¬ Excluded ex n)
    (h : s.addIncludeNamed n src = some s') : ExcludedFrame ex s s' := by
  unfold addIncludeNamed at h
  dsimp only at h
  split at h
  · cases h
  · cases h
    refine ⟨?_, ?_, ?_⟩
    · intro f hf _
      rw [addInclude_files] at hf
      exact hf
    · intro t ht _ _ _ _
      rw [addInclude_tags] at ht
      exact ht
    · intro e he f hf hid hx
      rw [addInclude_files] at hf
      rcases mem_addInclude he with he | he
      · exact he
      · rw [he] at hid
        rw [name_of_fileId_ hpk hf hid] at hx
        exact absurd hx hn

theorem addTag_excludedFrame {s : Storage} (hpk : PrimaryKey s) {ex : List String}
    (usr kind spelling : String) {n : String} (hn : ¬ Excluded ex n)
    (l1 c1 o1 l2 c2 o2 : Int) (d f : Bool) :
    ExcludedFrame ex s (s.addTag usr kind spelling n l1 c1 o1 l2 c2 o2 d f) := by
  refine ⟨?_, ?_, ?_⟩
  · intro g hg _
    rw [addTag_files] at hg
    exact hg
  · intro t ht g hg hid hx
    rw [addTag_files] at hg
    unfold addTag at ht
    dsimp only at ht
    split at ht
    · exact ht
    · split at ht
      · exact ht
      · rcases List.mem_append.1 ht with ht | ht
        · exact ht
        · rw [List.mem_singleton] at ht
          rw [ht] at hid
          rw [name_of_fileId_ hpk hg hid] at hx
          exact absurd hx hn
  · intro e he _ _ _ _
    rw [addTag_includes] at he
    exact he

/-- One call of `visit` keeps the exclude list and the keys of `files`, and adds nothing for
an excluded file. -/
theorem visit_excludedFrame (fs : FileSystem) (uninit : Int) {ix : Indexer}
    (hk : PrimaryKey ix.storage_ ∧ UniqueNames ix.storage_) (c : Cursor)
    {r : CXChildVisitResult × Indexer} (hv : ix.visit fs uninit c = some r) :
    r.2.exclude_ = ix.exclude_ ∧ (PrimaryKey r.2.storage_ ∧ UniqueNames r.2.storage_) ∧
      ExcludedFrame ix.exclude_ ix.storage_ r.2.storage_ := by
  unfold Indexer.visit at hv
  split at hv
  · cases hv; exact ⟨rfl, hk, excludedFrame_refl _ _⟩
  · split at hv
    · cases hv; exact ⟨rfl, hk, excludedFrame_refl _ _⟩
    · dsimp only at hv
      split at hv
      · cases hv; exact ⟨rfl, hk, excludedFrame_refl _ _⟩
      · split at hv
        · cases hv; exact ⟨rfl, hk, excludedFrame_refl _ _⟩
        · rename_i hex
          have hn : ¬ Excluded ix.exclude_ c.location.file := hex
          rw [Option.map_eq_some'] at hv
          obtain ⟨ix1, hix1, rfl⟩ := hv
          have h1 : ix1.exclude_ = ix.exclude_ ∧
              (PrimaryKey ix1.storage_ ∧ UniqueNames ix1.storage_) ∧
              ExcludedFrame ix.exclude_ ix.storage_ ix1.storage_ := by
            split at hix1
            · rw [Option.map_eq_some'] at hix1
              obtain ⟨s2, hs2, rfl⟩ := hix1
              have hkb := beginFile_keyed fs uninit hk c.location.file
              exact ⟨rfl, keyed_of_files_eq hkb (addIncludeNamed_files hs2),
                excludedFrame_trans (beginFile_excludedFrame fs uninit hk hn)
                  (addIncludeNamed_excludedFrame hkb.1 hn hs2)⟩
            · cases hix1; exact ⟨rfl, hk, excludedFrame_refl _ _⟩
          split
          · exact ⟨h1.1, keyed_of_files_eq h1.2.1 (addTag_files _ _ _ _ _ _ _ _ _ _ _ _ _),
              excludedFrame_trans h1.2.2 (addTag_excludedFrame h1.2.1.1 _ _ _ hn _ _ _ _ _ _ _ _)⟩
          · exact h1

mutual
theorem walk_excludedFrame (fs : FileSystem) (uninit : Int) :
    ∀ (t : CursorTree) (ix : Indexer), (PrimaryKey ix.storage_ ∧ UniqueNames ix.storage_) →
      ∀ r, Indexer.walk fs uninit ix t = some r →
        r.2.exclude_ = ix.exclude_ ∧ (PrimaryKey r.2.storage_ ∧ UniqueNames r.2.storage_) ∧
          ExcludedFrame ix.exclude_ ix.storage_ r.2.storage_
  | .node c children, ix, h, r, hr => by
    rw [Indexer.walk] at hr
    split at hr
    · cases hr
    · rename_i ix1 hv
      cases hr
      exact visit_excludedFrame fs uninit h c hv
    · rename_i ix1 hv
      cases hr
      exact visit_excludedFrame fs uninit h c hv
    · rename_i ix1 hv
      have h1 := visit_excludedFrame fs uninit h c hv
      have h2 := walkAll_excludedFrame fs uninit children ix1 h1.2.1 r hr
      rw [h1.1] at h2
      exact ⟨h2.1, h2.2.1, excludedFrame_trans h1.2.2 h2.2.2⟩
theorem walkAll_excludedFrame (fs : FileSystem) (uninit : Int) :
    ∀ (ts : List CursorTree) (ix : Indexer),
      (PrimaryKey ix.storage_ ∧ UniqueNames ix.storage_) →
      ∀ r, Indexer.walkAll fs uninit ix ts = some r →
        r.2.exclude_ = ix.exclude_ ∧ (PrimaryKey r.2.storage_ ∧ UniqueNames r.2.storage_) ∧
          ExcludedFrame ix.exclude_ ix.storage_ r.2.storage_
  | [], ix, h, r, hr => by
    rw [Indexer.walkAll] at hr
    cases hr
    exact ⟨rfl, h, excludedFrame_refl _ _⟩
  | t :: rest, ix, h, r, hr => by
    rw [Indexer.walkAll] at hr
    split at hr
    · cases hr
    · rename_i ix1 hw
      cases hr
      exact walk_excludedFrame fs uninit t ix h _ hw
    · rename_i ix1 hw
      have h1 := walk_excludedFrame fs uninit t ix h _ hw
      have h2 := walkAll_excludedFrame fs uninit rest ix1 h1.2.1 r hr
      rw [h1.1] at h2
      exact ⟨h2.1, h2.2.1, excludedFrame_trans h1.2.2 h2.2.2⟩
end

/-- C17: `visit` on a cursor whose expansion file starts with an exclude prefix leaves the
indexer, its `Storage` with it, as it was; it returns `CXChildVisit_Continue` when the cursor
has a referenced declaration with a USR, and `CXChildVisit_Recurse` when it has none.  Over a
database with distinct file ids and names, the walk of `visitChildren` adds nothing for an
excluded path: a row of `files` with an excluded name, a tag owned by such a row and an include
edge into such a row that are there after the walk were there before it.  The constructor does
not look at the exclude list. -/
theorem exclude_prefixes (fs : FileSystem) (uninit : Int) (ix : Indexer)
    (hk : PrimaryKey ix.storage_ ∧ UniqueNames ix.storage_) :
    (∀ c : Cursor, Excluded ix.exclude_ c.location.file →
      ix.visit fs uninit c =
        some (if c.referencedIsNull = true ∨ c.referencedUSR = ""
          then .CXChildVisit_Recurse else .CXChildVisit_Continue, ix)) ∧
    (∀ top ix1, ix.visitChildren fs uninit top = some ix1 →
      ExcludedFrame ix.exclude_ ix.storage_ ix1.storage_) ∧
    (∀ n exclude s, Indexer.create fs uninit n exclude s
      = (Indexer.create fs uninit n [] s).map (fun i => { i with exclude_ := exclude })) := by
  refine ⟨?_, ?_, ?_⟩
  · intro c hx
    unfold Indexer.visit
    by_cases h1 : c.referencedIsNull = true
    · simp [h1]
    · by_cases h2 : c.referencedUSR = ""
      · simp [h2]
      · have hx' : ix.exclude_.any (fun e => startsWith c.location.file e) = true := hx
        have hb : c.referencedIsNull = false := by simpa using h1
        simp only [hb, h2, hx', if_true, if_false, or_self, Bool.false_eq_true]
        split <;> rfl
  · intro top ix1 hv
    cases top with
    | node c children =>
      rw [Indexer.visitChildren, Option.map_eq_some'] at hv
      obtain ⟨r, hr, rfl⟩ := hv
      exact (walkAll_excludedFrame fs uninit children ix hk r hr).2.2
  · intro n exclude s
    unfold Indexer.create
    dsimp only
    cases (s.beginFile fs uninit n).2.addIncludeNamed n n <;> rfl

theorem exclude_prefixes_witness :
    (PrimaryKey indexerS6.storage_ ∧ UniqueNames indexerS6.storage_) ∧
    ((∀ c : Cursor, Excluded indexerS6.exclude_ c.location.file →
      indexerS6.visit fsS1 0 c =
        some (if c.referencedIsNull = true ∨ c.referencedUSR = ""
          then .CXChildVisit_Recurse else .CXChildVisit_Continue, indexerS6)) ∧
    (∀ top ix1, indexerS6.visitChildren fsS1 0 top = some ix1 →
      ExcludedFrame indexerS6.exclude_ indexerS6.storage_ ix1.storage_) ∧
    (∀ n exclude s, Indexer.create fsS1 0 n exclude s
      = (Indexer.create fsS1 0 n [] s).map (fun i => { i with exclude_ := exclude }))) :=
  ⟨by decide, exclude_prefixes fsS1 0 indexerS6 (by decide)⟩

/-- C17, as stated, fails.  With the exclude prefix `/usr/include/`, `visit` on a cursor
located in `/usr/include/stdio.h` that has no referenced declaration returns
`CXChildVisit_Recurse`, not `CXChildVisit_Continue`.  With the exclude prefix `/usr/`, the
constructor of the indexer for `/usr/src/a.cpp` registers the file and adds its include
edge. -/
theorem visit_excluded_recurses :
    (Excluded indexerS6.exclude_ cursorStdio.location.file ∧
      indexerS6.visit fsS1 0 cursorStdio = some (.CXChildVisit_Recurse, indexerS6)) ∧
    (Excluded ["/usr/"] "/usr/src/a.cpp" ∧
      (Indexer.create fsUsr 0 "/usr/src/a.cpp" ["/usr/"] Storage.empty).map
        (fun ix => ix.storage_) =
      some { files := [⟨1, "/usr/src/a.cpp", 100⟩], commands := [], includes := [⟨1, 1⟩],
             tags := [], options := [] }) := by
  decide

/-! ## `Application::update` -/

theorem getOptionVector_default (s : Storage)
    (h : (∀ o ∈ s.options, o.name ≠ "exclude") ∨ Json.parse (s.getOption "exclude") = none) :
    s.getOptionVector "exclude" = [] := by
  have hparse : Json.parse (s.getOption "exclude") = none := by
    rcases h with h | h
    · have : s.getOption "exclude" = "" := by
        unfold getOption
        have hfind : s.options.find? (fun o => o.name = "exclude") = none := by
          rw [List.find?_eq_none]
          intro o ho
          simpa using h o ho
        rw [hfind]
      rw [this]
      decide
    · exact h
  unfold getOptionVector deserialize_
  rw [hparse]

/-- C19: when the call that reads the `exclude` option is left by a `std::runtime_error`,
`Application::update` logs a warning and does not call `updateIndex_`: no file is parsed and
the database stays as it was.  When the call returns, the loop runs with the list returned,
and a warning is logged exactly when a `std::runtime_error` leaves the loop.  An option that
is absent, or whose value is not well-formed JSON, is no failure: the call returns the empty
list and the loop runs with it. -/
theorem update_option_read (fs : FileSystem) (uninit : Int)
    (translationUnit_ : Storage → String → Option CursorTree)
    (getOptionVector : Storage → String → Except String (List String))
    (fuel : Nat) (s : Storage) :
    (∀ e, getOptionVector s "exclude" = .error e →
      (Application.update fs uninit translationUnit_ getOptionVector fuel s).warning = true ∧
      (Application.update fs uninit translationUnit_ getOptionVector fuel s).pass = none ∧
      (Application.update fs uninit translationUnit_ getOptionVector fuel s).storage = s) ∧
    (∀ exclude, getOptionVector s "exclude" = .ok exclude →
      (Application.update fs uninit translationUnit_ getOptionVector fuel s).pass
        = some (exclude, updateLoop fs uninit translationUnit_ exclude fuel s) ∧
      ((Application.update fs uninit translationUnit_ getOptionVector fuel s).warning = true ↔
        (updateLoop fs uninit translationUnit_ exclude fuel s).status = .threw) ∧
      (Application.update fs uninit translationUnit_ getOptionVector fuel s).storage
        = (updateLoop fs uninit translationUnit_ exclude fuel s).storage) ∧
    ((∀ o ∈ s.options, o.name ≠ "exclude") ∨ Json.parse (s.getOption "exclude") = none →
      (Application.update fs uninit translationUnit_ getOptionReturns fuel s).pass
        = some ([], updateLoop fs uninit translationUnit_ [] fuel s)) := by
  refine ⟨?_, ?_, ?_⟩
  · intro e he
    unfold Application.update
    rw [he]
    exact ⟨rfl, rfl, rfl⟩
  · intro exclude hex
    unfold Application.update
    rw [hex]
    exact ⟨rfl, by simp, rfl⟩
  · intro h
    unfold Application.update getOptionReturns
    dsimp only
    rw [getOptionVector_default s h]

/-- C19, as stated, fails: in scenario S3 (`a.h` edited) with a database layer that cannot
read the option, `update` parses nothing and leaves the database as it was, while the loop
with the empty exclude list reparses `a.cpp` and changes the database. -/
theorem update_skips_loop_on_read_failure :
    (Application.update fsS3 0 parseShared getOptionFails 3 dbS1).warning = true ∧
    (Application.update fsS3 0 parseShared getOptionFails 3 dbS1).pass = none ∧
    (Application.update fsS3 0 parseShared getOptionFails 3 dbS1).storage = dbS1 ∧
    (updateLoop fsS3 0 parseShared [] 3 dbS1).status = .finished ∧
    (updateLoop fsS3 0 parseShared [] 3 dbS1).parsed = ["a.cpp"] ∧
    (updateLoop fsS3 0 parseShared [] 3 dbS1).storage ≠ dbS1 := by
  decide

/-! ## A pass that does not end -/

theorem updateLoop_repeats (fs : FileSystem) (uninit : Int)
    (translationUnit_ : Storage → String → Option CursorTree) (exclude : List String)
    (s : Storage) (fileName : String) (top : CursorTree) (ix ix1 : Indexer)
    (h1 : s.nextFile fs = (fileName, s)) (hne : fileName ≠ "")
    (h2 : translationUnit_ s fileName = some top)
    (h3 : Indexer.create fs uninit fileName exclude s = some ix)
    (h4 : ix.visitChildren fs uninit top = some ix1) (h5 : ix1.storage_ = s) (fuel : Nat) :
    updateLoop fs uninit translationUnit_ exclude fuel s
      = ⟨.outOfFuel, s, List.replicate fuel fileName⟩ := by
  induction fuel with
  | zero => rfl
  | succ n ih =>
    rw [updateLoop]
    simp only [h1, hne, if_false, h2, h3, h4, h5, ih, List.replicate_succ]

/-- C20: in scenario S3 (`a.h` edited at t=200, `a.cpp` untouched) with a parse of `a.cpp`
that has no cursor located in `a.h`, `nextFile` returns `a.cpp` on account of `a.h`,
processing `a.cpp` leaves the database as it was (`a.h` is still stale, the edge from `a.cpp`
to it is still there), and the loop is still running after any number of iterations, each of
which parsed `a.cpp`. -/
theorem updateLoop_never_ends (fuel : Nat) :
    dbS1.nextFile fsS3 = ("a.cpp", dbS1) ∧
    ((Indexer.create fsS3 0 "a.cpp" [] dbS1).bind (fun ix =>
        (ix.visitChildren fsS3 0 (.node (cursorF "a.cpp" false)
          [.node (cursorF "a.cpp" false) []])).map (fun ix1 => ix1.storage_)))
      = some dbS1 ∧
    (IncludesEdge dbS1 ⟨1, "a.cpp", 100⟩ ⟨2, "a.h", 100⟩ ∧ fsS3 "a.h" = some 200) ∧
    updateLoop fsS3 0 parseNoHeader [] fuel dbS1
      = ⟨.outOfFuel, dbS1, List.replicate fuel "a.cpp"⟩ := by
  refine ⟨by decide, by decide, by decide, ?_⟩
  exact updateLoop_repeats fsS3 0 parseNoHeader [] dbS1 "a.cpp"
    (.node (cursorF "a.cpp" false) [.node (cursorF "a.cpp" false) []])
    { sourceFile_ := "a.cpp", exclude_ := [], storage_ := dbS1,
      needsUpdate_ := [("a.cpp", false)] }
    { sourceFile_ := "a.cpp", exclude_ := [], storage_ := dbS1,
      needsUpdate_ := [("a.cpp", false)] }
    (by decide) (by decide) rfl (by decide) (by decide) rfl fuel

/-! ## The first iteration of a pass -/

theorem addFile__fst_pos {s : Storage} (hpk : PrimaryKey s) (n : String) :
    0 < (s.addFile_ n).1 := by
  by_cases hreg : ∃ x ∈ s.files, x.name = n
  · rw [addFile__old hpk.2 hreg]
    obtain ⟨F, hF, _, hFid⟩ := fileId__registered hreg
    dsimp only
    rw [hFid]
    exact hpk.2 F hF
  · have hno : ∀ x ∈ s.files, x.name ≠ n := fun x hx hxn => hreg ⟨x, hx, hxn⟩
    rw [addFile__new hno]
    exact newRowId_pos hpk.2

/-- Over a database with distinct positive ids the constructor of `Indexer` does not throw:
`beginFile` has registered the file, so `addInclude` finds its id. -/
theorem create_eq (fs : FileSystem) (uninit : Int) {s : Storage} (hpk : PrimaryKey s)
    (n : String) (exclude : List String) :
    Indexer.create fs uninit n exclude s = some
      { sourceFile_ := n, exclude_ := exclude,
        storage_ := (s.beginFile fs uninit n).2.addInclude (s.addFile_ n).1 (s.addFile_ n).1,
        needsUpdate_ := [(n, (s.beginFile fs uninit n).1)] } := by
  have hfid : (s.beginFile fs uninit n).2.fileId_ n = (s.addFile_ n).1 := by
    rw [beginFile_fileId_]
    obtain ⟨_, row, _, _, hid, hfid, _⟩ := addFile__row hpk n
    rw [hfid, hid]
  have hpos : (s.addFile_ n).1 ≠ -1 := by
    have := addFile__fst_pos hpk n
    omega
  unfold Indexer.create addIncludeNamed
  simp only [hfid, hpos, or_self, if_false, Option.map_some']

/-- After `beginFile (n)` the row of `n` is not older than the file on disk. -/
theorem beginFile_row_fresh (fs : FileSystem) (uninit : Int) {s : Storage}
    (hpk : PrimaryKey s) (n : String) :
    ∃ row ∈ (s.beginFile fs uninit n).2.files, row.name = n ∧ row.id = (s.addFile_ n).1 ∧
      ∀ m, fs n = some m → m ≤ row.indexed := by
  obtain ⟨hnd, row0, hrow0, hn0, hid0, _, _⟩ := addFile__row hpk n
  have hidx : (s.addFile_ n).2.indexedOf (s.addFile_ n).1 = row0.indexed := by
    rw [← hid0]; exact indexedOf_eq hnd hrow0
  unfold beginFile
  dsimp only
  split
  · refine ⟨{ row0 with indexed := (fs n).getD uninit }, ?_, hn0, hid0, ?_⟩
    · dsimp only
      rw [List.mem_map]
      exact ⟨row0, hrow0, by rw [if_pos hid0]⟩
    · intro m hm
      simp [hm]
  · rename_i hfresh
    refine ⟨row0, hrow0, hn0, hid0, ?_⟩
    intro m hm
    rw [hidx, hm] at hfresh
    simp only [Option.getD_some, gt_iff_lt, not_lt] at hfresh
    exact hfresh

/-- C4, as amended: when some file with an incoming include edge is on disk and newer than
its `indexed` value, the first file `nextFile` returns is a translation unit with an include
edge to such a stale file (one translation unit, not every includer of the header); when
the pass ends because `nextFile` returns the empty string, no file with an incoming include
edge is stale any more; conversely a translation unit none of whose included files is stale
is not returned by `nextFile`.  The driver reparses the file `nextFile` returns: it asks
`translationUnit_` for it; when that throws, the pass ends there with the error; when it
returns a tree, the constructor of `Indexer` runs without throwing and leaves the file
registered, with its self edge and an `indexed` value not below its modification time, the
cursors of the tree are visited, and only then the loop goes on from the database the visit
left (or ends with the error the visit threw).  Stated for databases whose `files` table is
well formed. -/
theorem updateLoop_reparses_an_includer (fs : FileSystem) (uninit : Int)
    (translationUnit_ : Storage → String → Option CursorTree) (exclude : List String)
    (fuel : Nat) (s : Storage) (hwf : FilesWellFormed s) :
    ((∃ src h, IncludesEdge s src h ∧ Stale fs h) →
      ∃ first rest,
        (updateLoop fs uninit translationUnit_ exclude (fuel + 1) s).parsed = first :: rest ∧
        ∃ src inc, IncludesEdge s src inc ∧ src.name = first ∧ Stale fs inc) ∧
    ((updateLoop fs uninit translationUnit_ exclude (fuel + 1) s).status = .finished →
      ¬ ∃ src inc,
        IncludesEdge (updateLoop fs uninit translationUnit_ exclude (fuel + 1) s).storage
          src inc ∧ Stale fs inc) ∧
    (∀ src ∈ s.files, (∀ inc, IncludesEdge s src inc → ¬ Stale fs inc) →
      (s.nextFile fs).1 ≠ src.name) ∧
    ((s.nextFile fs).1 ≠ "" →
      (translationUnit_ (s.nextFile fs).2 (s.nextFile fs).1 = none →
        updateLoop fs uninit translationUnit_ exclude (fuel + 1) s
          = ⟨.threw, (s.nextFile fs).2, [(s.nextFile fs).1]⟩) ∧
      (∀ top, translationUnit_ (s.nextFile fs).2 (s.nextFile fs).1 = some top →
        ∃ ix, Indexer.create fs uninit (s.nextFile fs).1 exclude (s.nextFile fs).2 = some ix ∧
          ix.sourceFile_ = (s.nextFile fs).1 ∧ ix.exclude_ = exclude ∧
          (∃ row ∈ ix.storage_.files, row.name = (s.nextFile fs).1 ∧
            (⟨row.id, row.id⟩ : IncludeRow) ∈ ix.storage_.includes ∧
            ∀ m, fs (s.nextFile fs).1 = some m → m ≤ row.indexed) ∧
          (ix.visitChildren fs uninit top = none →
            updateLoop fs uninit translationUnit_ exclude (fuel + 1) s
              = ⟨.threw, ix.storage_, [(s.nextFile fs).1]⟩) ∧
          (∀ ix1, ix.visitChildren fs uninit top = some ix1 →
            updateLoop fs uninit translationUnit_ exclude (fuel + 1) s
              = { updateLoop fs uninit translationUnit_ exclude fuel ix1.storage_ with
                  parsed := (s.nextFile fs).1 ::
                    (updateLoop fs uninit translationUnit_ exclude fuel ix1.storage_).parsed
                  }))) := by
  refine ⟨?_, ?_, ?_, ?_⟩
  · intro hex
    have hret : (s.nextFile fs).1 ≠ "" :=
      fun h => nextFile_none_fresh fs s hwf.1.1 hwf.2.2 h hex
    obtain ⟨rest, hrest⟩ :=
      updateLoop_parsed_head fs uninit translationUnit_ exclude fuel s hret
    exact ⟨_, rest, hrest, nextFile_returns_edge fs s hret⟩
  · intro hfin
    exact (updateLoop_finished_settled fs uninit translationUnit_ exclude (fuel + 1) s hwf
      hfin).2.2
  · intro src hsrc hfresh heq
    have hret : (s.nextFile fs).1 ≠ "" := by rw [heq]; exact hwf.2.2 src hsrc
    obtain ⟨src', inc, he, hname, hst⟩ := nextFile_returns_edge fs s hret
    have : src' = src := List.inj_on_of_nodup_map hwf.2.1 he.1 hsrc (hname.trans heq)
    subst this
    exact hfresh inc he hst
  · intro hname
    have hpk : PrimaryKey (s.nextFile fs).2 :=
      (filesWellFormed_of_shrinks hwf (nextFile_shrinks fs s)).1
    refine ⟨?_, ?_⟩
    · intro htu
      rw [updateLoop]
      dsimp only
      simp only [hname, if_false, htu]
    · intro top htu
      have hc := create_eq fs uninit hpk (s.nextFile fs).1 exclude
      refine ⟨_, hc, rfl, rfl, ?_, ?_, ?_⟩
      · obtain ⟨row, hrow, hrn, hrid, hfresh⟩ :=
          beginFile_row_fresh fs uninit hpk (s.nextFile fs).1
        refine ⟨row, ?_, hrn, ?_, hfresh⟩
        · dsimp only
          rw [addInclude_files]
          exact hrow
        · dsimp only
          rw [hrid]
          exact addInclude_mem _ _ _
      · intro hv
        rw [updateLoop]
        dsimp only
        simp only [hname, if_false, htu, hc, hv]
      · intro ix1 hv
        rw [updateLoop]
        dsimp only
        simp only [hname, if_false, htu, hc, hv]

/-- Witness for C4 as amended: in `dbShared` the translation unit `a.cpp` has the stale
file `a.h` among its included files, and the pass starts with a reparse. -/
theorem updateLoop_reparses_an_includer_witness :
    ∃ first rest,
      (updateLoop fsShared 0 parseShared [] 3 dbShared).parsed = first :: rest ∧
      ∃ src inc, IncludesEdge dbShared src inc ∧ src.name = first ∧ Stale fsShared inc :=
  (updateLoop_reparses_an_includer fsShared 0 parseShared [] 2 dbShared (by decide)).1
    ⟨⟨1, "a.cpp", 100⟩, ⟨3, "a.h", 100⟩, by decide, 200, by decide, by decide⟩

/-! ## A pass that leaves a translation unit without its self edge -/

/-- A pass that ended does not depend on the iterations it was allowed beyond its end. -/
theorem updateLoop_add_fuel (fs : FileSystem) (uninit : Int)
    (translationUnit_ : Storage → String → Option CursorTree) (exclude : List String) :
    ∀ (fuel k : Nat) (s : Storage),
      (updateLoop fs uninit translationUnit_ exclude fuel s).status ≠ .outOfFuel →
      updateLoop fs uninit translationUnit_ exclude (fuel + k) s
        = updateLoop fs uninit translationUnit_ exclude fuel s := by
  intro fuel
  induction fuel with
  | zero =>
    intro k s h
    rw [updateLoop] at h
    exact absurd rfl h
  | succ n ih =>
    intro k s h
    have hk : n + 1 + k = (n + k) + 1 := by omega
    rw [hk]
    by_cases hname : (s.nextFile fs).1 = ""
    · simp only [updateLoop, hname, if_true]
    · cases htu : translationUnit_ (s.nextFile fs).2 (s.nextFile fs).1 with
      | none => simp only [updateLoop, hname, if_false, htu]
      | some top =>
        cases hix : Indexer.create fs uninit (s.nextFile fs).1 exclude (s.nextFile fs).2 with
        | none => simp only [updateLoop, hname, if_false, htu, hix]
        | some ix =>
          cases hv : ix.visitChildren fs uninit top with
          | none => simp only [updateLoop, hname, if_false, htu, hix, hv]
          | some ix1 =>
            simp only [updateLoop, hname, if_false, htu, hix, hv] at h ⊢
            rw [ih k ix1.storage_ h]

/-- C11: the database `dbTwoUnits` is reached from the empty one by two calls of
`setCompileCommand` and has the self edge of both translation units.  The files are on disk
and the parse of `a.cpp` has a cursor located in `b.cpp`.  The pass of the update loop parses
`a.cpp` only and ends; `visit` has called `beginFile` for `b.cpp`, which deleted the edges
that leave `b.cpp`, and added the edge from `a.cpp` alone: `b.cpp` keeps its row in
`commands` and has no self edge, and `getCompileCommand` for `b.cpp` returns the command of
`a.cpp`. -/
theorem updateLoop_drops_self_edge (fuel : Nat) :
    SelfEdges dbTwoUnits ∧
    (updateLoop fsTwoUnits 0 parseTwoUnits [] (fuel + 2) dbTwoUnits).status = .finished ∧
    (updateLoop fsTwoUnits 0 parseTwoUnits [] (fuel + 2) dbTwoUnits).parsed = ["a.cpp"] ∧
    (updateLoop fsTwoUnits 0 parseTwoUnits [] (fuel + 2) dbTwoUnits).storage.files
      = [⟨1, "a.cpp", 100⟩, ⟨2, "b.cpp", 100⟩] ∧
    (updateLoop fsTwoUnits 0 parseTwoUnits [] (fuel + 2) dbTwoUnits).storage.commands
      = [⟨1, "/", serialize_ ["clang++", "a.cpp"]⟩, ⟨2, "/", serialize_ ["clang++", "b.cpp"]⟩] ∧
    (updateLoop fsTwoUnits 0 parseTwoUnits [] (fuel + 2) dbTwoUnits).storage.includes
      = [⟨1, 1⟩, ⟨1, 2⟩] ∧
    ¬ SelfEdges (updateLoop fsTwoUnits 0 parseTwoUnits [] (fuel + 2) dbTwoUnits).storage ∧
    (updateLoop fsTwoUnits 0 parseTwoUnits [] (fuel + 2) dbTwoUnits).storage.getCompileCommand
      "b.cpp" [] = some ("/", ["clang++", "a.cpp"]) := by
  have h : updateLoop fsTwoUnits 0 parseTwoUnits [] (2 + fuel) dbTwoUnits
      = updateLoop fsTwoUnits 0 parseTwoUnits [] 2 dbTwoUnits :=
    updateLoop_add_fuel fsTwoUnits 0 parseTwoUnits [] 2 fuel dbTwoUnits (by decide)
  rw [show fuel + 2 = 2 + fuel by omega, h]
  decide

end ClangTags
